import Mathlib

/-!
Verification of the eml2md email-to-markdown conversion pipeline.

This file shallowly embeds the core operations of the `eml2md` repository
(`eml2md.py` and `read_md_email.py`) and proves or refutes the frozen claims
about them.  Text is modelled as `List Char`, raw bytes as `List Nat`
(each < 256), Python datetimes as a record of calendar fields plus an
optional UTC-offset, and fallible Python operations as `Except`/`Option`
values.  All definitions are executable so that theorems about concrete
inputs can be settled by `decide` or `rfl`.
-/

set_option maxHeartbeats 1000000
set_option maxRecDepth 100000

namespace Eml2Md

abbrev Txt := List Char
abbrev Byte := Nat

def nl : Char := '\n'

/-- Python whitespace for `str.strip()` / regex `\s` (ASCII range). -/
def isPyWs (c : Char) : Bool :=
  c = ' ' || c = '\t' || c = '\n' || c = '\r' || c = '\x0b' || c = '\x0c'

/-- `str.lstrip()` -/
def pyLStrip (t : Txt) : Txt := t.dropWhile isPyWs

/-- `str.rstrip()` -/
def pyRStrip (t : Txt) : Txt := (t.reverse.dropWhile isPyWs).reverse

/-- `str.strip()` -/
def pyStrip (t : Txt) : Txt := pyRStrip (pyLStrip t)

/-- Helper for `re.sub(r"\s+", " ", ...)`: replace every maximal run of
whitespace by a single space.  The `Bool` records whether we are inside a
run whose first character was already emitted. -/
def collapseWsGo : Bool → Txt → Txt
  | _, [] => []
  | skipping, c :: rest =>
    if isPyWs c then
      if skipping then collapseWsGo true rest
      else ' ' :: collapseWsGo true rest
    else c :: collapseWsGo false rest

/-- `_clean_ws` from `read_md_email.py`:
`re.sub(r"\s+", " ", (text or "").strip())`. -/
def clean_ws (t : Txt) : Txt := collapseWsGo false (pyStrip t)

/-- First index at which `p` occurs as a contiguous substring of `t`
(Python `str.find`, with `none` for "not found"). -/
def findSub? (p : Txt) : Txt → Option Nat
  | [] => if p = [] then some 0 else Option.none
  | c :: rest =>
    if p.isPrefixOf (c :: rest) then some 0
    else (findSub? p rest).map (· + 1)

/-- Python `p in t`. -/
def containsSub (p t : Txt) : Bool := (findSub? p t).isSome

/-! ### Generic lemmas about `findSub?` -/

theorem findSub?_some (p : Txt) :
    ∀ (t : Txt) (i : Nat), findSub? p t = some i →
      p <+: t.drop i ∧ ∀ j, j < i → ¬ p <+: t.drop j := by
  intro t
  induction t with
  | nil =>
    intro i h
    by_cases hp : p = []
    · subst hp
      have h' : (some 0 : Option Nat) = some i := h
      cases h'
      exact ⟨List.nil_prefix, by omega⟩
    · simp [findSub?, hp] at h
  | cons c rest ih =>
    intro i h
    simp only [findSub?] at h
    by_cases hpre : p.isPrefixOf (c :: rest) = true
    · rw [if_pos hpre] at h
      cases h
      exact ⟨List.isPrefixOf_iff_prefix.mp hpre, by omega⟩
    · rw [if_neg hpre] at h
      rw [Option.map_eq_some'] at h
      obtain ⟨k, hk, hki⟩ := h
      obtain ⟨h1, h2⟩ := ih k hk
      constructor
      · subst hki
        simpa using h1
      · intro j hj
        subst hki
        cases j with
        | zero =>
          simp only [List.drop_zero]
          exact fun hc => hpre (List.isPrefixOf_iff_prefix.mpr hc)
        | succ j' =>
          simpa using h2 j' (by omega)

theorem findSub?_none (p : Txt) :
    ∀ (t : Txt), findSub? p t = Option.none →
      ∀ j, ¬ p <+: t.drop j := by
  intro t
  induction t with
  | nil =>
    intro h j
    by_cases hp : p = []
    · simp [findSub?, hp] at h
    · intro hc
      rw [List.drop_nil] at hc
      exact hp (List.prefix_nil.mp hc)
  | cons c rest ih =>
    intro h j
    simp only [findSub?] at h
    by_cases hpre : p.isPrefixOf (c :: rest) = true
    · rw [if_pos hpre] at h
      cases h
    · rw [if_neg hpre] at h
      rw [Option.map_eq_none'] at h
      cases j with
      | zero =>
        simp only [List.drop_zero]
        exact fun hc => hpre (List.isPrefixOf_iff_prefix.mpr hc)
      | succ j' =>
        simpa using ih h j'

/-! ## §4.1 Header/Content Decoder (C2)

`decode_content` from `eml2md.py` (lines 11-24).  A Python codec is
modelled by whether its name is registered (`known`; an unknown name makes
`bytes.decode` raise `LookupError` before any decoding is attempted) and a
partial decoding function (`none` models `UnicodeDecodeError`). -/

structure Codec where
  known : Bool
  decode : List Byte → Option Txt

inductive PyErr where
  | lookupError
  | unicodeDecodeError
  deriving DecidableEq, Repr

/-- `bytes.decode(charset)`: raises `LookupError` on an unregistered codec
name, `UnicodeDecodeError` when the codec rejects the bytes. -/
def codecDecode (c : Codec) (bs : List Byte) : Except PyErr Txt :=
  if c.known then
    match c.decode bs with
    | some t => .ok t
    | Option.none => .error .unicodeDecodeError
  else .error .lookupError

/-- Strict UTF-8 decoding of a byte list (`bytes.decode('utf-8')`):
rejects truncated sequences, stray continuation bytes, overlong forms and
surrogate code points. -/
def utf8Decode : List Byte → Option Txt
  | [] => some []
  | b :: rest =>
    if b < 0x80 then
      (utf8Decode rest).map (fun t => Char.ofNat b :: t)
    else if b < 0xC2 then Option.none
    else if b < 0xE0 then
      match rest with
      | b1 :: r =>
        if 0x80 ≤ b1 && b1 < 0xC0 then
          (utf8Decode r).map (fun t => Char.ofNat ((b % 32) * 64 + b1 % 64) :: t)
        else Option.none
      | [] => Option.none
    else if b < 0xF0 then
      match rest with
      | b1 :: b2 :: r =>
        if (0x80 ≤ b1 && b1 < 0xC0) && (0x80 ≤ b2 && b2 < 0xC0)
            && !(b = 0xE0 && b1 < 0xA0) && !(b = 0xED && 0xA0 ≤ b1) then
          (utf8Decode r).map
            (fun t => Char.ofNat (((b % 16) * 64 + b1 % 64) * 64 + b2 % 64) :: t)
        else Option.none
      | _ => Option.none
    else if b < 0xF5 then
      match rest with
      | b1 :: b2 :: b3 :: r =>
        if (0x80 ≤ b1 && b1 < 0xC0) && (0x80 ≤ b2 && b2 < 0xC0)
            && (0x80 ≤ b3 && b3 < 0xC0)
            && !(b = 0xF0 && b1 < 0x90) && !(b = 0xF4 && 0x90 ≤ b1) then
          (utf8Decode r).map
            (fun t =>
              Char.ofNat ((((b % 8) * 64 + b1 % 64) * 64 + b2 % 64) * 64 + b3 % 64) :: t)
        else Option.none
      | _ => Option.none
    else Option.none

/-- UTF-8 decoding with `errors='ignore'`: undecodable bytes are dropped
and decoding continues; never fails.  The fuel parameter (instantiated
with the list length, of which at least one byte is consumed per step)
keeps the recursion structural. -/
def utf8DecodeIgnoreGo : Nat → List Byte → Txt
  | 0, _ => []
  | _ + 1, [] => []
  | fuel + 1, b :: rest =>
    if b < 0x80 then Char.ofNat b :: utf8DecodeIgnoreGo fuel rest
    else if b < 0xC2 then utf8DecodeIgnoreGo fuel rest
    else if b < 0xE0 then
      match rest with
      | b1 :: r =>
        if 0x80 ≤ b1 && b1 < 0xC0 then
          Char.ofNat ((b % 32) * 64 + b1 % 64) :: utf8DecodeIgnoreGo fuel r
        else utf8DecodeIgnoreGo fuel rest
      | [] => []
    else if b < 0xF0 then
      match rest with
      | b1 :: b2 :: r =>
        if (0x80 ≤ b1 && b1 < 0xC0) && (0x80 ≤ b2 && b2 < 0xC0)
            && !(b = 0xE0 && b1 < 0xA0) && !(b = 0xED && 0xA0 ≤ b1) then
          Char.ofNat (((b % 16) * 64 + b1 % 64) * 64 + b2 % 64)
            :: utf8DecodeIgnoreGo fuel r
        else utf8DecodeIgnoreGo fuel rest
      | _ => utf8DecodeIgnoreGo fuel rest
    else if b < 0xF5 then
      match rest with
      | b1 :: b2 :: b3 :: r =>
        if (0x80 ≤ b1 && b1 < 0xC0) && (0x80 ≤ b2 && b2 < 0xC0)
            && (0x80 ≤ b3 && b3 < 0xC0)
            && !(b = 0xF0 && b1 < 0x90) && !(b = 0xF4 && 0x90 ≤ b1) then
          Char.ofNat ((((b % 8) * 64 + b1 % 64) * 64 + b2 % 64) * 64 + b3 % 64)
            :: utf8DecodeIgnoreGo fuel r
        else utf8DecodeIgnoreGo fuel rest
      | _ => utf8DecodeIgnoreGo fuel rest
    else utf8DecodeIgnoreGo fuel rest

def utf8DecodeIgnore (bs : List Byte) : Txt := utf8DecodeIgnoreGo bs.length bs

def utf8Codec : Codec := ⟨true, utf8Decode⟩

/-- `decode_content` (eml2md.py lines 11-24): decode the payload with the
declared charset (default UTF-8); a `UnicodeDecodeError` falls through to
plain UTF-8 and then to UTF-8 with `errors='ignore'`.  Only
`UnicodeDecodeError` is caught by the `except` clauses. -/
def decode_content (payload : List Byte) (charsetHeader : Option Codec) :
    Except PyErr Txt :=
  let charset := charsetHeader.getD utf8Codec
  match codecDecode charset payload with
  | .ok t => .ok t
  | .error .unicodeDecodeError =>
    match codecDecode utf8Codec payload with
    | .ok t => .ok t
    | .error .unicodeDecodeError => .ok (utf8DecodeIgnore payload)
    | .error e => .error e
  | .error e => .error e

/-- A declared charset whose name is not a registered codec
(e.g. `charset="bogus-charset"` in a MIME header). -/
def bogusCodec : Codec := ⟨false, fun _ => Option.none⟩

/-- C2: the claim states `decode_content` never raises for any body part
and ANY declared charset.  The code only catches `UnicodeDecodeError`, so
a part declaring an unregistered charset makes `bytes.decode` raise
`LookupError`, which propagates out of `decode_content` — here evaluated
on the payload `b"hi"` with an unknown declared charset. -/
theorem decode_content_lookup_error_escapes :
    decode_content [104, 105] (some bogusCodec) = .error .lookupError := rfl

/-! ## §4.6 Document Parser: quoted-history truncation (C7)

`parse_emails` from `read_md_email.py`, lines 138-149. -/

/-- The `________________________________` separator token (32 underscores)
used by the source renderer. -/
def underscoreToken : Txt := List.replicate 32 '_'

/-- Scan for the first match of the MULTILINE regex `^_{6,}.*$`: the first
position that starts a line and is followed by at least six underscores.
The flag says whether the current position starts a line. -/
def findULine : Bool → Txt → Option Nat
  | _, [] => Option.none
  | atStart, c :: rest =>
    if atStart && (List.replicate 6 '_').isPrefixOf (c :: rest) then some 0
    else (findULine (c = nl) rest).map (· + 1)

/-- Lines 138-149 of `read_md_email.py`: compute `split_pos` as the start
of the first line of six-or-more underscores, falling back (only when no
such line exists) to `content_raw.find(token)` for the 32-underscore
token; truncate there and `rstrip`, or keep `content_raw` whole. -/
def truncateQuotedHistory (content_raw : Txt) : Txt :=
  let split_pos : Option Nat :=
    match findULine true content_raw with
    | some i => some i
    | Option.none => findSub? underscoreToken content_raw
  match split_pos with
  | some p => pyRStrip (content_raw.take p)
  | Option.none => content_raw

/-- Position of the earliest quoted-history marker as the claim describes
it: the minimum over both marker kinds of their first positions. -/
def earliestMarkerPos (t : Txt) : Option Nat :=
  match findULine true t, findSub? underscoreToken t with
  | some i, some p => some (min i p)
  | some i, Option.none => some i
  | Option.none, some p => some p
  | Option.none, Option.none => Option.none

/-- The truncation rule exactly as the claim words it: truncate at
whichever of the two markers occurs at the earliest position. -/
def truncateClaimed (t : Txt) : Txt :=
  match earliestMarkerPos t with
  | some p => pyRStrip (t.take p)
  | Option.none => t

/-- A content text where the 32-underscore token occurs mid-line (position
1) before a six-underscore line (position 35). -/
def c7Input : Txt :=
  'a' :: List.replicate 32 '_' ++ ['b', nl] ++ List.replicate 6 '_' ++ ['x']

/-- C7 counterexample: the code does NOT truncate at whichever marker
occurs earliest.  When the 32-underscore token occurs mid-line before a
line of six underscores, the code still truncates at the (later)
underscore line, because the token is only consulted when no
six-underscore line exists at all. -/
theorem truncate_not_earliest_marker :
    truncateQuotedHistory c7Input ≠ truncateClaimed c7Input := by decide

/-- A position starting a line of `t` (start of text or just after a newline). -/
def IsLineStart (t : Txt) (i : Nat) : Prop :=
  i = 0 ∨ ∃ j, i = j + 1 ∧ t.get? j = some nl

/-- A line of six-or-more underscores starts at position `i`. -/
def LineMarkerAt (t : Txt) (i : Nat) : Prop :=
  IsLineStart t i ∧ List.replicate 6 '_' <+: t.drop i

/-- The 32-underscore separator token occurs at position `i`. -/
def TokenAt (t : Txt) (i : Nat) : Prop :=
  underscoreToken <+: t.drop i

/-- Auxiliary line-start predicate for reasoning about `findULine`'s scan:
the flag plays the role of "position 0 starts a line". -/
def lineStartAux (b : Bool) (t : Txt) (i : Nat) : Prop :=
  (i = 0 ∧ b = true) ∨ ∃ j, i = j + 1 ∧ t.get? j = some nl

def markerAtAux (b : Bool) (t : Txt) (i : Nat) : Prop :=
  lineStartAux b t i ∧ List.replicate 6 '_' <+: t.drop i

theorem markerAtAux_shift (b : Bool) (c : Char) (rest : Txt) (j : Nat) :
    markerAtAux (decide (c = nl)) rest j ↔ markerAtAux b (c :: rest) (j + 1) := by
  unfold markerAtAux lineStartAux
  constructor
  · rintro ⟨hls | ⟨j', rfl, hj⟩, hpre⟩
    · obtain ⟨rfl, hb⟩ := hls
      rw [decide_eq_true_iff] at hb
      exact ⟨Or.inr ⟨0, rfl, by simp [hb]⟩, by simpa using hpre⟩
    · exact ⟨Or.inr ⟨j' + 1, rfl, by simpa using hj⟩, by simpa using hpre⟩
  · rintro ⟨⟨h0, _⟩ | ⟨j', hj', hg⟩, hpre⟩
    · omega
    · have hg' : (c :: rest).get? j = some nl := by
        have hjj : j = j' := by omega
        rw [hjj]
        exact hg
      cases j with
      | zero =>
        simp only [List.get?, Option.some.injEq] at hg'
        exact ⟨Or.inl ⟨rfl, decide_eq_true hg'⟩, by simpa using hpre⟩
      | succ j3 =>
        refine ⟨Or.inr ⟨j3, rfl, ?_⟩, by simpa using hpre⟩
        simpa using hg'

theorem findULine_some :
    ∀ (t : Txt) (b : Bool) (i : Nat), findULine b t = some i →
      markerAtAux b t i ∧ ∀ j, j < i → ¬ markerAtAux b t j := by
  intro t
  induction t with
  | nil => intro b i h; simp [findULine] at h
  | cons c rest ih =>
    intro b i h
    simp only [findULine] at h
    by_cases htop : (b && (List.replicate 6 '_').isPrefixOf (c :: rest)) = true
    · rw [if_pos htop] at h
      cases h
      rw [Bool.and_eq_true] at htop
      refine ⟨⟨Or.inl ⟨rfl, htop.1⟩, ?_⟩, by omega⟩
      simpa using List.isPrefixOf_iff_prefix.mp htop.2
    · rw [if_neg htop] at h
      rw [Option.map_eq_some'] at h
      obtain ⟨k, hk, hki⟩ := h
      obtain ⟨hm, hmin⟩ := ih (decide (c = nl)) k hk
      subst hki
      constructor
      · exact (markerAtAux_shift b c rest k).mp hm
      · intro j hj hmj
        cases j with
        | zero =>
          obtain ⟨hls', hpre'⟩ := hmj
          rcases hls' with ⟨_, hb⟩ | ⟨j', hj', _⟩
          · rw [List.drop_zero] at hpre'
            exact htop (by
              rw [Bool.and_eq_true]
              exact ⟨hb, List.isPrefixOf_iff_prefix.mpr hpre'⟩)
          · omega
        | succ j' =>
          exact hmin j' (by omega) ((markerAtAux_shift b c rest j').mpr hmj)

theorem findULine_none :
    ∀ (t : Txt) (b : Bool), findULine b t = Option.none →
      ∀ j, ¬ markerAtAux b t j := by
  intro t
  induction t with
  | nil =>
    intro b _ j hm
    obtain ⟨_, hpre⟩ := hm
    rw [List.drop_nil] at hpre
    have := List.prefix_nil.mp hpre
    simp [List.replicate] at this
  | cons c rest ih =>
    intro b h j
    simp only [findULine] at h
    by_cases htop : (b && (List.replicate 6 '_').isPrefixOf (c :: rest)) = true
    · rw [if_pos htop] at h
      cases h
    · rw [if_neg htop] at h
      rw [Option.map_eq_none'] at h
      intro hmj
      cases j with
      | zero =>
        obtain ⟨hls, hpre⟩ := hmj
        rcases hls with ⟨_, hb⟩ | ⟨j', hj', _⟩
        · rw [List.drop_zero] at hpre
          exact htop (by
            rw [Bool.and_eq_true]
            exact ⟨hb, List.isPrefixOf_iff_prefix.mpr hpre⟩)
        · omega
      | succ j' =>
        exact ih (decide (c = nl)) h j' ((markerAtAux_shift b c rest j').mpr hmj)

theorem lineStartAux_true (t : Txt) (i : Nat) :
    lineStartAux true t i ↔ IsLineStart t i := by
  unfold lineStartAux IsLineStart
  constructor
  · rintro (⟨h, _⟩ | h)
    · exact Or.inl h
    · exact Or.inr h
  · rintro (h | h)
    · exact Or.inl ⟨h, rfl⟩
    · exact Or.inr h

theorem markerAtAux_true (t : Txt) (i : Nat) :
    markerAtAux true t i ↔ LineMarkerAt t i := by
  unfold markerAtAux LineMarkerAt
  rw [lineStartAux_true]

/-- C7 amended: the reverse parser truncates content at the first line of
six-or-more underscores whenever such a line exists (regardless of where
the 32-underscore token occurs); only when no such line exists does it
truncate at the first occurrence of the 32-underscore separator token; if
neither marker is present the full content is kept unchanged. -/
theorem truncate_amended (t : Txt) :
    ((∃ i, LineMarkerAt t i) →
      ∃ i, LineMarkerAt t i ∧ (∀ j, j < i → ¬ LineMarkerAt t j) ∧
        truncateQuotedHistory t = pyRStrip (t.take i)) ∧
    ((¬ ∃ i, LineMarkerAt t i) → (∃ p, TokenAt t p) →
      ∃ p, TokenAt t p ∧ (∀ q, q < p → ¬ TokenAt t q) ∧
        truncateQuotedHistory t = pyRStrip (t.take p)) ∧
    ((¬ ∃ i, LineMarkerAt t i) → (¬ ∃ p, TokenAt t p) →
      truncateQuotedHistory t = t) := by
  refine ⟨?_, ?_, ?_⟩
  · rintro ⟨i, hi⟩
    cases hu : findULine true t with
    | none =>
      exact absurd ((markerAtAux_true t i).mpr hi) (findULine_none t true hu i)
    | some k =>
      obtain ⟨hk, hmin⟩ := findULine_some t true k hu
      refine ⟨k, (markerAtAux_true t k).mp hk, ?_, ?_⟩
      · intro j hj hmj
        exact hmin j hj ((markerAtAux_true t j).mpr hmj)
      · unfold truncateQuotedHistory
        rw [hu]
  · rintro hno ⟨p, hp⟩
    cases hu : findULine true t with
    | some k =>
      obtain ⟨hk, _⟩ := findULine_some t true k hu
      exact absurd ⟨k, (markerAtAux_true t k).mp hk⟩ hno
    | none =>
      cases hf : findSub? underscoreToken t with
      | none => exact absurd hp (findSub?_none _ t hf p)
      | some q =>
        obtain ⟨hq, hqmin⟩ := findSub?_some _ t q hf
        refine ⟨q, hq, hqmin, ?_⟩
        unfold truncateQuotedHistory
        rw [hu, hf]
  · intro hno hnt
    cases hu : findULine true t with
    | some k =>
      obtain ⟨hk, _⟩ := findULine_some t true k hu
      exact absurd ⟨k, (markerAtAux_true t k).mp hk⟩ hno
    | none =>
      cases hf : findSub? underscoreToken t with
      | some q =>
        obtain ⟨hq, _⟩ := findSub?_some _ t q hf
        exact absurd ⟨q, hq⟩ hnt
      | none =>
        unfold truncateQuotedHistory
        rw [hu, hf]

/-- Concrete content with a six-underscore line at position 4
(`"abc\n______xy"`); the amended truncation theorem applies to it. -/
def c7WitnessInput : Txt :=
  ['a', 'b', 'c', nl] ++ List.replicate 6 '_' ++ ['x', 'y']

theorem truncate_amended_witness :
    (∃ i, LineMarkerAt c7WitnessInput i) ∧
    ∃ i, LineMarkerAt c7WitnessInput i ∧
      (∀ j, j < i → ¬ LineMarkerAt c7WitnessInput j) ∧
      truncateQuotedHistory c7WitnessInput = pyRStrip (c7WitnessInput.take i) :=
  have h : ∃ i, LineMarkerAt c7WitnessInput i :=
    ⟨4, Or.inr ⟨3, rfl, rfl⟩, by decide⟩
  ⟨h, (truncate_amended c7WitnessInput).1 h⟩

/-! ## Datetime model

A Python `datetime` is its six calendar/clock fields plus an optional
UTC offset (in seconds; `none` models a naive datetime).  Calendar
arithmetic (needed only by the timezone normalization in
`deduplicate_emails`) uses the standard civil-calendar conversion
algorithms. -/

structure DT6 where
  year : Nat
  month : Nat
  day : Nat
  hour : Nat
  minute : Nat
  second : Nat
  deriving DecidableEq, Repr

structure PyDateTime where
  wall : DT6
  off : Option Int
  deriving DecidableEq, Repr

/-- Days since 1970-01-01 of a civil date (Howard Hinnant's algorithm,
with truncating division; all pipeline dates have `year ≥ 1`, for which
the sign adjustments are inert). -/
def daysFromCivil (y m d : Int) : Int :=
  let y' := if m ≤ 2 then y - 1 else y
  let era := (if 0 ≤ y' then y' else y' - 399) / 400
  let yoe := y' - era * 400
  let mp := (m + 9) % 12
  let doy := (153 * mp + 2) / 5 + d - 1
  let doe := yoe * 365 + yoe / 4 - yoe / 100 + doy
  era * 146097 + doe - 719468

/-- Civil date from days since 1970-01-01 (inverse of `daysFromCivil`). -/
def civilFromDays (z : Int) : Int × Int × Int :=
  let z' := z + 719468
  let era := (if 0 ≤ z' then z' else z' - 146096) / 146097
  let doe := z' - era * 146097
  let yoe := (doe - doe / 1460 + doe / 36524 - doe / 146096) / 365
  let y := yoe + era * 400
  let doy := doe - (365 * yoe + yoe / 4 - yoe / 100)
  let mp := (5 * doy + 2) / 153
  let d := doy - (153 * mp + 2) / 5 + 1
  let m := if mp < 10 then mp + 3 else mp - 9
  (if m ≤ 2 then y + 1 else y, m, d)

def dt6ToSecs (t : DT6) : Int :=
  daysFromCivil (t.year : Int) (t.month : Int) (t.day : Int) * 86400
    + (t.hour : Int) * 3600 + (t.minute : Int) * 60 + (t.second : Int)

def secsToDT6 (s : Int) : DT6 :=
  let days := (if s % 86400 = 0 ∨ 0 ≤ s then s / 86400 else s / 86400 - 1)
  let rem := s - days * 86400
  let ymd := civilFromDays days
  ⟨ymd.1.toNat, ymd.2.1.toNat, ymd.2.2.toNat,
    (rem / 3600).toNat, (rem % 3600 / 60).toNat, (rem % 60).toNat⟩

/-- The value of a record's `date` field: absent (`None`), an unparsed
fallback string, or a datetime. -/
inductive PyVal where
  | none
  | str (s : Txt)
  | dt (d : PyDateTime)
  deriving DecidableEq, Repr

/-- Lines 280-285 of `eml2md.py`:
`email['date'].astimezone(datetime.timezone.utc).replace(tzinfo=None)`
applied when the date is a timezone-aware datetime. -/
def normalizeDateVal : PyVal → PyVal
  | .dt ⟨w, some off⟩ => .dt ⟨secsToDT6 (dt6ToSecs w - off), Option.none⟩
  | v => v

/-- One logical email (the dictionaries built by `extract_email_parts`
and `process_eml_file`). -/
structure MessageRecord where
  date : PyVal
  «from» : Txt
  «to» : Txt
  cc : Txt
  subject : Txt
  body : Txt
  attachments : List (Txt × List Byte × Txt)
  deriving DecidableEq, Repr

def pyNormalizeRecord (r : MessageRecord) : MessageRecord :=
  { r with date := normalizeDateVal r.date }

/-- `datetime.min` (0001-01-01 00:00:00), the sort key used for records
whose date field is not a datetime. -/
def dtMin : DT6 := ⟨1, 1, 1, 0, 0, 0⟩

/-- Sort key of lines 291-294 / 331-335: the date field when it is a
datetime, else `datetime.min`. -/
def dateKey (v : PyVal) : DT6 :=
  match v with
  | .dt d => d.wall
  | _ => dtMin

/-- Python `datetime` comparison: lexicographic on the six fields. -/
def dt6LeP (a b : DT6) : Prop :=
  a.year < b.year ∨ (a.year = b.year ∧
    (a.month < b.month ∨ (a.month = b.month ∧
      (a.day < b.day ∨ (a.day = b.day ∧
        (a.hour < b.hour ∨ (a.hour = b.hour ∧
          (a.minute < b.minute ∨ (a.minute = b.minute ∧
            a.second ≤ b.second)))))))))

instance : DecidableRel dt6LeP := fun a b => by
  unfold dt6LeP
  infer_instance

theorem dt6LeP_total (a b : DT6) : dt6LeP a b ∨ dt6LeP b a := by
  unfold dt6LeP
  omega

theorem dt6LeP_trans {a b c : DT6} (h1 : dt6LeP a b) (h2 : dt6LeP b c) :
    dt6LeP a c := by
  unfold dt6LeP at *
  omega

/-- The relation realizing `sort(key=date-or-min, reverse=True)` as a
stable insertion sort: `a` precedes `b` when `a`'s key is ≥ `b`'s. -/
def dedupSortRel (a b : MessageRecord) : Prop :=
  dt6LeP (dateKey b.date) (dateKey a.date)

instance : DecidableRel dedupSortRel := fun a b => by
  unfold dedupSortRel
  infer_instance

instance : IsTotal MessageRecord dedupSortRel :=
  ⟨fun a b => (dt6LeP_total (dateKey b.date) (dateKey a.date))⟩

instance : IsTrans MessageRecord dedupSortRel :=
  ⟨fun _ _ _ h1 h2 => dt6LeP_trans h2 h1⟩

/-! ## §4.4 Fingerprint (simhash / CRC32, eml2md.py lines 176-262) -/

/-- One byte step of the bitwise CRC-32 (polynomial 0xEDB88320). -/
def crc32Byte (crc : Nat) (b : Byte) : Nat :=
  let step := fun c : Nat => if c % 2 = 1 then (c / 2) ^^^ 0xEDB88320 else c / 2
  step (step (step (step (step (step (step (step (crc ^^^ b))))))))

/-- `binascii.crc32` over a byte string. -/
def crc32 (bs : List Byte) : Nat :=
  (bs.foldl crc32Byte 0xFFFFFFFF) ^^^ 0xFFFFFFFF

/-- `str.encode()` — UTF-8 encoding. -/
def utf8EncodeChar (c : Char) : List Byte :=
  let n := c.toNat
  if n < 0x80 then [n]
  else if n < 0x800 then [0xC0 + n / 64, 0x80 + n % 64]
  else if n < 0x10000 then
    [0xE0 + n / 4096, 0x80 + (n / 64) % 64, 0x80 + n % 64]
  else
    [0xF0 + n / 262144, 0x80 + (n / 4096) % 64, 0x80 + (n / 64) % 64, 0x80 + n % 64]

def utf8Encode (t : Txt) : List Byte := t.flatMap utf8EncodeChar

/-- Python `str.split()` (split on whitespace runs, no empty fields). -/
def pySplitWsGo : Option Txt → Txt → List Txt
  | Option.none, [] => []
  | some cur, [] => [cur]
  | Option.none, c :: rest =>
    if isPyWs c then pySplitWsGo Option.none rest
    else pySplitWsGo (some [c]) rest
  | some cur, c :: rest =>
    if isPyWs c then cur :: pySplitWsGo Option.none rest
    else pySplitWsGo (some (cur ++ [c])) rest

def pySplitWs (t : Txt) : List Txt := pySplitWsGo Option.none t

/-- Adjacent-word bigrams: `[' '.join(words[i:i+2]) for i in range(len(words)-1)]`. -/
def bigrams : List Txt → List Txt
  | [] => []
  | [_] => []
  | w1 :: w2 :: rest => (w1 ++ ' ' :: w2) :: bigrams (w2 :: rest)

/-- `simhash(text, num_bits=64)` (lines 176-213): normalize (lowercase,
collapse whitespace), take words and bigrams as features, accumulate a
64-entry vector of ±1 votes driven by each feature's CRC-32 bits, then
emit the sign vector as a 64-bit fingerprint. -/
def simhash (text : Txt) : Nat :=
  let normalized := collapseWsGo false (text.map Char.toLower)
  let words := pySplitWs normalized
  let features := words ++ bigrams words
  let v : List Int := features.foldl
    (fun v f =>
      let h := crc32 (utf8Encode f) &&& 0xFFFFFFFF
      (List.range 64).map (fun i => v.getD i 0 + if h.testBit i then 1 else -1))
    (List.replicate 64 (0 : Int))
  (List.range 64).foldl
    (fun fp i => if 0 < v.getD i 0 then fp ||| (1 <<< i) else fp) 0

/-- `bin(hash1 ^ hash2).count('1')` — population count with a fuel
argument for structural recursion. -/
def popCountGo : Nat → Nat → Nat
  | 0, _ => 0
  | fuel + 1, n => if n = 0 then 0 else n % 2 + popCountGo fuel (n / 2)

def popCount (n : Nat) : Nat := popCountGo n n

/-- `hamming_distance` (lines 216-227). -/
def hamming_distance (hash1 hash2 : Nat) : Nat := popCount (hash1 ^^^ hash2)

/-- `"".split('\n')`-style split used on the body. -/
def splitOnNl : Txt → List Txt
  | [] => [[]]
  | c :: rest =>
    if c = nl then [] :: splitOnNl rest
    else
      match splitOnNl rest with
      | w :: ws => (c :: w) :: ws
      | [] => [[c]]

/-- `" ".join(...)`. -/
def joinSpace : List Txt → Txt
  | [] => []
  | [w] => w
  | w :: ws => w ++ ' ' :: joinSpace ws

/-- `email_feature_hash` (lines 230-262): fingerprint of sender, subject
and the first five non-empty body lines. -/
def email_feature_hash (email : MessageRecord) : Nat :=
  let content1 : Txt := if email.«from» ≠ [] then email.«from» ++ [' '] else []
  let content2 : Txt :=
    if email.subject ≠ [] then content1 ++ email.subject ++ [' '] else content1
  let lines := ((splitOnNl email.body).map pyStrip).filter (· ≠ [])
  let key_lines := lines.take (min 5 lines.length)
  let content := content2 ++ joinSpace key_lines
  simhash content

def hashPair (e : MessageRecord) : MessageRecord × Nat := (e, email_feature_hash e)

/-! ## §4.4 Deduplicator (eml2md.py lines 265-318) -/

/-- Inner loop (lines 309-314): one pass over `enumerate(email_hashes)`
adding to `used_indices` every index `j ∉ used`, `j ≠ i` whose hash is
within `threshold` of the representative's `hash1`. -/
def dedupInner (thr : Nat) (h1 : Nat) (i : Nat) :
    List (Nat × MessageRecord × Nat) → List Nat → List Nat
  | [], used => used
  | (j, _, h2) :: rest, used =>
    dedupInner thr h1 i rest
      (if ¬ j ∈ used ∧ j ≠ i ∧ hamming_distance h1 h2 ≤ thr then j :: used else used)

/-- Outer loop (lines 300-314) over the enumerated sorted pair list:
skip used indices, keep the record as a surviving representative, mark
near-duplicates used. -/
def dedupOuter (thr : Nat) (allPairs : List (Nat × MessageRecord × Nat)) :
    List (Nat × MessageRecord × Nat) → List Nat → List MessageRecord
  | [], _ => []
  | (i, e1, h1) :: rest, used =>
    if i ∈ used then dedupOuter thr allPairs rest used
    else e1 :: dedupOuter thr allPairs rest (dedupInner thr h1 i allPairs (i :: used))

/-- `deduplicate_emails` (lines 265-318).  The in-place timezone
normalization of lines 280-285 mutates the records of the input list, so
the embedding returns both the post-call value of the input list (first
component) and the returned unique list (second component). -/
def deduplicate_emails_full (emails : List MessageRecord) (threshold : Nat) :
    List MessageRecord × List MessageRecord :=
  if emails = [] then ([], [])
  else
    let normalized := emails.map pyNormalizeRecord
    let email_hashes := normalized.map hashPair
    let sortedPairs := List.insertionSort
      (fun p q : MessageRecord × Nat => dedupSortRel p.1 q.1) email_hashes
    (normalized, dedupOuter threshold sortedPairs.enum sortedPairs.enum [])

def deduplicate_emails (emails : List MessageRecord) (threshold : Nat) :
    List MessageRecord :=
  (deduplicate_emails_full emails threshold).2

/-! ### Claim-side deduplicator (C3) -/

/-- Greedy absorption exactly as the claim words it: keep the first record
of the (date-descending) list as a surviving representative and discard
every later record whose fingerprint Hamming distance to it is at most
the threshold; recurse on the survivors.  `fuel` (instantiated with the
list length, which the filter never increases) keeps recursion structural. -/
def greedyAbsorb (thr : Nat) : Nat → List MessageRecord → List MessageRecord
  | 0, _ => []
  | _ + 1, [] => []
  | fuel + 1, e :: rest =>
    e :: greedyAbsorb thr fuel
      (rest.filter
        (fun e2 => thr < hamming_distance (email_feature_hash e) (email_feature_hash e2)))

/-- The deduplication algorithm as described by the claim: stable-sort by
date descending (non-datetime dates acting as the minimal timestamp,
hence sorting last), then greedily absorb near-duplicates. -/
def dedupClaim (emails : List MessageRecord) (thr : Nat) : List MessageRecord :=
  let sorted := List.insertionSort dedupSortRel emails
  greedyAbsorb thr sorted.length sorted

/-- Pair-level greedy absorption used to bridge the index-set loop of the
source to `greedyAbsorb`. -/
def specLoopPairs (thr : Nat) : Nat → List (MessageRecord × Nat) → List (MessageRecord × Nat)
  | 0, _ => []
  | _ + 1, [] => []
  | fuel + 1, p :: rest =>
    p :: specLoopPairs thr fuel (rest.filter (fun q => thr < hamming_distance p.2 q.2))

/-! ### Equivalence of the index-set loop with the greedy description -/

theorem map_eq_self_of {α : Type _} (f : α → α) :
    ∀ (l : List α), (∀ x ∈ l, f x = x) → l.map f = l := by
  intro l
  induction l with
  | nil => intro _; rfl
  | cons a rest ih =>
    intro h
    simp only [List.map_cons]
    rw [h a (List.mem_cons_self a rest), ih (fun x hx => h x (List.mem_cons_of_mem a hx))]

theorem specLoopPairs_fuel (thr : Nat) :
    ∀ (f1 f2 : Nat) (l : List (MessageRecord × Nat)),
      l.length ≤ f1 → l.length ≤ f2 →
      specLoopPairs thr f1 l = specLoopPairs thr f2 l := by
  intro f1
  induction f1 with
  | zero =>
    intro f2 l h1 _
    have hl : l = [] := List.length_eq_zero.mp (by omega)
    subst hl
    cases f2 <;> rfl
  | succ f ih =>
    intro f2 l h1 h2
    cases l with
    | nil => cases f2 <;> rfl
    | cons p rest =>
      cases f2 with
      | zero => simp at h2
      | succ f2' =>
        simp only [specLoopPairs, List.cons.injEq, true_and]
        apply ih
        · have := List.length_filter_le
            (fun q => decide (thr < hamming_distance p.2 q.2)) rest
          simp only [List.length_cons] at h1
          omega
        · have := List.length_filter_le
            (fun q => decide (thr < hamming_distance p.2 q.2)) rest
          simp only [List.length_cons] at h2
          omega

theorem greedyAbsorb_fuel (thr : Nat) :
    ∀ (f1 f2 : Nat) (l : List MessageRecord),
      l.length ≤ f1 → l.length ≤ f2 →
      greedyAbsorb thr f1 l = greedyAbsorb thr f2 l := by
  intro f1
  induction f1 with
  | zero =>
    intro f2 l h1 _
    have hl : l = [] := List.length_eq_zero.mp (by omega)
    subst hl
    cases f2 <;> rfl
  | succ f ih =>
    intro f2 l h1 h2
    cases l with
    | nil => cases f2 <;> rfl
    | cons e rest =>
      cases f2 with
      | zero => simp at h2
      | succ f2' =>
        simp only [greedyAbsorb, List.cons.injEq, true_and]
        apply ih
        · have := List.length_filter_le
            (fun e2 => decide (thr < hamming_distance (email_feature_hash e)
              (email_feature_hash e2))) rest
          simp only [List.length_cons] at h1
          omega
        · have := List.length_filter_le
            (fun e2 => decide (thr < hamming_distance (email_feature_hash e)
              (email_feature_hash e2))) rest
          simp only [List.length_cons] at h2
          omega

theorem mem_dedupInner (thr h1 i : Nat) :
    ∀ (L : List (Nat × MessageRecord × Nat)) (used : List Nat) (j : Nat),
      j ∈ dedupInner thr h1 i L used ↔
        j ∈ used ∨ ∃ q ∈ L, q.1 = j ∧ j ≠ i ∧ hamming_distance h1 q.2.2 ≤ thr := by
  intro L
  induction L with
  | nil =>
    intro used j
    simp [dedupInner]
  | cons q rest ih =>
    intro used j
    obtain ⟨j', e', h2'⟩ := q
    simp only [dedupInner]
    rw [ih]
    by_cases hc : ¬ j' ∈ used ∧ j' ≠ i ∧ hamming_distance h1 h2' ≤ thr
    · rw [if_pos hc]
      simp only [List.mem_cons]
      constructor
      · rintro ((rfl | hju) | ⟨q, hq, hq1, hq2, hq3⟩)
        · exact Or.inr ⟨(j, e', h2'), Or.inl rfl, rfl, hc.2.1, hc.2.2⟩
        · exact Or.inl hju
        · exact Or.inr ⟨q, Or.inr hq, hq1, hq2, hq3⟩
      · rintro (hju | ⟨q, (rfl | hq), hq1, hq2, hq3⟩)
        · exact Or.inl (Or.inr hju)
        · exact Or.inl (Or.inl hq1.symm)
        · exact Or.inr ⟨q, hq, hq1, hq2, hq3⟩
    · rw [if_neg hc]
      constructor
      · rintro (hju | ⟨q, hq, hq1, hq2, hq3⟩)
        · exact Or.inl hju
        · exact Or.inr ⟨q, List.mem_cons_of_mem _ hq, hq1, hq2, hq3⟩
      · rintro (hju | ⟨q, hq, hq1, hq2, hq3⟩)
        · exact Or.inl hju
        · rcases List.mem_cons.mp hq with rfl | hq'
          · have hj : j' = j := hq1
            subst hj
            by_cases hu : j' ∈ used
            · exact Or.inl hu
            · exact absurd ⟨hu, hq2, hq3⟩ hc
          · exact Or.inr ⟨q, hq', hq1, hq2, hq3⟩

theorem dedupInner_subset (thr h1 i : Nat)
    (L : List (Nat × MessageRecord × Nat)) (used : List Nat) :
    ∀ j ∈ used, j ∈ dedupInner thr h1 i L used :=
  fun j hj => (mem_dedupInner thr h1 i L used j).mpr (Or.inl hj)

theorem mem_enumFrom_iff {α : Type _} :
    ∀ (l : List α) (n j : Nat) (x : α),
      (j, x) ∈ List.enumFrom n l ↔ n ≤ j ∧ l.get? (j - n) = some x := by
  intro l
  induction l with
  | nil =>
    intro n j x
    simp [List.enumFrom]
  | cons a rest ih =>
    intro n j x
    simp only [List.enumFrom, List.mem_cons]
    constructor
    · rintro (h | h)
      · have h1 : j = n := congrArg Prod.fst h
        have h2 : x = a := congrArg Prod.snd h
        subst h1
        subst h2
        exact ⟨Nat.le_refl _, by simp⟩
      · obtain ⟨hn, hg⟩ := (ih (n + 1) j x).mp h
        refine ⟨by omega, ?_⟩
        rw [show j - n = (j - (n + 1)) + 1 by omega]
        simpa using hg
    · rintro ⟨hn, hg⟩
      by_cases hj : j = n
      · subst hj
        simp only [Nat.sub_self] at hg
        simp only [List.get?] at hg
        cases hg
        exact Or.inl rfl
      · refine Or.inr ((ih (n + 1) j x).mpr ⟨by omega, ?_⟩)
        rw [show j - n = (j - (n + 1)) + 1 by omega] at hg
        simpa using hg

/-- The index-set loop of `deduplicate_emails`, run on any suffix of the
enumerated sorted list with all earlier indices already used, equals the
pair-level greedy absorption on the not-yet-used part of that suffix. -/
theorem dedupOuter_eq_spec (thr : Nat) :
    ∀ (rest : List (MessageRecord × Nat)) (n : Nat) (used : List Nat)
      (P E : List (Nat × MessageRecord × Nat)),
      E = P ++ List.enumFrom n rest →
      (∀ q ∈ P, q.1 < n) →
      (∀ j, j < n → j ∈ used) →
      dedupOuter thr E (List.enumFrom n rest) used
        = (specLoopPairs thr
            (((List.enumFrom n rest).filter (fun q => decide (¬ q.1 ∈ used))).map Prod.snd).length
            (((List.enumFrom n rest).filter (fun q => decide (¬ q.1 ∈ used))).map Prod.snd)).map
            Prod.fst := by
  intro rest
  induction rest with
  | nil =>
    intro n used P E _ _ _
    simp [List.enumFrom, dedupOuter, specLoopPairs]
  | cons p rest' ih =>
    intro n used P E hE hP hused
    obtain ⟨e1, h1⟩ := p
    simp only [List.enumFrom] at hE ⊢
    by_cases hn : n ∈ used
    · simp only [dedupOuter, if_pos hn]
      rw [List.filter_cons_of_neg (fun hd => (of_decide_eq_true hd) hn)]
      exact ih (n + 1) used (P ++ [(n, e1, h1)]) E
        (by rw [hE, List.append_cons])
        (by
          intro q hq
          rcases List.mem_append.mp hq with h | h
          · exact Nat.lt_succ_of_lt (hP q h)
          · rcases List.mem_singleton.mp h with rfl
            exact Nat.lt_succ_self n)
        (by
          intro j hj
          rcases Nat.lt_succ_iff_lt_or_eq.mp hj with h | h
          · exact hused j h
          · rw [h]
            exact hn)
    · simp only [dedupOuter, if_neg hn]
      rw [List.filter_cons_of_pos (by
        rw [decide_eq_true_iff]
        exact hn)]
      simp only [List.map_cons, List.length_cons, specLoopPairs]
      congr 1
      have hused' : ∀ j, j < n + 1 →
          j ∈ dedupInner thr h1 n E (n :: used) := by
        intro j hj
        apply dedupInner_subset thr h1 n E (n :: used) j
        rcases Nat.lt_succ_iff_lt_or_eq.mp hj with h | h
        · exact List.mem_cons_of_mem _ (hused j h)
        · rw [h]
          exact List.mem_cons_self _ _
      rw [ih (n + 1) (dedupInner thr h1 n E (n :: used)) (P ++ [(n, e1, h1)]) E
        (by rw [hE, List.append_cons])
        (by
          intro q hq
          rcases List.mem_append.mp hq with h | h
          · exact Nat.lt_succ_of_lt (hP q h)
          · rcases List.mem_singleton.mp h with rfl
            exact Nat.lt_succ_self n)
        hused']
      -- pointwise description of the updated used-set on the remaining suffix
      have hpoint : ∀ q ∈ List.enumFrom (n + 1) rest',
          decide (¬ q.1 ∈ dedupInner thr h1 n E (n :: used))
            = (decide (thr < hamming_distance h1 q.2.2) && decide (¬ q.1 ∈ used)) := by
        intro q hq
        obtain ⟨j, e2, h2⟩ := q
        obtain ⟨hjn, hget⟩ := (mem_enumFrom_iff rest' (n + 1) j (e2, h2)).mp hq
        have hiff : j ∈ dedupInner thr h1 n E (n :: used) ↔
            j ∈ used ∨ hamming_distance h1 h2 ≤ thr := by
          rw [mem_dedupInner]
          constructor
          · rintro (hju | ⟨q', hq', hq1, hq2, hq3⟩)
            · rcases List.mem_cons.mp hju with rfl | h
              · omega
              · exact Or.inl h
            · rw [hE] at hq'
              rcases List.mem_append.mp hq' with h | h
              · have := hP q' h
                omega
              · rcases List.mem_cons.mp h with rfl | h
                · simp only at hq1
                  omega
                · obtain ⟨j2, e2', h2'⟩ := q'
                  have hj2 : j = j2 := hq1.symm
                  subst hj2
                  obtain ⟨_, hget2⟩ :=
                    (mem_enumFrom_iff rest' (n + 1) j (e2', h2')).mp h
                  rw [hget] at hget2
                  cases hget2
                  exact Or.inr hq3
          · rintro (hju | hd)
            · exact Or.inl (List.mem_cons_of_mem _ hju)
            · refine Or.inr ⟨(j, e2, h2), ?_, rfl, by omega, hd⟩
              rw [hE]
              refine List.mem_append_right _ (List.mem_cons_of_mem _ ?_)
              exact (mem_enumFrom_iff rest' (n + 1) j (e2, h2)).mpr ⟨hjn, hget⟩
        by_cases ha : j ∈ used
        · have hin : j ∈ dedupInner thr h1 n E (n :: used) := hiff.mpr (Or.inl ha)
          simp [hin, ha]
        · by_cases hb : hamming_distance h1 h2 ≤ thr
          · have hin : j ∈ dedupInner thr h1 n E (n :: used) := hiff.mpr (Or.inr hb)
            have hb' : ¬ thr < hamming_distance h1 h2 := by omega
            simp [hin, ha, hb']
          · have hout : ¬ j ∈ dedupInner thr h1 n E (n :: used) := by
              rw [hiff]
              push_neg
              exact ⟨ha, by omega⟩
            have hb' : thr < hamming_distance h1 h2 := by omega
            simp [hout, ha, hb']
      rw [List.filter_congr hpoint]
      rw [show (fun q : Nat × MessageRecord × Nat =>
            decide (thr < hamming_distance h1 q.2.2) && decide (¬ q.1 ∈ used))
          = (fun q : Nat × MessageRecord × Nat =>
            ((fun m : MessageRecord × Nat => decide (thr < hamming_distance h1 m.2)) ∘
              Prod.snd) q && (fun q : Nat × MessageRecord × Nat =>
                decide (¬ q.1 ∈ used)) q) from rfl]
      rw [← List.filter_filter]
      rw [← List.filter_map]
      exact congrArg (List.map Prod.fst)
        (specLoopPairs_fuel thr _ _ _ (le_refl _) (List.length_filter_le _ _))

theorem specLoopPairs_map_hashPair (thr : Nat) :
    ∀ (fuel : Nat) (l : List MessageRecord),
      (specLoopPairs thr fuel (l.map hashPair)).map Prod.fst = greedyAbsorb thr fuel l := by
  intro fuel
  induction fuel with
  | zero => intro l; rfl
  | succ f ih =>
    intro l
    cases l with
    | nil => rfl
    | cons e rest =>
      simp only [List.map_cons, specLoopPairs, greedyAbsorb]
      congr 1
      rw [← ih]
      congr 1
      rw [List.filter_map]
      rfl

instance pairRelDecidable :
    DecidableRel (fun p q : MessageRecord × Nat => dedupSortRel p.1 q.1) := fun p q => by
  simp only
  infer_instance

theorem sortPairs_eq_map_sort (emails : List MessageRecord) :
    List.insertionSort (fun p q : MessageRecord × Nat => dedupSortRel p.1 q.1)
        (emails.map hashPair)
      = (List.insertionSort dedupSortRel emails).map hashPair :=
  (List.map_insertionSort dedupSortRel
    (fun p q : MessageRecord × Nat => dedupSortRel p.1 q.1) hashPair emails
    (fun _ _ _ _ => Iff.rfl)).symm

/-- Shared bridge: `deduplicate_emails` equals the claim-side greedy
clustering applied to the date-normalized records. -/
theorem dedup_eq_dedupClaim (emails : List MessageRecord) (thr : Nat) :
    deduplicate_emails emails thr = dedupClaim (emails.map pyNormalizeRecord) thr := by
  unfold deduplicate_emails deduplicate_emails_full dedupClaim
  by_cases he : emails = []
  · subst he
    simp [greedyAbsorb]
  · rw [if_neg he]
    simp only
    rw [show (List.insertionSort
        (fun p q : MessageRecord × Nat => dedupSortRel p.1 q.1)
        ((emails.map pyNormalizeRecord).map hashPair)).enum
      = List.enumFrom 0 (List.insertionSort
        (fun p q : MessageRecord × Nat => dedupSortRel p.1 q.1)
        ((emails.map pyNormalizeRecord).map hashPair)) from rfl]
    rw [dedupOuter_eq_spec thr
      (List.insertionSort (fun p q : MessageRecord × Nat => dedupSortRel p.1 q.1)
        ((emails.map pyNormalizeRecord).map hashPair))
      0 [] []
      (List.enumFrom 0
        (List.insertionSort (fun p q : MessageRecord × Nat => dedupSortRel p.1 q.1)
          ((emails.map pyNormalizeRecord).map hashPair)))
      (List.nil_append _).symm (by simp) (by omega)]
    rw [List.filter_eq_self.mpr (by
      intro q _
      simp)]
    rw [List.enumFrom_map_snd]
    rw [sortPairs_eq_map_sort]
    rw [specLoopPairs_map_hashPair]
    exact greedyAbsorb_fuel thr _ _ _ (by simp) (by simp)

/-! ### Structural properties of the greedy absorption -/

theorem mem_greedyAbsorb (thr : Nat) :
    ∀ (fuel : Nat) (l : List MessageRecord) (x : MessageRecord),
      x ∈ greedyAbsorb thr fuel l → x ∈ l := by
  intro fuel
  induction fuel with
  | zero => intro l x h; simp [greedyAbsorb] at h
  | succ f ih =>
    intro l x h
    cases l with
    | nil => simp [greedyAbsorb] at h
    | cons e rest =>
      simp only [greedyAbsorb, List.mem_cons] at h
      rcases h with rfl | h
      · exact List.mem_cons_self _ _
      · exact List.mem_cons_of_mem _ (List.mem_of_mem_filter (ih _ _ h))

theorem greedyAbsorb_sublist (thr : Nat) :
    ∀ (fuel : Nat) (l : List MessageRecord),
      List.Sublist (greedyAbsorb thr fuel l) l := by
  intro fuel
  induction fuel with
  | zero => intro l; simp [greedyAbsorb]
  | succ f ih =>
    intro l
    cases l with
    | nil => simp [greedyAbsorb]
    | cons e rest =>
      simp only [greedyAbsorb]
      exact List.Sublist.cons₂ e ((ih _).trans (List.filter_sublist rest))

theorem greedyAbsorb_length (thr : Nat) (fuel : Nat) (l : List MessageRecord) :
    (greedyAbsorb thr fuel l).length ≤ l.length :=
  (greedyAbsorb_sublist thr fuel l).length_le

theorem greedyAbsorb_pairwise (thr : Nat) :
    ∀ (fuel : Nat) (l : List MessageRecord),
      (greedyAbsorb thr fuel l).Pairwise
        (fun a b => thr < hamming_distance (email_feature_hash a) (email_feature_hash b)) := by
  intro fuel
  induction fuel with
  | zero => intro l; simp [greedyAbsorb]
  | succ f ih =>
    intro l
    cases l with
    | nil => simp [greedyAbsorb]
    | cons e rest =>
      simp only [greedyAbsorb]
      refine List.Pairwise.cons ?_ (ih _)
      intro b hb
      have := List.mem_filter.mp (mem_greedyAbsorb thr f _ b hb)
      exact of_decide_eq_true this.2

theorem greedyAbsorb_of_pairwise (thr : Nat) :
    ∀ (fuel : Nat) (l : List MessageRecord), l.length ≤ fuel →
      l.Pairwise
        (fun a b => thr < hamming_distance (email_feature_hash a) (email_feature_hash b)) →
      greedyAbsorb thr fuel l = l := by
  intro fuel
  induction fuel with
  | zero =>
    intro l h _
    have hl : l = [] := List.length_eq_zero.mp (by omega)
    subst hl
    rfl
  | succ f ih =>
    intro l hlen hpw
    cases l with
    | nil => rfl
    | cons e rest =>
      simp only [greedyAbsorb]
      have hfil : rest.filter
          (fun e2 => decide (thr < hamming_distance (email_feature_hash e)
            (email_feature_hash e2))) = rest := by
        apply List.filter_eq_self.mpr
        intro b hb
        exact decide_eq_true ((List.pairwise_cons.mp hpw).1 b hb)
      rw [hfil]
      rw [ih rest (by simpa using hlen) (List.pairwise_cons.mp hpw).2]

/-! ### Idempotence helpers -/

theorem normalizeDateVal_idem (v : PyVal) :
    normalizeDateVal (normalizeDateVal v) = normalizeDateVal v := by
  cases v with
  | dt d =>
    obtain ⟨w, off⟩ := d
    cases off <;> rfl
  | none => rfl
  | str s => rfl

theorem pyNormalizeRecord_idem (r : MessageRecord) :
    pyNormalizeRecord (pyNormalizeRecord r) = pyNormalizeRecord r := by
  unfold pyNormalizeRecord
  simp [normalizeDateVal_idem]

theorem dedup_mem_normalized (emails : List MessageRecord) (thr : Nat) :
    ∀ r ∈ deduplicate_emails emails thr, pyNormalizeRecord r = r := by
  intro r hr
  rw [dedup_eq_dedupClaim] at hr
  unfold dedupClaim at hr
  have hr2 := mem_greedyAbsorb thr _ _ r hr
  rw [List.mem_insertionSort] at hr2
  obtain ⟨r0, _, rfl⟩ := List.mem_map.mp hr2
  exact pyNormalizeRecord_idem r0

theorem dedup_sorted (emails : List MessageRecord) (thr : Nat) :
    (deduplicate_emails emails thr).Sorted dedupSortRel := by
  rw [dedup_eq_dedupClaim]
  unfold dedupClaim
  exact List.Pairwise.sublist (greedyAbsorb_sublist thr _ _)
    (List.sorted_insertionSort dedupSortRel (emails.map pyNormalizeRecord))

theorem dedup_pairwise (emails : List MessageRecord) (thr : Nat) :
    (deduplicate_emails emails thr).Pairwise
      (fun a b => thr < hamming_distance (email_feature_hash a) (email_feature_hash b)) := by
  rw [dedup_eq_dedupClaim]
  unfold dedupClaim
  exact greedyAbsorb_pairwise thr _ _

theorem dedup_length_le (emails : List MessageRecord) (thr : Nat) :
    (deduplicate_emails emails thr).length ≤ emails.length := by
  rw [dedup_eq_dedupClaim]
  unfold dedupClaim
  calc (greedyAbsorb thr _ _).length
      ≤ (List.insertionSort dedupSortRel (emails.map pyNormalizeRecord)).length :=
        greedyAbsorb_length thr _ _
    _ = emails.length := by
        rw [List.length_insertionSort, List.length_map]

theorem dedup_idem (emails : List MessageRecord) (thr : Nat) :
    deduplicate_emails (deduplicate_emails emails thr) thr
      = deduplicate_emails emails thr := by
  rw [dedup_eq_dedupClaim (deduplicate_emails emails thr) thr]
  rw [map_eq_self_of pyNormalizeRecord _ (dedup_mem_normalized emails thr)]
  unfold dedupClaim
  rw [List.Sorted.insertionSort_eq (dedup_sorted emails thr)]
  exact greedyAbsorb_of_pairwise thr _ _ (le_refl _) (dedup_pairwise emails thr)

theorem hamming_distance_comm (a b : Nat) :
    hamming_distance a b = hamming_distance b a := by
  unfold hamming_distance
  rw [Nat.xor_comm]

/-- C3: for every input list and threshold, `deduplicate_emails` realizes
exactly the claimed algorithm on its (date-normalized) records: stable
sort by date descending with non-datetime dates acting as the minimal
timestamp (hence last), then iterate in that order keeping each
not-yet-absorbed record as a surviving representative and absorbing every
later not-yet-absorbed record whose fingerprint Hamming distance to the
representative is at most the threshold. -/
theorem deduplicate_emails_matches_greedy_description
    (emails : List MessageRecord) (thr : Nat) :
    deduplicate_emails emails thr = dedupClaim (emails.map pyNormalizeRecord) thr :=
  dedup_eq_dedupClaim emails thr

/-- C4: deduplication never lengthens the list, and deduplicating an
already-deduplicated list (same threshold) returns it unchanged. -/
theorem deduplicate_emails_length_le_and_idem
    (emails : List MessageRecord) (thr : Nat) :
    (deduplicate_emails emails thr).length ≤ emails.length ∧
    deduplicate_emails (deduplicate_emails emails thr) thr
      = deduplicate_emails emails thr :=
  ⟨dedup_length_le emails thr, dedup_idem emails thr⟩

/-- C10: any two distinct records surviving deduplication have
fingerprints whose Hamming distance strictly exceeds the threshold. -/
theorem deduplicate_emails_output_separated
    (emails : List MessageRecord) (thr : Nat) (i j : Nat)
    (hi : i < (deduplicate_emails emails thr).length)
    (hj : j < (deduplicate_emails emails thr).length)
    (hij : i ≠ j) :
    thr < hamming_distance
      (email_feature_hash ((deduplicate_emails emails thr).get ⟨i, hi⟩))
      (email_feature_hash ((deduplicate_emails emails thr).get ⟨j, hj⟩)) := by
  have hpw := dedup_pairwise emails thr
  rw [List.pairwise_iff_get] at hpw
  rcases Nat.lt_or_ge i j with h | h
  · exact hpw ⟨i, hi⟩ ⟨j, hj⟩ h
  · have hji : j < i := by omega
    rw [hamming_distance_comm]
    exact hpw ⟨j, hj⟩ ⟨i, hi⟩ hji

def sepRecordA : MessageRecord :=
  { date := .none, «from» := ['a', 'l', 'i', 'c', 'e'], «to» := [], cc := [],
    subject := [], body := [], attachments := [] }

def sepRecordB : MessageRecord :=
  { date := .none, «from» := ['b', 'o', 'b'], «to» := [], cc := [],
    subject := [], body := [], attachments := [] }

theorem deduplicate_emails_output_separated_witness :
    8 < hamming_distance
      (email_feature_hash ((deduplicate_emails [sepRecordA, sepRecordB] 8).get
        ⟨0, by decide⟩))
      (email_feature_hash ((deduplicate_emails [sepRecordA, sepRecordB] 8).get
        ⟨1, by decide⟩)) :=
  deduplicate_emails_output_separated [sepRecordA, sepRecordB] 8 0 1
    (by decide) (by decide) (by decide)

/-- A record carrying a timezone-aware date (noon at UTC+1). -/
def tzAwareRecord : MessageRecord :=
  { date := .dt ⟨⟨2024, 1, 1, 12, 0, 0⟩, some 3600⟩,
    «from» := [], «to» := [], cc := [], subject := [], body := [],
    attachments := [] }

/-- C9 counterexample: `deduplicate_emails` does NOT leave its input
unchanged — the in-place date normalization (lines 280-285) replaces a
timezone-aware date with its naive UTC equivalent in the records of the
input list, so after the call the input list differs from its value
before the call. -/
theorem deduplicate_emails_mutates_input :
    (deduplicate_emails_full [tzAwareRecord] 8).1 ≠ [tzAwareRecord] := by
  decide

def isTzAware : PyVal → Bool
  | .dt ⟨_, some _⟩ => true
  | _ => false

/-- C9 amended: a call to `deduplicate_emails` leaves its input list and
every record in it unchanged provided no record carries a timezone-aware
date; a record whose date is timezone-aware has that date replaced by its
naive UTC equivalent. -/
theorem deduplicate_emails_preserves_naive_input
    (emails : List MessageRecord) (thr : Nat)
    (h : ∀ r ∈ emails, isTzAware r.date = false) :
    (deduplicate_emails_full emails thr).1 = emails := by
  unfold deduplicate_emails_full
  by_cases he : emails = []
  · rw [if_pos he, he]
  · rw [if_neg he]
    simp only
    apply map_eq_self_of
    intro r hr
    have hna := h r hr
    unfold pyNormalizeRecord
    have hdate : normalizeDateVal r.date = r.date := by
      cases hv : r.date with
      | dt d =>
        obtain ⟨w, off⟩ := d
        cases off with
        | none => rfl
        | some o =>
          rw [hv] at hna
          simp [isTzAware] at hna
      | none => rfl
      | str s => rfl
    rw [hdate]

def naiveRecord : MessageRecord :=
  { date := .dt ⟨⟨2024, 1, 1, 12, 0, 0⟩, Option.none⟩,
    «from» := ['x'], «to» := [], cc := [], subject := [], body := [],
    attachments := [] }

theorem deduplicate_emails_preserves_naive_input_witness :
    (∀ r ∈ [naiveRecord], isTzAware r.date = false) ∧
    (deduplicate_emails_full [naiveRecord] 8).1 = [naiveRecord] :=
  ⟨by decide, deduplicate_emails_preserves_naive_input [naiveRecord] 8 (by decide)⟩

/-! ## §4.3 Thread-part record construction (C5)

`process_eml_file`, lines 421-441: each heuristically extracted thread
part becomes a MessageRecord; its date string goes through the external
lenient date parser (`dateutil.parser.parse`, modelled abstractly as a
function returning `none` where the Python call raises), and on failure
the original text is kept. -/

structure ThreadPart where
  «from» : Txt
  date : Txt
  «to» : Txt
  cc : Txt
  subject : Txt
  body : Txt
  deriving DecidableEq, Repr

/-- Lines 421-441 of `process_eml_file`.  `duParse` models
`dateutil.parser.parse` (an external collaborator; `none` models a raised
parse error).  The `part.get('subject', main_subject)` default never
fires for parts built by `extract_thread_parts` (both branches set the
key), so the subject is the part's own (possibly empty) subject text
falling back to the main subject only when modelled as absent — here the
segmenter always supplies the field, and the record keeps it. -/
def threadPartToEmail (duParse : Txt → Option PyDateTime)
    (_mainSubject : Txt) (part : ThreadPart) : MessageRecord :=
  let date_obj : PyVal :=
    if part.date ≠ [] then
      match duParse part.date with
      | some d => .dt d
      | Option.none => .str part.date
    else .none
  { date := date_obj
    «from» := part.«from»
    «to» := part.«to»
    cc := part.cc
    subject := part.subject
    body := part.body
    attachments := [] }

/-- The claimed invariant on a date field: a (valid) timestamp or
explicitly absent — never an unparsed string. -/
def dateValidOrAbsent : PyVal → Bool
  | .none => true
  | .dt _ => true
  | .str _ => false

/-- A lenient-parser behaviour on which `dateutil.parser.parse` raises
(e.g. the text `"glorp"`), modelled from the spec's external date-parsing
utility. -/
def duFailParse : Txt → Option PyDateTime := fun _ => Option.none

def unparseableDatePart : ThreadPart :=
  { «from» := ['w'], date := ['g', 'l', 'o', 'r', 'p'], «to» := [], cc := [],
    subject := ['s'], body := ['b'] }

/-- C5 counterexample: the pipeline does NOT maintain the claimed
invariant.  A thread part whose date text the lenient parser cannot parse
produces a MessageRecord whose `date` field is the malformed original
string — neither a valid timestamp nor absent — and that value is carried
to later stages. -/
theorem thread_part_date_kept_as_string :
    (threadPartToEmail duFailParse [] unparseableDatePart).date
        = PyVal.str ['g', 'l', 'o', 'r', 'p'] ∧
    dateValidOrAbsent
      ((threadPartToEmail duFailParse [] unparseableDatePart).date) = false := by
  decide

/-- C5 amended: the date of a record built from a heuristically segmented
thread part is a datetime (when the lenient parser succeeds), absent
(when the part carried no date text), or exactly the part's original
unparsed date text kept as a fallback value — never any other malformed
value. -/
theorem thread_part_date_cases (duParse : Txt → Option PyDateTime)
    (mainSubject : Txt) (part : ThreadPart) :
    (∃ d, (threadPartToEmail duParse mainSubject part).date = .dt d) ∨
    (threadPartToEmail duParse mainSubject part).date = .none ∨
    (threadPartToEmail duParse mainSubject part).date = .str part.date := by
  unfold threadPartToEmail
  simp only
  by_cases hd : part.date ≠ []
  · rw [if_pos hd]
    cases hp : duParse part.date with
    | some d => exact Or.inl ⟨d, rfl⟩
    | none => exact Or.inr (Or.inr rfl)
  · rw [if_neg hd]
    exact Or.inr (Or.inl rfl)

/-! ## §4.2 Message Extractor: body selection (C6)

The body-accumulation walk of `extract_email_parts` (eml2md.py lines
69-91). -/

/-- A MIME part as seen by the walk: content-type and disposition
headers, optional filename, raw payload and declared charset. -/
structure Part where
  contentType : Txt
  contentDisposition : Txt
  filename : Option Txt
  payload : List Byte
  charset : Option Codec

def textPlainType : Txt := (r"text/plain").data

def textHtmlType : Txt := (r"text/html").data

def attachmentToken : Txt := (r"attachment").data

/-- `'attachment' in content_disposition`. -/
def isAttachmentDisp (p : Part) : Bool :=
  containsSub attachmentToken p.contentDisposition

/-- `re.sub(r'<[^>]+>', '', html)`: remove every `<`...`>` group with at
least one character between the brackets; a `<` with no later `>` (or
immediately followed by `>`) is kept.  Fuel = text length (at least one
character is consumed per step). -/
def stripTagsGo : Nat → Txt → Txt
  | 0, _ => []
  | _ + 1, [] => []
  | fuel + 1, c :: rest =>
    if c = '<' then
      let pre := rest.takeWhile (fun d => !(d = '>'))
      let post := rest.drop pre.length
      if pre ≠ [] ∧ post ≠ [] then stripTagsGo fuel (post.drop 1)
      else '<' :: stripTagsGo fuel rest
    else c :: stripTagsGo fuel rest

def stripTags (t : Txt) : Txt := stripTagsGo t.length t

/-- The body-accumulation branch chain of the walk (lines 69-82): a
`text/plain` part not marked attachment always appends its decoded text;
a `text/html` part not marked attachment appends its tag-stripped decoded
text only while the accumulated body is still empty; every other part
leaves the body alone.  A decoding error propagates (as in Python). -/
def extractBodyGo : Txt → List Part → Except PyErr Txt
  | acc, [] => .ok acc
  | acc, p :: rest =>
    if p.contentType = textPlainType && !(isAttachmentDisp p) then
      match decode_content p.payload p.charset with
      | .ok t => extractBodyGo (acc ++ t) rest
      | .error e => .error e
    else if p.contentType = textHtmlType && !(isAttachmentDisp p) && acc.isEmpty then
      match decode_content p.payload p.charset with
      | .ok t => extractBodyGo (acc ++ stripTags t) rest
      | .error e => .error e
    else extractBodyGo acc rest

/-- The `body` field produced by `extract_email_parts` for a walk
sequence of parts. -/
def extractBody (parts : List Part) : Except PyErr Txt := extractBodyGo [] parts

/-- Decode a list of parts and concatenate the texts (first error wins). -/
def decodeConcat : List Part → Except PyErr Txt
  | [] => .ok []
  | p :: rest =>
    match decode_content p.payload p.charset with
    | .ok t => (decodeConcat rest).map (fun r => t ++ r)
    | .error e => .error e

/-- Decode a list of parts into the list of texts (first error wins). -/
def decodeAll : List Part → Except PyErr (List Txt)
  | [] => .ok []
  | p :: rest =>
    match decode_content p.payload p.charset with
    | .ok t => (decodeAll rest).map (fun r => t :: r)
    | .error e => .error e

def isPlainNonAttach (p : Part) : Bool :=
  p.contentType = textPlainType && !(isAttachmentDisp p)

def isHtmlNonAttach (p : Part) : Bool :=
  p.contentType = textHtmlType && !(isAttachmentDisp p)

/-- The body as the claim describes it: the concatenation of all
non-attachment `text/plain` parts, or — exactly when none exists — the
concatenation of ALL non-attachment `text/html` parts with tags removed. -/
def bodyClaimed (parts : List Part) : Except PyErr Txt :=
  if !(parts.filter isPlainNonAttach).isEmpty then
    decodeConcat (parts.filter isPlainNonAttach)
  else
    (decodeAll (parts.filter isHtmlNonAttach)).map
      (fun ts => (ts.map stripTags).foldr (· ++ ·) [])

def c6HtmlPartA : Part :=
  { contentType := textHtmlType, contentDisposition := [],
    filename := Option.none, payload := [60, 112, 62, 97, 60, 47, 112, 62],
    charset := Option.none }

def c6HtmlPartB : Part :=
  { contentType := textHtmlType, contentDisposition := [],
    filename := Option.none, payload := [60, 112, 62, 98, 60, 47, 112, 62],
    charset := Option.none }

/-- C6 counterexample: with no `text/plain` part and two `text/html`
parts (`<p>a</p>` and `<p>b</p>`), the extractor's body is `"a"` — only
the FIRST html part, because later html parts are skipped once the body
is non-empty — while the claim demands the concatenation `"ab"` of all
html parts. -/
theorem extract_body_not_all_html :
    extractBody [c6HtmlPartA, c6HtmlPartB] = .ok ['a'] ∧
    bodyClaimed [c6HtmlPartA, c6HtmlPartB] = .ok ['a', 'b'] ∧
    (['a'] : Txt) ≠ ['a', 'b'] := by
  refine ⟨rfl, rfl, by decide⟩

theorem plainCond_eq (p : Part) :
    (p.contentType = textPlainType && !(isAttachmentDisp p)) = isPlainNonAttach p := rfl

theorem htmlCond_eq (p : Part) (acc : Txt) :
    (p.contentType = textHtmlType && !(isAttachmentDisp p) && acc.isEmpty)
      = (isHtmlNonAttach p && acc.isEmpty) := rfl

theorem extractBodyGo_skip_all (parts : List Part)
    (h : ∀ p ∈ parts, isPlainNonAttach p = false ∧ isHtmlNonAttach p = false) :
    ∀ acc, extractBodyGo acc parts = .ok acc := by
  induction parts with
  | nil => intro acc; rfl
  | cons p rest ih =>
    intro acc
    obtain ⟨h1, h2⟩ := h p (List.mem_cons_self p rest)
    simp only [extractBodyGo, plainCond_eq, htmlCond_eq, h1, h2]
    simp only [Bool.false_eq_true, if_false, Bool.false_and]
    exact ih (fun q hq => h q (List.mem_cons_of_mem p hq)) acc

theorem extractBodyGo_no_html (parts : List Part)
    (h : ∀ p ∈ parts, isHtmlNonAttach p = false) :
    ∀ acc, extractBodyGo acc parts
      = (decodeConcat (parts.filter isPlainNonAttach)).map (fun r => acc ++ r) := by
  induction parts with
  | nil =>
    intro acc
    simp [extractBodyGo, decodeConcat, Except.map]
  | cons p rest ih =>
    intro acc
    have hh := h p (List.mem_cons_self p rest)
    have hrest := fun q hq => h q (List.mem_cons_of_mem p hq)
    simp only [extractBodyGo, plainCond_eq, htmlCond_eq, hh]
    simp only [Bool.false_and, Bool.false_eq_true, if_false]
    by_cases hp : isPlainNonAttach p = true
    · simp only [hp, if_true]
      rw [List.filter_cons_of_pos hp]
      cases hdec : decode_content p.payload p.charset with
      | ok t =>
        dsimp only
        rw [ih hrest (acc ++ t)]
        simp only [decodeConcat, hdec]
        cases decodeConcat (rest.filter isPlainNonAttach) with
        | ok r => simp [Except.map, List.append_assoc]
        | error e => simp [Except.map]
      | error e =>
        dsimp only
        simp only [decodeConcat, hdec]
        simp [Except.map]
    · have hp' : isPlainNonAttach p = false := by
        simpa using hp
      simp only [hp', Bool.false_eq_true, if_false]
      rw [List.filter_cons_of_neg (by simp [hp'])]
      exact ih hrest acc

theorem extractBodyGo_acc_nonempty (parts : List Part)
    (h : ∀ p ∈ parts, isPlainNonAttach p = false) :
    ∀ acc, acc ≠ [] → extractBodyGo acc parts = .ok acc := by
  induction parts with
  | nil => intro acc _; rfl
  | cons p rest ih =>
    intro acc hacc
    have hp := h p (List.mem_cons_self p rest)
    have hemp : acc.isEmpty = false := by
      cases acc with
      | nil => exact absurd rfl hacc
      | cons a as => rfl
    simp only [extractBodyGo, plainCond_eq, htmlCond_eq, hp, hemp]
    simp only [Bool.and_false, Bool.false_eq_true, if_false]
    exact ih (fun q hq => h q (List.mem_cons_of_mem p hq)) acc hacc

theorem extractBody_no_plain (parts : List Part)
    (h : ∀ p ∈ parts, isPlainNonAttach p = false) :
    ∀ ts, decodeAll (parts.filter isHtmlNonAttach) = .ok ts →
      extractBody parts = .ok (((ts.map stripTags).find? (fun t => !t.isEmpty)).getD []) := by
  unfold extractBody
  induction parts with
  | nil =>
    intro ts hts
    simp only [List.filter_nil, decodeAll] at hts
    cases hts
    rfl
  | cons p rest ih =>
    intro ts hts
    have hp := h p (List.mem_cons_self p rest)
    have hrest := fun q hq => h q (List.mem_cons_of_mem p hq)
    simp only [extractBodyGo, plainCond_eq, htmlCond_eq, hp]
    simp only [Bool.false_eq_true, if_false]
    by_cases hh : isHtmlNonAttach p = true
    · simp only [hh, List.isEmpty_nil, Bool.and_true, if_true]
      rw [List.filter_cons_of_pos hh] at hts
      simp only [decodeAll] at hts
      cases hdec : decode_content p.payload p.charset with
      | error e =>
        rw [hdec] at hts
        simp [Except.map] at hts
      | ok t =>
        rw [hdec] at hts
        dsimp only
        cases hall : decodeAll (rest.filter isHtmlNonAttach) with
        | error e =>
          rw [hall] at hts
          simp [Except.map] at hts
        | ok ts' =>
          rw [hall] at hts
          simp only [Except.map] at hts
          cases hts
          simp only [List.nil_append, List.map_cons, List.find?]
          by_cases hemp : stripTags t = []
          · rw [hemp]
            simp only [List.isEmpty_nil, Bool.not_true]
            have := ih hrest ts' hall
            simpa [hemp] using this
          · rw [show (!(stripTags t).isEmpty) = true by
              cases hst : stripTags t with
              | nil => exact absurd hst hemp
              | cons a as => rfl]
            simp only [Option.getD_some]
            exact extractBodyGo_acc_nonempty rest hrest (stripTags t) hemp
    · have hh' : isHtmlNonAttach p = false := by
        simpa using hh
      simp only [hh', Bool.false_and, Bool.false_eq_true, if_false]
      rw [List.filter_cons_of_neg (by simp [hh'])] at hts
      exact ih hrest ts hts

/-- C6 amended: the accumulated body mixes plain and (tag-stripped) HTML
content in walk order, with an HTML part contributing only while the body
so far is empty.  Consequently (a) when no non-attachment `text/html`
part exists, the body is the concatenation of all non-attachment
`text/plain` parts, and (b) when no non-attachment `text/plain` part
exists, the body is exactly the tag-stripped text of the FIRST
non-attachment `text/html` part whose stripped text is non-empty (empty
if none is), not the concatenation of all of them. -/
theorem extract_body_amended (parts : List Part) :
    ((∀ p ∈ parts, isHtmlNonAttach p = false) →
      extractBody parts = decodeConcat (parts.filter isPlainNonAttach)) ∧
    ((∀ p ∈ parts, isPlainNonAttach p = false) →
      ∀ ts, decodeAll (parts.filter isHtmlNonAttach) = .ok ts →
        extractBody parts
          = .ok (((ts.map stripTags).find? (fun t => !t.isEmpty)).getD [])) := by
  constructor
  · intro h
    unfold extractBody
    rw [extractBodyGo_no_html parts h []]
    cases decodeConcat (parts.filter isPlainNonAttach) with
    | ok r => simp [Except.map]
    | error e => simp [Except.map]
  · exact extractBody_no_plain parts

def c6PlainPart : Part :=
  { contentType := textPlainType, contentDisposition := [],
    filename := Option.none, payload := [120, 121], charset := Option.none }

theorem extract_body_amended_witness :
    extractBody [c6PlainPart]
      = decodeConcat ([c6PlainPart].filter isPlainNonAttach) :=
  (extract_body_amended [c6PlainPart]).1 (by decide)

/-! ## §4.3 Thread Segmenter (C8)

`extract_thread_parts` (eml2md.py lines 104-173).  The three quoted-header
regular expressions are modelled abstractly: a `QuotePattern` carries its
pattern source text (the code dispatches on whether the literal `From:`
occurs in it), its `finditer` behaviour on a text (the matches, each with
span offsets and capture groups), and its `search` behaviour on a text
(the first match).  The loop structure — each pattern tried in the fixed
order, the first style with at least one match contributing every
segment, each body delimited by the minimum over all styles of the next
match start, unconditional retention of each built part — is translated
literally from the source. -/

structure PyMatch where
  start : Nat
  stop : Nat
  groups : List (Option Txt)
  deriving DecidableEq, Repr

structure QuotePattern where
  src : Txt
  finditer : Txt → List PyMatch
  search : Txt → Option PyMatch

/-- `match.group(i)` for `i ≥ 1` (flattening the "group did not
participate" `None`). -/
def group (m : PyMatch) (i : Nat) : Option Txt :=
  (m.groups.get? (i - 1)).join

/-- Python truthiness of a capture group: `None` and `""` are falsy. -/
def groupTruthy : Option Txt → Bool
  | some (_ :: _) => true
  | _ => false

def fromLabel : Txt := (r"From:").data

/-- Lines 130-151: build the metadata of one thread part from a match,
depending on whether the pattern is the labeled (Outlook) style. -/
def mkThreadPart (isOutlook : Bool) (m : PyMatch) : ThreadPart :=
  if isOutlook then
    { «from» := if groupTruthy (group m 1) then pyStrip ((group m 1).getD []) else []
      date := if groupTruthy (group m 2) then pyStrip ((group m 2).getD []) else []
      «to» := if groupTruthy (group m 3) then pyStrip ((group m 3).getD []) else []
      cc := if 4 ≤ m.groups.length ∧ groupTruthy (group m 4) = true then
              pyStrip ((group m 4).getD []) else []
      subject := if 5 ≤ m.groups.length ∧ groupTruthy (group m 5) = true then
              pyStrip ((group m 5).getD []) else []
      body := [] }
  else
    { «from» := if 3 ≤ m.groups.length ∧ groupTruthy (group m 3) = true then
                  pyStrip ((group m 3).getD [])
                else pyStrip ((group m 1).getD [])
      date := if groupTruthy (group m 1) ∧ groupTruthy (group m 2) = true then
                pyStrip ((group m 1).getD []) ++ ' ' :: pyStrip ((group m 2).getD [])
              else []
      «to» := []
      cc := []
      subject := []
      body := [] }

/-- Lines 154-160: scan every pattern, keeping the smallest start of a
`search` hit in the text after the current match (the fold carries
`next_match`). -/
def earliestNext (patterns : List QuotePattern) (tail : Txt) : Option Nat :=
  patterns.foldl
    (fun next_match p =>
      match p.search tail with
      | some m2 =>
        match next_match with
        | Option.none => some m2.start
        | some cur => if m2.start < cur then some m2.start else some cur
      | Option.none => next_match)
    Option.none

/-- Lines 128-167: build one thread part per match of the chosen pattern;
the body is the (stripped) slice from the end of the match to the start
of the next match of any pattern, or to the end of the text. -/
def processMatches (patterns : List QuotePattern) (body_text : Txt)
    (isOutlook : Bool) : List PyMatch → List ThreadPart
  | [] => []
  | m :: ms =>
    let tail := body_text.drop m.stop
    let body :=
      match earliestNext patterns tail with
      | Option.none => pyStrip tail
      | some nm => pyStrip (tail.take nm)
    { mkThreadPart isOutlook m with body := body }
      :: processMatches patterns body_text isOutlook ms

/-- The `for pattern in patterns` loop of lines 124-171, with the
`if thread_parts: break` exit after the first pattern that matched. -/
def etpLoop (allPatterns : List QuotePattern) (body_text : Txt) :
    List QuotePattern → List ThreadPart → List ThreadPart
  | [], acc => acc
  | p :: rest, acc =>
    let ms := p.finditer body_text
    if ms.isEmpty then etpLoop allPatterns body_text rest acc
    else
      let acc' := acc ++ processMatches allPatterns body_text
        (containsSub fromLabel p.src) ms
      if !acc'.isEmpty then acc' else etpLoop allPatterns body_text rest acc'

/-- `extract_thread_parts` (lines 104-173), over the fixed ordered list
of recognized patterns. -/
def extract_thread_parts (patterns : List QuotePattern) (body_text : Txt) :
    List ThreadPart :=
  etpLoop patterns body_text patterns []

/-- Start offsets of the first `search` hit of each pattern in a text. -/
def nextStarts (patterns : List QuotePattern) (tail : Txt) : List Nat :=
  patterns.filterMap (fun p => (p.search tail).map PyMatch.start)

/-- The segmentation exactly as the claim describes it: only the first
pattern style (in the fixed order) with at least one match produces
segments; each segment consists of the metadata of its match and a body
running from the end of the matched header to the earliest-starting
subsequent match of ANY recognized style (minimum over all patterns), or
the end of the text, stripped; one part per match, so empty bodies are
retained. -/
def threadSpec (patterns : List QuotePattern) (body_text : Txt) :
    List ThreadPart :=
  match patterns.find? (fun p => !(p.finditer body_text).isEmpty) with
  | Option.none => []
  | some p =>
    (p.finditer body_text).map (fun m =>
      let tail := body_text.drop m.stop
      let body :=
        match (nextStarts patterns tail).min? with
        | Option.none => pyStrip tail
        | some nm => pyStrip (tail.take nm)
      { mkThreadPart (containsSub fromLabel p.src) m with body := body })

def optMin : Option Nat → Option Nat → Option Nat
  | Option.none, r => r
  | some c, Option.none => some c
  | some c, some m => some (min c m)

theorem foldl_min_eq (l : List Nat) :
    ∀ a : Nat, l.foldl min a
      = match l.min? with
        | Option.none => a
        | some m => min a m := by
  induction l with
  | nil => intro a; simp [List.min?]
  | cons x xs ih =>
    intro a
    rw [List.min?_cons']
    simp only [List.foldl_cons]
    rw [ih (min a x), ih x]
    cases xs.min? with
    | none => rfl
    | some m =>
      simp only
      omega

theorem earliestNext_go (tail : Txt) :
    ∀ (ps : List QuotePattern) (acc : Option Nat),
      ps.foldl
        (fun next_match p =>
          match p.search tail with
          | some m2 =>
            match next_match with
            | Option.none => some m2.start
            | some cur => if m2.start < cur then some m2.start else some cur
          | Option.none => next_match)
        acc
      = optMin acc (nextStarts ps tail).min? := by
  intro ps
  induction ps with
  | nil =>
    intro acc
    cases acc <;> simp [nextStarts, List.min?, optMin]
  | cons p rest ih =>
    intro acc
    simp only [List.foldl_cons]
    cases hs : p.search tail with
    | none =>
      rw [ih acc]
      have hns : nextStarts (p :: rest) tail = nextStarts rest tail := by
        unfold nextStarts
        rw [List.filterMap_cons, hs]
        simp
      rw [hns]
    | some m2 =>
      have hns : nextStarts (p :: rest) tail
          = m2.start :: nextStarts rest tail := by
        unfold nextStarts
        rw [List.filterMap_cons, hs]
        simp
      rw [hns, List.min?_cons']
      cases acc with
      | none =>
        dsimp only
        rw [ih (some m2.start)]
        rw [foldl_min_eq]
        cases (nextStarts rest tail).min? with
        | none => rfl
        | some mr => rfl
      | some c =>
        dsimp only
        have hif : (if m2.start < c then some m2.start else some c)
            = some (min m2.start c) := by
          rcases Nat.lt_or_ge m2.start c with h | h
          · rw [if_pos h]
            congr 1
            omega
          · rw [if_neg (by omega)]
            congr 1
            omega
        rw [hif, ih (some (min m2.start c))]
        rw [foldl_min_eq]
        cases (nextStarts rest tail).min? with
        | none =>
          simp only [optMin]
          congr 1
          omega
        | some mr =>
          simp only [optMin]
          congr 1
          omega

theorem earliestNext_eq_min (patterns : List QuotePattern) (tail : Txt) :
    earliestNext patterns tail = (nextStarts patterns tail).min? := by
  unfold earliestNext
  rw [earliestNext_go tail patterns Option.none]
  cases (nextStarts patterns tail).min? <;> rfl

theorem processMatches_eq_map (patterns : List QuotePattern) (body_text : Txt)
    (isOutlook : Bool) :
    ∀ ms : List PyMatch,
      processMatches patterns body_text isOutlook ms
        = ms.map (fun m =>
            let tail := body_text.drop m.stop
            let body :=
              match (nextStarts patterns tail).min? with
              | Option.none => pyStrip tail
              | some nm => pyStrip (tail.take nm)
            { mkThreadPart isOutlook m with body := body }) := by
  intro ms
  induction ms with
  | nil => rfl
  | cons m ms ih =>
    simp only [processMatches, List.map_cons]
    rw [ih, earliestNext_eq_min]

/-- C8: `extract_thread_parts` produces segments only from the first
pattern style in the fixed order that yields at least one match (styles
are never mixed within one container); each segment's body extends from
the end of its matched header to the earliest-starting subsequent match
of any recognized style, or the end of the text; and one part is produced
per match, so parts with empty bodies are retained. -/
theorem extract_thread_parts_matches_spec
    (patterns : List QuotePattern) (body_text : Txt) :
    extract_thread_parts patterns body_text = threadSpec patterns body_text := by
  unfold extract_thread_parts threadSpec
  have main : ∀ ps : List QuotePattern,
      etpLoop patterns body_text ps []
        = match ps.find? (fun p => !(p.finditer body_text).isEmpty) with
          | Option.none => []
          | some p =>
            (p.finditer body_text).map (fun m =>
              let tail := body_text.drop m.stop
              let body :=
                match (nextStarts patterns tail).min? with
                | Option.none => pyStrip tail
                | some nm => pyStrip (tail.take nm)
              { mkThreadPart (containsSub fromLabel p.src) m with body := body }) := by
    intro ps
    induction ps with
    | nil => rfl
    | cons p rest ih =>
      simp only [etpLoop]
      by_cases hempty : (p.finditer body_text).isEmpty = true
      · rw [if_pos hempty]
        rw [List.find?_cons_of_neg _ (by simp [hempty])]
        exact ih
      · rw [if_neg hempty]
        rw [List.find?_cons_of_pos _ (by simp [hempty])]
        simp only [List.nil_append]
        rw [processMatches_eq_map]
        have hne : ((p.finditer body_text).map (fun m =>
            let tail := body_text.drop m.stop
            let body :=
              match (nextStarts patterns tail).min? with
              | Option.none => pyStrip tail
              | some nm => pyStrip (tail.take nm)
            { mkThreadPart (containsSub fromLabel p.src) m with body := body })).isEmpty
            = false := by
          cases hfi : p.finditer body_text with
          | nil => rw [hfi] at hempty; exact absurd rfl hempty
          | cons a as => rfl
        rw [hne]
        rfl
  exact main patterns

/-! ## §4.5 Markdown Renderer (`create_markdown_content`, lines 321-370) -/

/-- Decimal digits of a natural number (`f-string` rendering of `idx`). -/
def natDigitsGo : Nat → Nat → Txt
  | 0, _ => []
  | fuel + 1, n =>
    if n < 10 then [Char.ofNat (48 + n)]
    else natDigitsGo fuel (n / 10) ++ [Char.ofNat (48 + n % 10)]

def natDigits (n : Nat) : Txt := natDigitsGo (n + 1) n

def digitChar (d : Nat) : Char := Char.ofNat (48 + d)

def pad2 (n : Nat) : Txt := [digitChar (n / 10 % 10), digitChar (n % 10)]

def pad4 (n : Nat) : Txt :=
  [digitChar (n / 1000 % 10), digitChar (n / 100 % 10),
   digitChar (n / 10 % 10), digitChar (n % 10)]

/-- `strftime('%Y-%m-%d %H:%M:%S')` (zero-padded fields; Python datetime
years never exceed 9999). -/
def strftimeYmdHms (d : DT6) : Txt :=
  pad4 d.year ++ '-' :: pad2 d.month ++ '-' :: pad2 d.day
    ++ ' ' :: pad2 d.hour ++ ':' :: pad2 d.minute ++ ':' :: pad2 d.second

/-- Truthiness of a `date` dictionary value (`if email_parts['date']:`). -/
def pyValTruthy : PyVal → Bool
  | .none => false
  | .str s => !s.isEmpty
  | .dt _ => true

/-- `sorted(emails, key=date-or-min, reverse=newest_first)` realized as a
stable insertion sort (ascending by default, descending with the flag). -/
def renderSortRel (newest_first : Bool) (a b : MessageRecord) : Prop :=
  if newest_first then dt6LeP (dateKey b.date) (dateKey a.date)
  else dt6LeP (dateKey a.date) (dateKey b.date)

instance renderRelDecidable (nf : Bool) : DecidableRel (renderSortRel nf) :=
  fun a b => by
    unfold renderSortRel
    by_cases h : nf = true
    · rw [if_pos h]
      infer_instance
    · rw [if_neg h]
      infer_instance

/-- One `## Email <idx>` section of the rendered document
(lines 339-368). -/
def renderSection (idx : Nat) (e : MessageRecord) : Txt :=
  ((r"## Email ").data ++ natDigits idx ++ [nl, nl])
  ++ (if pyValTruthy e.date then
        match e.date with
        | .dt d => (r"**Date**: ").data ++ strftimeYmdHms d.wall ++ [nl, nl]
        | .str s => (r"**Date**: ").data ++ s ++ [nl, nl]
        | .none => []
      else [])
  ++ ((r"**From**: ").data ++ e.«from» ++ [nl, nl])
  ++ ((r"**To**: ").data ++ e.«to» ++ [nl, nl])
  ++ (if !e.cc.isEmpty then (r"**CC**: ").data ++ e.cc ++ [nl, nl] else [])
  ++ ((r"**Subject**: ").data ++ e.subject ++ [nl, nl])
  ++ ((r"### Content").data ++ [nl, nl])
  ++ (pyStrip e.body ++ [nl, nl])
  ++ (if !e.attachments.isEmpty then
        (r"### Attachments").data ++ [nl, nl]
        ++ e.attachments.flatMap
            (fun a => ('-' :: ' ' :: '[' :: a.1) ++ (']' :: '(' :: a.1) ++ [')', nl])
        ++ [nl]
      else [])
  ++ ((r"---").data ++ [nl, nl])

def joinSections : Nat → List MessageRecord → Txt
  | _, [] => []
  | idx, e :: rest => renderSection idx e ++ joinSections (idx + 1) rest

/-- `create_markdown_content` (lines 321-370): sort by date (non-datetime
values acting as `datetime.min`), emit the document header and one section
per record with 1-based indices. -/
def create_markdown_content (emails : List MessageRecord) (newest_first : Bool) : Txt :=
  let sorted_emails := List.insertionSort (renderSortRel newest_first) emails
  (r"# Email Thread").data ++ [nl, nl] ++ joinSections 1 sorted_emails

/-! ## §4.6 Document Parser (`parse_emails`, read_md_email.py lines 102-168)

The recipient-list normalization (`to_list`/`cc_list`,
`_parse_recipients_list`) is not modelled: no frozen claim refers to those
fields, and they influence no other field of a parsed record. -/

def isDigitChar (c : Char) : Bool := '0' ≤ c && c ≤ '9'

def parseNatDigits (ds : Txt) : Nat :=
  ds.foldl (fun a c => a * 10 + (c.toNat - 48)) 0

/-- Scan the tail `\s*$` of the chunk-header regex: only whitespace up to
a newline (`$` in MULTILINE mode) or the end of the text. -/
def wsThenEol : Txt → Bool
  | [] => true
  | c :: rest => if c = nl then true else if isPyWs c then wsThenEol rest else false

/-- Does the regex `## Email\s+(\d+)\s*$` match at the start of `t`
(which must be a line start)?  Returns the captured number. -/
def emailHeaderNum (t : Txt) : Option Nat :=
  if (r"## Email").data.isPrefixOf t then
    let rest1 := t.drop 8
    let ws1 := rest1.takeWhile isPyWs
    if ws1.isEmpty then Option.none
    else
      let rest2 := rest1.drop ws1.length
      let ds := rest2.takeWhile isDigitChar
      if ds.isEmpty then Option.none
      else if wsThenEol (rest2.drop ds.length) then some (parseNatDigits ds)
      else Option.none
  else Option.none

def emailHeaderAt (t : Txt) : Bool := (emailHeaderNum t).isSome

/-- `re.split(r"(?=^## Email\s+\d+\s*$)", md_text, flags=re.MULTILINE)`:
cut before every line matching the header pattern. -/
def splitChunksGo : Txt → Txt → List Txt
  | cur, [] => [cur]
  | cur, c :: rest =>
    if c = nl ∧ emailHeaderAt rest then (cur ++ [nl]) :: splitChunksGo [] rest
    else splitChunksGo (cur ++ [c]) rest

def splitEmailChunks (t : Txt) : List Txt :=
  if emailHeaderAt t then [] :: splitChunksGo [] t else splitChunksGo [] t

/-- `re.search(r"^## Email\s+(\d+)\s*$", chunk, re.MULTILINE)`. -/
def findEmailNumber : Bool → Txt → Option Nat
  | _, [] => Option.none
  | atStart, c :: rest =>
    if atStart then
      match emailHeaderNum (c :: rest) with
      | some n => some n
      | Option.none => findEmailNumber (c = nl) rest
    else findEmailNumber (c = nl) rest

/-- The continuation `\s*(.+)` after a matched field label: `\s*` greedily
skips whitespace and backtracks until `(.+)` can start at a non-newline
character; the group runs to the end of that line (`.` does not match a
newline here — these searches have no DOTALL flag). -/
def fieldGroupAfter (rest : Txt) : Option Txt :=
  let w := (rest.takeWhile isPyWs).length
  match ((List.range (w + 1)).filter
      (fun m => !((rest.getD m nl) = nl))).max? with
  | some m => some ((rest.drop m).takeWhile (fun c => !(c = nl)))
  | Option.none => Option.none

/-- `re.search(label + r"\s*(.+)", chunk)`: the first occurrence of the
label whose continuation admits a group (the regex engine resumes
scanning past an occurrence whose continuation fails). -/
def findFieldGroup (label : Txt) : Txt → Option Txt
  | [] => Option.none
  | c :: rest =>
    if label.isPrefixOf (c :: rest) then
      match fieldGroupAfter ((c :: rest).drop label.length) with
      | some g => some g
      | Option.none => findFieldGroup label rest
    else findFieldGroup label rest

/-- The lookahead `(?=\n-{3,}|\n## |\n### Attachments|$)` of the content
regex (`$` matching at the end of the chunk or before one final newline). -/
def contentLookaheadAt (s : Txt) : Bool :=
  ([nl, '-', '-', '-']).isPrefixOf s
  || ([nl, '#', '#', ' ']).isPrefixOf s
  || (nl :: (r"### Attachments").data).isPrefixOf s
  || s.isEmpty || s = [nl]

/-- The continuation `\s*\n(.+?)(?=...)` after `### Content`: `\s*`
consumes whitespace backtracking to leave one literal newline, then the
non-greedy DOTALL group grows until the lookahead matches. -/
def contentGroupAfter (rest : Txt) : Option Txt :=
  let w := (rest.takeWhile isPyWs).length
  match ((List.range (w + 1)).filter (fun m => (rest.getD m ' ') = nl)).max? with
  | Option.none => Option.none
  | some m =>
    let body0 := rest.drop (m + 1)
    match ((List.range (body0.length + 1)).filter
        (fun k => decide (1 ≤ k) && contentLookaheadAt (body0.drop k))).min? with
    | some k => some (body0.take k)
    | Option.none => Option.none

/-- `re.search(r"### Content\s*\n(.+?)(?=\n-{3,}|\n## |\n### Attachments|$)",
chunk, re.DOTALL)`. -/
def findContentGroup : Txt → Option Txt
  | [] => Option.none
  | c :: rest =>
    if (r"### Content").data.isPrefixOf (c :: rest) then
      match contentGroupAfter ((c :: rest).drop 11) with
      | some g => some g
      | Option.none => findContentGroup rest
    else findContentGroup rest

def isLeap (y : Nat) : Bool := (y % 4 = 0 && !(y % 100 = 0)) || y % 400 = 0

def daysInMonth (y m : Nat) : Nat :=
  if m = 2 then (if isLeap y then 29 else 28)
  else if m = 4 ∨ m = 6 ∨ m = 9 ∨ m = 11 then 30
  else 31

def digitVal (c : Char) : Option Nat :=
  if '0' ≤ c ∧ c ≤ '9' then some (c.toNat - 48) else Option.none

/-- `datetime.strptime(s, '%Y-%m-%d %H:%M:%S')`, restricted to the
zero-padded canonical form that the companion renderer's `strftime`
emits (CPython also accepts unpadded fields, which no caller here
produces); field ranges are validated as the `datetime` constructor
does. -/
def strptimeYmdHms (s : Txt) : Option DT6 :=
  match s with
  | [y1, y2, y3, y4, '-', m1, m2, '-', d1, d2, ' ',
     h1, h2, ':', i1, i2, ':', s1, s2] =>
    match digitVal y1, digitVal y2, digitVal y3, digitVal y4,
      digitVal m1, digitVal m2, digitVal d1, digitVal d2,
      digitVal h1, digitVal h2, digitVal i1, digitVal i2,
      digitVal s1, digitVal s2 with
    | some a, some b, some c, some d, some e, some f, some g, some h,
      some i, some j, some k, some l, some m, some n =>
      let yv := ((a * 10 + b) * 10 + c) * 10 + d
      let mov := e * 10 + f
      let dv := g * 10 + h
      let hv := i * 10 + j
      let miv := k * 10 + l
      let sv := m * 10 + n
      if 1 ≤ yv ∧ 1 ≤ mov ∧ mov ≤ 12 ∧ 1 ≤ dv ∧ dv ≤ daysInMonth yv mov
          ∧ hv ≤ 23 ∧ miv ≤ 59 ∧ sv ≤ 59 then
        some ⟨yv, mov, dv, hv, miv, sv⟩
      else Option.none
    | _, _, _, _, _, _, _, _, _, _, _, _, _, _ => Option.none
  | _ => Option.none

/-- Case-insensitive literal word match; returns the remainder. -/
def matchPrefixCI : Txt → Txt → Option Txt
  | [], s => some s
  | _ :: _, [] => Option.none
  | w :: ws, c :: rest => if c.toLower = w then matchPrefixCI ws rest else Option.none

/-- The `\s*:\s*` tail of the reply-prefix pattern. -/
def afterColonWs (s : Txt) : Option Txt :=
  match s.dropWhile isPyWs with
  | ':' :: rest => some (rest.dropWhile isPyWs)
  | _ => Option.none

def tryPrefixWord (w : Txt) (s : Txt) : Option Txt :=
  match matchPrefixCI w s with
  | some rest => afterColonWs rest
  | Option.none => Option.none

/-- One pass of `re.sub(r"^(?:(re|fw|fwd)\s*:\s*)", "", s, IGNORECASE)`:
the ordered alternation `re` / `fw` / `fwd` with backtracking. -/
def stripOnePrefix (s : Txt) : Option Txt :=
  match tryPrefixWord ['r', 'e'] s with
  | some r => some r
  | Option.none =>
    match tryPrefixWord ['f', 'w'] s with
    | some r => some r
    | Option.none => tryPrefixWord ['f', 'w', 'd'] s

def stripPrefixLoop : Nat → Txt → Txt
  | 0, s => s
  | fuel + 1, s =>
    match stripOnePrefix s with
    | some r => stripPrefixLoop fuel r
    | Option.none => s

/-- `_strip_subject_prefixes` (read_md_email.py lines 22-32): strip the
reply/forward prefixes repeatedly until none remains (each removal is at
least one character, so the length is enough fuel). -/
def strip_subject_prefixes (subject : Txt) : Txt :=
  if subject.isEmpty then []
  else stripPrefixLoop subject.length (pyStrip subject)

/-- One parsed section of a rendered document.  The normalized recipient
lists (`to_list`, `cc_list`) and the reformatted `date_out` string are
not modelled (no claim mentions them; they feed no other field). -/
structure ParsedEmail where
  email_number : Option Nat
  date_in : Txt
  date : Option DT6
  «from» : Txt
  subject : Txt
  content : Txt
  deriving DecidableEq, Repr

/-- The per-chunk body of `parse_emails` (lines 110-161). -/
def parseChunk (chunk : Txt) : Option ParsedEmail :=
  let num_m := findEmailNumber true chunk
  let date_m := findFieldGroup ((r"**Date**:").data) chunk
  let from_m := findFieldGroup ((r"**From**:").data) chunk
  let subj_m := findFieldGroup ((r"**Subject**:").data) chunk
  let content_m := findContentGroup chunk
  if date_m.isNone ∧ from_m.isNone ∧ subj_m.isNone ∧ content_m.isNone then
    Option.none
  else
    let date_raw := clean_ws (date_m.getD [])
    let date_obj := if !date_raw.isEmpty then strptimeYmdHms date_raw else Option.none
    let content_raw := pyStrip (pyStrip (content_m.getD []))
    some { email_number := num_m
           date_in := date_raw
           date := date_obj
           «from» := clean_ws (from_m.getD [])
           subject := strip_subject_prefixes (clean_ws (subj_m.getD []))
           content := truncateQuotedHistory content_raw }

/-- The sort key of lines 163-167: `e["date"].timestamp()` for dated
records (a naive datetime's timestamp, with the local timezone taken as
UTC), `-inf` (`⊥`) for undated ones. -/
def parseKey (e : ParsedEmail) : WithBot Int :=
  match e.date with
  | some d => some (dt6ToSecs d)
  | Option.none => ⊥

def parseSortRel (a b : ParsedEmail) : Prop := parseKey b ≤ parseKey a

instance : DecidableRel parseSortRel := fun a b => by
  unfold parseSortRel
  infer_instance

/-- `parse_emails` (lines 102-168): split into chunks at section-header
lines, skip whitespace-only chunks, parse each chunk (dropping chunks
with none of Date/From/Subject/Content), then stable-sort newest first
with undated records last. -/
def parse_emails (md_text : Txt) : List ParsedEmail :=
  let chunks := splitEmailChunks md_text
  let emails := chunks.filterMap (fun chunk =>
    if (pyStrip chunk).isEmpty then Option.none else parseChunk chunk)
  List.insertionSort parseSortRel emails

/-- A record whose subject carries a reply prefix. -/
def c1Record : MessageRecord :=
  { date := .none, «from» := ['A', 'l', 'i', 'c', 'e'], «to» := ['B', 'o', 'b'],
    cc := [], subject := ['R', 'e', ':', ' ', 'H', 'i'],
    body := ['H', 'e', 'l', 'l', 'o'], attachments := [] }

/-- C1 counterexample: the round trip does NOT preserve the subject
field.  Rendering a record whose subject is `"Re: Hi"` and reverse-parsing
the document yields a single record whose subject is `"Hi"` — the reverse
parser strips reply/forward prefixes — so the parsed subject differs from
the original. -/
theorem roundtrip_changes_subject :
    (parse_emails (create_markdown_content [c1Record] false)).map
        (fun p => p.subject) = [['H', 'i']] ∧
    c1Record.subject = ['R', 'e', ':', ' ', 'H', 'i'] ∧
    (['H', 'i'] : Txt) ≠ ['R', 'e', ':', ' ', 'H', 'i'] :=
  ⟨rfl, rfl, by decide⟩

/-! ### Substring machinery for the round-trip proof -/

/-- `p` cannot occur straddling the boundary between `a` and `b`. -/
def NoSpan (p a b : Txt) : Prop :=
  ∀ k, 0 < k → k < p.length → ¬ (p.take k <:+ a ∧ p.drop k <+: b)

theorem prefix_append_iff_of_le {x c : Txt} (y : Txt) (h : x.length ≤ c.length) :
    x <+: c ++ y ↔ x <+: c := by
  constructor
  · intro hp
    rw [List.prefix_iff_eq_take] at hp ⊢
    rw [hp, List.take_append_eq_append_take]
    rw [show x.length - c.length = 0 by omega]
    simp
  · intro hp
    exact hp.trans (List.prefix_append c y)

theorem suffix_append_iff_of_le {x c : Txt} (a : Txt) (h : x.length ≤ c.length) :
    x <:+ a ++ c ↔ x <:+ c := by
  rw [← List.reverse_prefix, ← @List.reverse_prefix Char x c]
  rw [List.reverse_append]
  exact prefix_append_iff_of_le a.reverse (by simpa using h)

theorem suffix_of_suffix_length_le {x y t : Txt} (hx : x <:+ t) (hy : y <:+ t)
    (h : x.length ≤ y.length) : x <:+ y := by
  rw [← List.reverse_prefix] at *
  exact List.prefix_of_prefix_length_le hx hy (by simpa using h)

theorem no_occurrence_of_not_contains {p t : Txt} (h : containsSub p t = false) :
    ∀ j, ¬ p <+: t.drop j := by
  unfold containsSub at h
  cases hf : findSub? p t with
  | none => exact findSub?_none p t hf
  | some i => rw [hf] at h; simp at h

/-- A prefix of the whole spanning the `a`/`b` boundary yields a span
decomposition. -/
theorem span_of_prefix_append {p a b : Txt} (hp : p <+: a ++ b)
    (hlen : a.length < p.length) (ha : a ≠ []) :
    p.take a.length <:+ a ∧ p.drop a.length <+: b ∧ 0 < a.length := by
  obtain ⟨t, ht⟩ := hp
  have h1 : p.take a.length = a := by
    have h := congrArg (List.take a.length) ht
    rwa [List.take_append_of_le_length (by omega), List.take_left] at h
  have h2 : p.drop a.length ++ t = b := by
    have h := congrArg (List.drop a.length) ht
    rwa [List.drop_append_of_le_length (by omega), List.drop_left] at h
  refine ⟨by rw [h1], ⟨t, h2⟩, ?_⟩
  cases a with
  | nil => exact absurd rfl ha
  | cons _ _ => simp

theorem findSub?_append (p : Txt) :
    ∀ (a b : Txt), findSub? p a = Option.none → NoSpan p a b →
      findSub? p (a ++ b) = (findSub? p b).map (· + a.length) := by
  intro a
  induction a with
  | nil =>
    intro b _ _
    simp only [List.nil_append, List.length_nil]
    cases findSub? p b <;> simp
  | cons c a' ih =>
    intro b hnone hspan
    have hnone' : findSub? p a' = Option.none := by
      simp only [findSub?] at hnone
      by_cases hpre : p.isPrefixOf (c :: a') = true
      · rw [if_pos hpre] at hnone
        cases hnone
      · rw [if_neg hpre] at hnone
        exact Option.map_eq_none'.mp hnone
    have hnpre : ¬ p.isPrefixOf (c :: a') = true := by
      intro hpre
      simp only [findSub?] at hnone
      rw [if_pos hpre] at hnone
      cases hnone
    have hnp2 : ¬ p.isPrefixOf (c :: (a' ++ b)) = true := by
      intro hpre
      rw [List.isPrefixOf_iff_prefix] at hpre
      by_cases hlen : p.length ≤ (c :: a').length
      · exact hnpre (List.isPrefixOf_iff_prefix.mpr
          ((prefix_append_iff_of_le b hlen).mp (by simpa using hpre)))
      · obtain ⟨h1, h2, h3⟩ := span_of_prefix_append
          (show p <+: (c :: a') ++ b by simpa using hpre) (by omega) (by simp)
        exact hspan (c :: a').length h3 (by omega) ⟨h1, h2⟩
    have hspan' : NoSpan p a' b := by
      intro k hk0 hkl ⟨h1, h2⟩
      exact hspan k hk0 hkl ⟨h1.trans ⟨[c], rfl⟩, h2⟩
    show findSub? p (c :: (a' ++ b)) = _
    simp only [findSub?]
    rw [if_neg hnp2]
    rw [ih b hnone' hspan']
    cases findSub? p b <;> simp
    omega

theorem findSub?_append_none (p : Txt) (a b : Txt)
    (ha : findSub? p a = Option.none) (hb : findSub? p b = Option.none)
    (hspan : NoSpan p a b) : findSub? p (a ++ b) = Option.none := by
  rw [findSub?_append p a b ha hspan, hb]
  rfl

theorem containsSub_append_false (p : Txt) (a b : Txt)
    (ha : containsSub p a = false) (hb : containsSub p b = false)
    (hspan : NoSpan p a b) : containsSub p (a ++ b) = false := by
  unfold containsSub at *
  rw [findSub?_append_none p a b ?_ ?_ hspan]
  · rfl
  · cases hf : findSub? p a
    · rfl
    · rw [hf] at ha; simp at ha
  · cases hf : findSub? p b
    · rfl
    · rw [hf] at hb; simp at hb

/-- `NoSpan` discharge: every proper tail of `p` starts with a character
other than `\n`, and `b` starts with `\n`. -/
def spanSafeNl (p : Txt) : Bool :=
  (List.range p.length).all (fun k =>
    if k = 0 then true else
      match p.drop k with
      | [] => true
      | c :: _ => !(c = nl))

theorem noSpan_of_nl_right {p b : Txt} (a : Txt) (hp : spanSafeNl p = true)
    (hb : ∃ b', b = nl :: b') : NoSpan p a b := by
  rintro k hk0 hkl ⟨_, hdrop⟩
  obtain ⟨b', rfl⟩ := hb
  rw [spanSafeNl, List.all_eq_true] at hp
  have hpk := hp k (List.mem_range.mpr hkl)
  rw [if_neg (by omega)] at hpk
  cases hd : p.drop k with
  | nil =>
    have := congrArg List.length hd
    simp only [List.length_drop, List.length_nil] at this
    omega
  | cons c cs =>
    rw [hd] at hpk hdrop
    obtain ⟨t, ht⟩ := hdrop
    simp only [List.cons_append] at ht
    injection ht with h1 _
    rw [h1] at hpk
    simp at hpk

/-- `NoSpan` discharge: no prefix of `p` is a suffix of the concrete text
`c` that ends the left side. -/
def noTakeSuffixDeep (p c : Txt) : Bool :=
  (List.range p.length).all (fun k =>
    if k = 0 then true
    else if k ≤ c.length then !((p.take k).isSuffixOf c)
    else !(c.isSuffixOf (p.take k)))

theorem noSpan_of_concrete_left {p c : Txt} (a' b : Txt)
    (h : noTakeSuffixDeep p c = true) : NoSpan p (a' ++ c) b := by
  rintro k hk0 hkl ⟨htake, _⟩
  rw [noTakeSuffixDeep, List.all_eq_true] at h
  have hk := h k (List.mem_range.mpr hkl)
  rw [if_neg (by omega)] at hk
  by_cases hlen : k ≤ c.length
  · rw [if_pos hlen] at hk
    have hx : p.take k <:+ c := by
      rw [← suffix_append_iff_of_le a' (by rw [List.length_take]; omega)]
      exact htake
    have hb : (p.take k).isSuffixOf c = true := by
      rw [List.isSuffixOf_iff_suffix]
      exact hx
    rw [hb] at hk
    simp at hk
  · rw [if_neg hlen] at hk
    have hc : c <:+ a' ++ c := List.suffix_append a' c
    have hx : c <:+ p.take k :=
      suffix_of_suffix_length_le hc htake (by rw [List.length_take]; omega)
    have hb : c.isSuffixOf (p.take k) = true := by
      rw [List.isSuffixOf_iff_suffix]
      exact hx
    rw [hb] at hk
    simp at hk

theorem containsSub_cons_false {p : Txt} {c : Char} {t : Txt}
    (h : containsSub p (c :: t) = false) : containsSub p t = false := by
  unfold containsSub at *
  simp only [findSub?] at h
  by_cases hpre : p.isPrefixOf (c :: t) = true
  · rw [if_pos hpre] at h
    simp at h
  · rw [if_neg hpre] at h
    cases hf : findSub? p t with
    | none => rfl
    | some i => rw [hf] at h; simp at h

theorem noSpan_cons_left {p : Txt} {c : Char} {A B : Txt}
    (h : NoSpan p (c :: A) B) : NoSpan p A B := by
  rintro k hk0 hkl ⟨h1, h2⟩
  exact h k hk0 hkl ⟨h1.trans ⟨[c], rfl⟩, h2⟩

theorem containsSub_nil_false {p : Txt} (hp : p ≠ []) :
    containsSub p [] = false := by
  unfold containsSub findSub?
  rw [if_neg hp]
  rfl

theorem noSpan_nil_left (p B : Txt) : NoSpan p [] B := by
  rintro k hk0 hkl ⟨h1, _⟩
  have h2 := h1.length_le
  simp only [List.length_take, List.length_nil] at h2
  omega

theorem containsSub_false_iff {p t : Txt} :
    containsSub p t = false ↔ ∀ j, ¬ p <+: t.drop j := by
  constructor
  · exact fun h => no_occurrence_of_not_contains h
  · intro h
    cases hf : findSub? p t with
    | none => unfold containsSub; rw [hf]; rfl
    | some i => exact absurd ((findSub?_some p t i hf).1) (h i)

/-- An occurrence of a superstring yields an occurrence of a prefix of it. -/
theorem containsSub_of_prefix {p q t : Txt} (hpq : p <+: q)
    (h : containsSub p t = false) : containsSub q t = false := by
  rcases hq : containsSub q t with _ | _
  · rfl
  · exfalso
    unfold containsSub at hq
    cases hf : findSub? q t with
    | none => rw [hf] at hq; simp at hq
    | some i =>
      exact no_occurrence_of_not_contains h i (hpq.trans (findSub?_some q t i hf).1)

theorem not_prefix_append_of_clear {p A B : Txt}
    (hA : containsSub p A = false) (hs : NoSpan p A B) (hne : A ≠ []) :
    ¬ p <+: (A ++ B) := by
  intro hc
  by_cases hlen : p.length ≤ A.length
  · exact no_occurrence_of_not_contains hA 0
      (by simpa using (prefix_append_iff_of_le B hlen).mp hc)
  · obtain ⟨h1, h2, h3⟩ := span_of_prefix_append hc (by omega) hne
    exact hs A.length h3 (by omega) ⟨h1, h2⟩

/-- First-character mismatch check: if `x` differs from `C` within `C`'s
length, `x` is not a prefix of `C ++ s` for any `s`. -/
def notPrefixWithin : Txt → Txt → Bool
  | [], _ => false
  | _ :: _, [] => false
  | a :: x', c :: C' => !(a = c) || notPrefixWithin x' C'

theorem not_prefix_of_notPrefixWithin :
    ∀ {x C : Txt}, notPrefixWithin x C = true → ∀ s, ¬ x <+: (C ++ s)
  | [], _, h, _ => by simp [notPrefixWithin] at h
  | _ :: _, [], h, _ => by simp [notPrefixWithin] at h
  | a :: x', c :: C', h, s => by
    simp only [notPrefixWithin, Bool.or_eq_true, Bool.not_eq_true',
      decide_eq_false_iff_not] at h
    intro hpre
    rw [List.cons_append, List.cons_prefix_cons] at hpre
    rcases h with h | h
    · exact h hpre.1
    · exact not_prefix_of_notPrefixWithin h s hpre.2

/-- Every nonempty proper tail of `p` mismatches the concrete text `C`
within `C`'s length. -/
def noSpanRConcrete (p C : Txt) : Bool :=
  (List.range p.length).all (fun j =>
    decide (j = 0) || notPrefixWithin (p.drop j) C)

theorem noSpan_of_concrete_right {p C : Txt} (A s : Txt)
    (h : noSpanRConcrete p C = true) : NoSpan p A (C ++ s) := by
  rintro k hk0 hkl ⟨_, hdrop⟩
  rw [noSpanRConcrete, List.all_eq_true] at h
  have hk := h k (List.mem_range.mpr hkl)
  simp only [Bool.or_eq_true, decide_eq_true_eq] at hk
  rcases hk with hk | hk
  · omega
  · exact not_prefix_of_notPrefixWithin hk s hdrop

/-- No nonempty proper tail of `p` starts with a decimal digit. -/
def noSpanRDigit (p : Txt) : Bool :=
  (List.range p.length).all (fun j =>
    decide (j = 0) ||
      match p.drop j with
      | [] => true
      | c :: _ => !(('0' ≤ c) && (c ≤ '9')))

theorem noSpan_of_digit_right {p D : Txt} (A s : Txt)
    (h : noSpanRDigit p = true) (hD : ∀ c ∈ D, (('0' ≤ c) && (c ≤ '9')) = true)
    (hne : D ≠ []) : NoSpan p A (D ++ s) := by
  rintro k hk0 hkl ⟨_, hdrop⟩
  rw [noSpanRDigit, List.all_eq_true] at h
  have hk := h k (List.mem_range.mpr hkl)
  simp only [Bool.or_eq_true, decide_eq_true_eq] at hk
  rcases hk with hk | hk
  · omega
  · cases hD' : D with
    | nil => exact hne hD'
    | cons d D' =>
      subst hD'
      cases hpk : p.drop k with
      | nil =>
        have := congrArg List.length hpk
        simp only [List.length_drop, List.length_nil] at this
        omega
      | cons c cs =>
        rw [hpk] at hk hdrop
        obtain ⟨t, ht⟩ := hdrop
        simp only [List.cons_append] at ht
        injection ht with h1 _
        subst h1
        have hkc : (!(('0' ≤ c) && (c ≤ '9'))) = true := hk
        rw [hD c (by simp)] at hkc
        simp at hkc

/-- Any prefix of `p` that could end the left side would put `p`'s first
character into `A`; if that character does not occur in `A` there is no
span and no occurrence. -/
theorem clear_of_head_notin {p : Txt} {c0 : Char} {A : Txt}
    (hp : ∃ q, p = c0 :: q) (hA : ∀ c ∈ A, c ≠ c0) :
    containsSub p A = false ∧ ∀ B, NoSpan p A B := by
  obtain ⟨q, rfl⟩ := hp
  constructor
  · rw [containsSub_false_iff]
    intro j hpre
    cases hd : A.drop j with
    | nil => rw [hd] at hpre; simp at hpre
    | cons a rest =>
      rw [hd] at hpre
      rw [List.cons_prefix_cons] at hpre
      exact hA a (by
        have : a ∈ A.drop j := by rw [hd]; simp
        exact List.mem_of_mem_drop this) hpre.1.symm
  · intro B
    rintro k hk0 hkl ⟨htake, _⟩
    have hk' : (c0 :: q).take k = c0 :: q.take (k - 1) := by
      cases k with
      | zero => omega
      | succ k' => simp
    rw [hk'] at htake
    have : c0 ∈ A := htake.mem (by simp)
    exact hA c0 this rfl

/-- The workhorse for positions inside a clean symbolic block: `p` cannot
begin at any position of `A ++ T` that lies in `A`, when `p` does not occur
in `A`, does not begin `T`, and none of its proper tails begins `T`. -/
theorem no_prefix_drop_append {p A T : Txt}
    (hA : containsSub p A = false)
    (hs : ∀ j, 0 < j → j < p.length → ¬ p.drop j <+: T)
    (hpT : ¬ p <+: T) :
    ∀ k, ¬ p <+: (A.drop k ++ T) := by
  intro k hc
  by_cases hlen : p.length ≤ (A.drop k).length
  · exact no_occurrence_of_not_contains hA k
      ((prefix_append_iff_of_le T hlen).mp hc)
  · by_cases hnil : A.drop k = []
    · rw [hnil] at hc
      exact hpT (by simpa using hc)
    · obtain ⟨h1, h2, h3⟩ := span_of_prefix_append hc (by omega) hnil
      exact hs (A.drop k).length h3 (by omega) h2

theorem tail_not_prefix_of_nl {p T : Txt} (hp : spanSafeNl p = true)
    (hT : ∃ t, T = nl :: t) :
    ∀ j, 0 < j → j < p.length → ¬ p.drop j <+: T := by
  intro j hj0 hjl hpre
  obtain ⟨t, rfl⟩ := hT
  rw [spanSafeNl, List.all_eq_true] at hp
  have hpk := hp j (List.mem_range.mpr hjl)
  rw [if_neg (by omega)] at hpk
  cases hd : p.drop j with
  | nil =>
    have := congrArg List.length hd
    simp only [List.length_drop, List.length_nil] at this
    omega
  | cons c cs =>
    rw [hd] at hpk hpre
    rw [List.cons_prefix_cons] at hpre
    rw [hpre.1] at hpk
    simp at hpk

/-! ### List computation helpers -/

theorem takeWhile_all_append {pr : Char → Bool} :
    ∀ {V : Txt} (y : Txt), (∀ c ∈ V, pr c = true) →
      (V ++ y).takeWhile pr = V ++ y.takeWhile pr
  | [], y, _ => by simp
  | v :: V', y, h => by
    rw [List.cons_append, List.takeWhile_cons, if_pos (h v (by simp)),
      List.cons_append, takeWhile_all_append y (fun c hc => h c (by simp [hc]))]

theorem takeWhile_cons_neg {pr : Char → Bool} {c : Char} (t : Txt)
    (h : pr c = false) : (c :: t).takeWhile pr = [] := by
  rw [List.takeWhile_cons, if_neg (by simp [h])]

theorem nat_foldl_min {m : Nat} :
    ∀ (l : List Nat) (a : Nat), (m = a ∨ m ∈ l) → m ≤ a → (∀ x ∈ l, m ≤ x) →
      l.foldl min a = m
  | [], a, hm, hle, _ => by
    rcases hm with rfl | hm
    · simp
    · simp at hm
  | b :: l', a, hm, hle, hall => by
    rw [List.foldl_cons]
    have hb : m ≤ b := hall b (by simp)
    rcases hm with rfl | hm
    · exact nat_foldl_min l' (min m b) (Or.inl (by omega))
        (by omega) (fun x hx => hall x (by simp [hx]))
    · rw [List.mem_cons] at hm
      rcases hm with rfl | hm
      · exact nat_foldl_min l' (min a m) (Or.inl (by omega))
          (by omega) (fun x hx => hall x (by simp [hx]))
      · exact nat_foldl_min l' (min a b) (Or.inr hm)
          (by omega) (fun x hx => hall x (by simp [hx]))

theorem nat_min?_eq {l : List Nat} {m : Nat} (hm : m ∈ l)
    (hle : ∀ x ∈ l, m ≤ x) : l.min? = some m := by
  cases l with
  | nil => simp at hm
  | cons a l' =>
    rw [List.min?_cons']
    rw [List.mem_cons] at hm
    exact congrArg some (nat_foldl_min l' a hm (hle a (by simp))
      (fun x hx => hle x (by simp [hx])))

/-! ### Scanner skip lemmas -/

theorem findFieldGroup_append (L : Txt) :
    ∀ (A B : Txt), containsSub L A = false → NoSpan L A B →
      findFieldGroup L (A ++ B) = findFieldGroup L B := by
  intro A
  induction A with
  | nil => intro B _ _; rw [List.nil_append]
  | cons c A' ih =>
    intro B hA hs
    have hnp : ¬ L.isPrefixOf (c :: (A' ++ B)) = true := fun hpre =>
      not_prefix_append_of_clear hA hs (by simp)
        (by simpa using List.isPrefixOf_iff_prefix.mp hpre)
    rw [List.cons_append]
    show findFieldGroup L (c :: (A' ++ B)) = _
    simp only [findFieldGroup]
    rw [if_neg hnp]
    exact ih B (containsSub_cons_false hA) (noSpan_cons_left hs)

theorem findFieldGroup_none_of_clear (L : Txt) :
    ∀ t, containsSub L t = false → findFieldGroup L t = Option.none := by
  intro t
  induction t with
  | nil => intro _; rfl
  | cons c rest ih =>
    intro h
    have hnp : ¬ L.isPrefixOf (c :: rest) = true := fun hpre =>
      no_occurrence_of_not_contains h 0
        (by simp only [List.drop_zero]; exact List.isPrefixOf_iff_prefix.mp hpre)
    simp only [findFieldGroup]
    rw [if_neg hnp]
    exact ih (containsSub_cons_false h)

theorem findFieldGroup_head {L R g : Txt} (hL : L ≠ [])
    (h : fieldGroupAfter R = some g) : findFieldGroup L (L ++ R) = some g := by
  cases L with
  | nil => exact absurd rfl hL
  | cons c L' =>
    rw [List.cons_append]
    show findFieldGroup (c :: L') (c :: (L' ++ R)) = some g
    simp only [findFieldGroup]
    rw [if_pos (List.isPrefixOf_iff_prefix.mpr
      (by rw [← List.cons_append]; exact List.prefix_append (c :: L') R))]
    have hd : (c :: (L' ++ R)).drop (c :: L').length = R := by
      rw [← List.cons_append, List.drop_left]
    rw [hd, h]

def ctLabel : Txt := (r"### Content").data

theorem findContentGroup_append :
    ∀ (A B : Txt), containsSub ctLabel A = false → NoSpan ctLabel A B →
      findContentGroup (A ++ B) = findContentGroup B := by
  intro A
  induction A with
  | nil => intro B _ _; rw [List.nil_append]
  | cons c A' ih =>
    intro B hA hs
    have hnp : ¬ (r"### Content").data.isPrefixOf (c :: (A' ++ B)) = true :=
      fun hpre =>
        not_prefix_append_of_clear hA hs (by simp)
          (show ctLabel <+: (c :: A') ++ B by
            rw [List.cons_append]
            exact List.isPrefixOf_iff_prefix.mp hpre)
    rw [List.cons_append]
    show findContentGroup (c :: (A' ++ B)) = _
    simp only [findContentGroup]
    rw [if_neg hnp]
    exact ih B (containsSub_cons_false hA) (noSpan_cons_left hs)

/-- The continuation `\s*(.+)` of a field-label match evaluates to the
whole rest of the line when the value starts right after one space, is
newline-free and starts with a non-whitespace character. -/
theorem fieldGroupAfter_eval {V R : Txt} (hne : V ≠ [])
    (hhead : ∀ c, V.head? = some c → isPyWs c = false)
    (hnl : ∀ c ∈ V, ¬ c = nl) :
    fieldGroupAfter (' ' :: (V ++ nl :: R)) = some V := by
  cases V with
  | nil => exact absurd rfl hne
  | cons v V' =>
    have hv : isPyWs v = false := hhead v rfl
    have hvnl : ¬ v = nl := hnl v (by simp)
    have hw : (' ' :: (v :: V' ++ nl :: R)).takeWhile isPyWs = [' '] := by
      rw [List.cons_append, List.takeWhile_cons, if_pos (by decide),
        List.takeWhile_cons, if_neg (by simp [hv])]
    have hf1 : ((' ' :: (v :: V' ++ nl :: R)).getD 1 nl) = v := by
      rw [List.cons_append]
      rfl
    have hf0 : ((' ' :: (v :: V' ++ nl :: R)).getD 0 nl) = ' ' := by
      rw [List.cons_append]
      rfl
    have hfil : (List.range 2).filter
        (fun m => !(((' ' :: (v :: V' ++ nl :: R)).getD m nl) = nl)) = [0, 1] := by
      rw [show List.range 2 = [0, 1] from rfl]
      rw [List.filter_cons, List.filter_cons, List.filter_nil]
      rw [if_pos (by simp [hf0, nl]), if_pos (by simp [hf1, hvnl])]
    have hgrp : ((' ' :: (v :: V' ++ nl :: R)).drop 1).takeWhile
        (fun c => !(c = nl)) = v :: V' := by
      rw [List.drop_one, List.tail_cons, takeWhile_all_append (nl :: R)
        (fun c hc => by simpa using hnl c hc)]
      rw [takeWhile_cons_neg _ (by simp), List.append_nil]
    simp only [fieldGroupAfter]
    rw [hw]
    rw [show ([' '] : Txt).length + 1 = 2 from rfl]
    rw [hfil]
    rw [show ([0, 1] : List Nat).max? = some 1 from rfl]
    exact congrArg some hgrp

/-- The content group of a rendered section: after the two newlines the
non-greedy group grows through the whole stripped body and one newline,
stopping at the lookahead before `### Attachments` or `---`. -/
theorem contentGroupAfter_eval {B R' : Txt} (hne : B ≠ [])
    (hhead : ∀ c, B.head? = some c → isPyWs c = false)
    (h3 : containsSub [nl, '-', '-', '-'] B = false)
    (h4 : containsSub [nl, '#', '#', ' '] B = false)
    (h5 : containsSub (nl :: (r"### Attachments").data) B = false)
    (hR : (r"---").data <+: R' ∨ (r"### Attachments").data <+: R') :
    contentGroupAfter (nl :: nl :: (B ++ nl :: nl :: R')) = some (B ++ [nl]) := by
  cases B with
  | nil => exact absurd rfl hne
  | cons b B' =>
    have hb : isPyWs b = false := hhead b rfl
    have hbnl : ¬ b = nl := by
      intro h
      rw [h] at hb
      exact absurd hb (by decide)
    have hlook : contentLookaheadAt (nl :: R') = true := by
      rcases hR with ⟨t, ht⟩ | ⟨t, ht⟩
      · have hpre : ([nl, '-', '-', '-']).isPrefixOf (nl :: R') = true := by
          rw [List.isPrefixOf_iff_prefix, ← ht]
          exact ⟨t, rfl⟩
        unfold contentLookaheadAt
        rw [hpre]
        simp
      · have hpre : (nl :: (r"### Attachments").data).isPrefixOf (nl :: R') = true := by
          rw [List.isPrefixOf_iff_prefix, ← ht]
          exact ⟨t, rfl⟩
        unfold contentLookaheadAt
        rw [hpre]
        simp
    have hw : (nl :: nl :: ((b :: B') ++ nl :: nl :: R')).takeWhile isPyWs
        = [nl, nl] := by
      rw [List.takeWhile_cons, if_pos (by decide), List.takeWhile_cons,
        if_pos (by decide), List.cons_append, List.takeWhile_cons,
        if_neg (by simp [hb])]
    have hg2 : ((nl :: nl :: ((b :: B') ++ nl :: nl :: R')).getD 2 ' ') = b := by
      rw [List.cons_append]
      rfl
    have hfil : (List.range 3).filter
        (fun m => ((nl :: nl :: ((b :: B') ++ nl :: nl :: R')).getD m ' ') = nl)
        = [0, 1] := by
      rw [show List.range 3 = [0, 1, 2] from rfl]
      rw [List.filter_cons, List.filter_cons, List.filter_cons, List.filter_nil]
      rw [if_pos (by simp [nl]), if_pos (by simp [nl]),
        if_neg (by simp [hg2, hbnl])]
    have hdrop2 : (nl :: nl :: ((b :: B') ++ nl :: nl :: R')).drop (1 + 1)
        = (b :: B') ++ nl :: nl :: R' := rfl
    have hmem : ((b :: B').length + 1) ∈ (List.range
        (((b :: B') ++ nl :: nl :: R').length + 1)).filter
        (fun k => decide (1 ≤ k)
          && contentLookaheadAt (((b :: B') ++ nl :: nl :: R').drop k)) := by
      rw [List.mem_filter, List.mem_range]
      refine ⟨by simp only [List.length_append, List.length_cons]; omega, ?_⟩
      rw [Bool.and_eq_true]
      refine ⟨by simp, ?_⟩
      rw [List.drop_append 1]
      exact hlook
    have hlb : ∀ x ∈ (List.range
        (((b :: B') ++ nl :: nl :: R').length + 1)).filter
        (fun k => decide (1 ≤ k)
          && contentLookaheadAt (((b :: B') ++ nl :: nl :: R').drop k)),
        (b :: B').length + 1 ≤ x := by
      intro x hx
      rw [List.mem_filter, Bool.and_eq_true] at hx
      obtain ⟨_, h1x, hla⟩ := hx
      by_contra hlt
      have hxle : x ≤ (b :: B').length := by omega
      rw [List.drop_append_of_le_length hxle] at hla
      simp only [contentLookaheadAt, Bool.or_eq_true, decide_eq_true_eq] at hla
      rcases hla with (((h | h) | h) | h) | h
      · refine no_prefix_drop_append h3 (tail_not_prefix_of_nl (by decide)
          ⟨nl :: R', rfl⟩) ?_ x (List.isPrefixOf_iff_prefix.mp h)
        rintro ⟨t, ht⟩
        injection ht with _ h2
        injection h2 with hc _
        exact absurd hc (by decide)
      · refine no_prefix_drop_append h4 (tail_not_prefix_of_nl (by decide)
          ⟨nl :: R', rfl⟩) ?_ x (List.isPrefixOf_iff_prefix.mp h)
        rintro ⟨t, ht⟩
        injection ht with _ h2
        injection h2 with hc _
        exact absurd hc (by decide)
      · refine no_prefix_drop_append h5 (tail_not_prefix_of_nl (by decide)
          ⟨nl :: R', rfl⟩) ?_ x (List.isPrefixOf_iff_prefix.mp h)
        rintro ⟨t, ht⟩
        injection ht with _ h2
        injection h2 with hc _
        exact absurd hc (by decide)
      · rw [List.isEmpty_iff] at h
        have := congrArg List.length h
        simp only [List.length_append, List.length_cons, List.length_nil] at this
        omega
      · have := congrArg List.length h
        simp only [List.length_append, List.length_cons, List.length_nil] at this
        omega
    have htake : ((b :: B') ++ nl :: nl :: R').take ((b :: B').length + 1)
        = (b :: B') ++ [nl] := by
      rw [List.take_append 1]
      rfl
    have hfin : (match ((List.range (((b :: B') ++ nl :: nl :: R').length + 1)).filter
          (fun k => decide (1 ≤ k)
            && contentLookaheadAt (((b :: B') ++ nl :: nl :: R').drop k))).min? with
        | some k => some (((b :: B') ++ nl :: nl :: R').take k)
        | Option.none => (Option.none : Option Txt)) = some ((b :: B') ++ [nl]) := by
      rw [nat_min?_eq hmem hlb]
      exact congrArg some htake
    simp only [contentGroupAfter]
    rw [hw]
    rw [show ([nl, nl] : Txt).length + 1 = 3 from rfl]
    rw [hfil]
    rw [show ([0, 1] : List Nat).max? = some 1 from rfl]
    exact hfin

theorem findContentGroup_head {R g : Txt} (h : contentGroupAfter R = some g) :
    findContentGroup (ctLabel ++ R) = some g := by
  show findContentGroup ('#' :: ((r"## Content").data ++ R)) = some g
  simp only [findContentGroup]
  rw [if_pos (List.isPrefixOf_iff_prefix.mpr
    (show (r"### Content").data <+: '#' :: ((r"## Content").data ++ R) from
      List.prefix_append (r"### Content").data R))]
  have hd : ('#' :: ((r"## Content").data ++ R)).drop 11 = R := rfl
  rw [hd, h]

/-! ### Digit characters -/

theorem digit_not_ws {c : Char} (h : (('0' ≤ c) && (c ≤ '9')) = true) :
    isPyWs c = false := by
  rw [Bool.and_eq_true, decide_eq_true_eq, decide_eq_true_eq] at h
  by_contra hw
  rw [Bool.not_eq_false] at hw
  simp only [isPyWs, Bool.or_eq_true, decide_eq_true_eq] at hw
  rcases hw with ((((hc | hc) | hc) | hc) | hc) | hc <;>
    (subst hc; exact absurd h (by decide))

theorem digit_ne_nl {c : Char} (h : (('0' ≤ c) && (c ≤ '9')) = true) :
    ¬ c = nl := by
  intro hc
  subst hc
  exact absurd h (by decide)

theorem natDigitsGo_digits :
    ∀ (fuel n : Nat), ∀ c ∈ natDigitsGo fuel n, (('0' ≤ c) && (c ≤ '9')) = true := by
  intro fuel
  induction fuel with
  | zero => intro n c hc; simp [natDigitsGo] at hc
  | succ f ih =>
    intro n c hc
    simp only [natDigitsGo] at hc
    by_cases hn : n < 10
    · rw [if_pos hn] at hc
      simp only [List.mem_singleton] at hc
      subst hc
      interval_cases n <;> decide
    · rw [if_neg hn] at hc
      rw [List.mem_append, List.mem_singleton] at hc
      rcases hc with hc | hc
      · exact ih (n / 10) c hc
      · subst hc
        have hm : n % 10 < 10 := Nat.mod_lt _ (by omega)
        interval_cases hv : n % 10 <;> decide

theorem natDigits_digits (n : Nat) :
    ∀ c ∈ natDigits n, (('0' ≤ c) && (c ≤ '9')) = true :=
  natDigitsGo_digits (n + 1) n

theorem natDigits_ne_nil (n : Nat) : natDigits n ≠ [] := by
  unfold natDigits natDigitsGo
  by_cases hn : n < 10
  · rw [if_pos hn]
    simp
  · rw [if_neg hn]
    simp

/-! ### Structure of whitespace-normalized text -/

theorem dropWhile_head_not {p : Char → Bool} :
    ∀ {l t : Txt} {c : Char}, l.dropWhile p = c :: t → p c = false := by
  intro l
  induction l with
  | nil => intro t c h; simp [List.dropWhile] at h
  | cons a l' ih =>
    intro t c h
    rw [List.dropWhile_cons] at h
    by_cases ha : p a = true
    · rw [if_pos ha] at h
      exact ih h
    · rw [if_neg ha] at h
      injection h with h1 _
      subst h1
      simpa using ha

theorem pyLStrip_head {v : Txt} {c : Char} (h : (pyLStrip v).head? = some c) :
    isPyWs c = false := by
  cases hv : pyLStrip v with
  | nil => rw [hv] at h; cases h
  | cons a t =>
    rw [hv] at h
    injection h with h1
    subst h1
    exact dropWhile_head_not hv

theorem pyRStrip_prefix (l : Txt) : pyRStrip l <+: l := by
  unfold pyRStrip
  have h : l.reverse.dropWhile isPyWs <:+ l.reverse := List.dropWhile_suffix isPyWs
  rw [← List.reverse_prefix] at h
  simpa using h

theorem pyStrip_head {v : Txt} {c : Char} (h : (pyStrip v).head? = some c) :
    isPyWs c = false := by
  unfold pyStrip at h
  cases hv : pyRStrip (pyLStrip v) with
  | nil => rw [hv] at h; cases h
  | cons a t =>
    rw [hv] at h
    injection h with h1
    subst h1
    have hpre : pyRStrip (pyLStrip v) <+: pyLStrip v := pyRStrip_prefix _
    rw [hv] at hpre
    obtain ⟨s, hs⟩ := hpre
    refine @pyLStrip_head v _ ?_
    rw [← hs]
    rfl

theorem collapseWs_ws_char :
    ∀ (b : Bool) (t : Txt) (c : Char), c ∈ collapseWsGo b t →
      isPyWs c = true → c = ' ' := by
  intro b t
  induction t generalizing b with
  | nil => intro c hc; simp [collapseWsGo] at hc
  | cons d rest ih =>
    intro c hc hws
    simp only [collapseWsGo] at hc
    by_cases hd : isPyWs d = true
    · rw [if_pos hd] at hc
      by_cases hb : b = true
      · rw [if_pos hb] at hc
        exact ih true c hc hws
      · rw [if_neg hb] at hc
        rw [List.mem_cons] at hc
        rcases hc with rfl | hc
        · rfl
        · exact ih true c hc hws
    · rw [if_neg hd] at hc
      rw [List.mem_cons] at hc
      rcases hc with rfl | hc
      · rw [hws] at hd
        exact absurd rfl hd
      · exact ih false c hc hws

theorem clean_ws_fixed_no_nl {v : Txt} (h : clean_ws v = v) :
    ∀ c ∈ v, ¬ c = nl := by
  intro c hc hcnl
  subst hcnl
  rw [← h] at hc
  have := collapseWs_ws_char false (pyStrip v) nl hc (by decide)
  exact absurd this (by decide)

theorem clean_ws_head {v : Txt} {c : Char} (h : (clean_ws v).head? = some c) :
    isPyWs c = false := by
  unfold clean_ws at h
  cases hv : pyStrip v with
  | nil => rw [hv] at h; cases h
  | cons a t =>
    have ha : isPyWs a = false := pyStrip_head (by rw [hv]; rfl)
    rw [hv] at h
    simp only [collapseWsGo, if_neg (by simp [ha] : ¬ isPyWs a = true)] at h
    injection h with h1
    subst h1
    exact ha

theorem clean_ws_fixed_head {v : Txt} {c : Char} (h : clean_ws v = v)
    (hc : v.head? = some c) : isPyWs c = false :=
  clean_ws_head (by rw [h]; exact hc)

theorem pyLStrip_fix_head {v : Txt} {c : Char} (h : pyLStrip v = v)
    (hc : v.head? = some c) : isPyWs c = false :=
  pyLStrip_head (by rw [h]; exact hc)

theorem pyStrip_eq_self {v : Txt} (h1 : pyLStrip v = v) (h2 : pyRStrip v = v) :
    pyStrip v = v := by
  unfold pyStrip
  rw [h1, h2]

theorem pyLStrip_cons_fix {c : Char} (t : Txt) (h : isPyWs c = false) :
    pyLStrip (c :: t) = c :: t := by
  unfold pyLStrip
  rw [List.dropWhile_cons, if_neg (by simp [h])]

theorem pyRStrip_append_last {X : Txt} {z : Char} (h : isPyWs z = false) :
    pyRStrip (X ++ [z]) = X ++ [z] := by
  unfold pyRStrip
  rw [List.reverse_append]
  show ((z :: X.reverse).dropWhile isPyWs).reverse = X ++ [z]
  rw [List.dropWhile_cons, if_neg (by simp [h])]
  simp

theorem pyStrip_append_nl {B : Txt} (h1 : pyLStrip B = B) (h2 : pyRStrip B = B)
    (hne : B ≠ []) : pyStrip (B ++ [nl]) = B := by
  cases B with
  | nil => exact absurd rfl hne
  | cons b B' =>
    have hb : isPyWs b = false := pyLStrip_fix_head h1 rfl
    unfold pyStrip
    rw [show (b :: B') ++ [nl] = b :: (B' ++ [nl]) from rfl]
    rw [pyLStrip_cons_fix _ hb]
    unfold pyRStrip
    rw [show (b :: (B' ++ [nl])).reverse = nl :: (b :: B').reverse from by simp]
    rw [List.dropWhile_cons, if_pos (by decide)]
    unfold pyRStrip at h2
    exact h2

theorem pyStrip_ne_nil_of_head {c : Char} (t : Txt) (h : isPyWs c = false) :
    pyStrip (c :: t) ≠ [] := by
  unfold pyStrip
  rw [pyLStrip_cons_fix _ h]
  intro hc
  unfold pyRStrip at hc
  have := congrArg List.reverse hc
  rw [List.reverse_reverse] at this
  simp only [List.reverse_nil] at this
  have hall := (List.dropWhile_eq_nil_iff).mp this
  have hcmem : c ∈ (c :: t).reverse := by simp
  rw [hall c hcmem] at h
  cases h

theorem collapseWs_nonws_front :
    ∀ {A : Txt} (r : Txt), (∀ c ∈ A, isPyWs c = false) →
      collapseWsGo false (A ++ r) = A ++ collapseWsGo false r
  | [], r, _ => by simp
  | a :: A', r, h => by
    rw [List.cons_append]
    show collapseWsGo false (a :: (A' ++ r)) = _
    simp only [collapseWsGo]
    rw [if_neg (by simp [h a (by simp)])]
    rw [collapseWs_nonws_front r (fun c hc => h c (by simp [hc]))]
    rfl

/-- `_clean_ws` fixes a text made of two nonempty whitespace-free halves
joined by a single space. -/
theorem clean_ws_one_space {A B_ : Txt}
    (hA : ∀ c ∈ A, isPyWs c = false) (hB : ∀ c ∈ B_, isPyWs c = false)
    (hAne : A ≠ []) (hBne : B_ ≠ []) :
    clean_ws (A ++ ' ' :: B_) = A ++ ' ' :: B_ := by
  have hstrip : pyStrip (A ++ ' ' :: B_) = A ++ ' ' :: B_ := by
    rcases List.eq_nil_or_concat' B_ with rfl | ⟨B2, z, rfl⟩
    · exact absurd rfl hBne
    · cases A with
      | nil => exact absurd rfl hAne
      | cons a A' =>
        refine pyStrip_eq_self ?_ ?_
        · exact pyLStrip_cons_fix _ (hA a (by simp))
        · rw [show (a :: A') ++ ' ' :: (B2 ++ [z]) = ((a :: A') ++ ' ' :: B2) ++ [z]
            from by simp]
          exact pyRStrip_append_last (hB z (by simp))
  unfold clean_ws
  rw [hstrip]
  rw [collapseWs_nonws_front (' ' :: B_) hA]
  cases B_ with
  | nil => exact absurd rfl hBne
  | cons b B' =>
    have hB' : collapseWsGo false B' = B' := by
      have h3 := @collapseWs_nonws_front B' ([] : Txt)
        (fun c hc => hB c (by simp [hc]))
      simpa [collapseWsGo] using h3
    simp only [collapseWsGo]
    simp [hB', hB b (by simp), show isPyWs ' ' = true from by decide]

/-! ### The canonical date format round-trips -/

theorem digitChar_digit {k : Nat} (h : k < 10) :
    (('0' ≤ digitChar k) && (digitChar k ≤ '9')) = true := by
  interval_cases k <;> decide

theorem digitVal_digitChar {k : Nat} (h : k < 10) :
    digitVal (digitChar k) = some k := by
  interval_cases k <;> decide

theorem pad2_digits (n : Nat) :
    ∀ c ∈ pad2 n, (('0' ≤ c) && (c ≤ '9')) = true := by
  intro c hc
  simp only [pad2, List.mem_cons, List.mem_singleton] at hc
  rcases hc with rfl | rfl | hc
  · exact digitChar_digit (Nat.mod_lt _ (by omega))
  · exact digitChar_digit (Nat.mod_lt _ (by omega))
  · simp at hc

theorem pad4_digits (n : Nat) :
    ∀ c ∈ pad4 n, (('0' ≤ c) && (c ≤ '9')) = true := by
  intro c hc
  simp only [pad4, List.mem_cons, List.mem_singleton] at hc
  rcases hc with rfl | rfl | rfl | rfl | hc
  · exact digitChar_digit (Nat.mod_lt _ (by omega))
  · exact digitChar_digit (Nat.mod_lt _ (by omega))
  · exact digitChar_digit (Nat.mod_lt _ (by omega))
  · exact digitChar_digit (Nat.mod_lt _ (by omega))
  · simp at hc

/-- Character classification of the rendered date. -/
theorem strftime_mem {d : DT6} {c : Char} (hc : c ∈ strftimeYmdHms d) :
    c = '-' ∨ c = ':' ∨ c = ' ' ∨ (('0' ≤ c) && (c ≤ '9')) = true := by
  have hc' : c ∈ pad4 d.year ∨ c = '-' ∨ c ∈ pad2 d.month ∨ c = '-'
      ∨ c ∈ pad2 d.day ∨ c = ' ' ∨ c ∈ pad2 d.hour ∨ c = ':'
      ∨ c ∈ pad2 d.minute ∨ c = ':' ∨ c ∈ pad2 d.second := by
    simpa [strftimeYmdHms, List.mem_append, List.mem_cons, or_assoc] using hc
  rcases hc' with h | h | h | h | h | h | h | h | h | h | h
  · exact Or.inr (Or.inr (Or.inr (pad4_digits _ c h)))
  · exact Or.inl h
  · exact Or.inr (Or.inr (Or.inr (pad2_digits _ c h)))
  · exact Or.inl h
  · exact Or.inr (Or.inr (Or.inr (pad2_digits _ c h)))
  · exact Or.inr (Or.inr (Or.inl h))
  · exact Or.inr (Or.inr (Or.inr (pad2_digits _ c h)))
  · exact Or.inr (Or.inl h)
  · exact Or.inr (Or.inr (Or.inr (pad2_digits _ c h)))
  · exact Or.inr (Or.inl h)
  · exact Or.inr (Or.inr (Or.inr (pad2_digits _ c h)))

theorem strftime_no_nl (d : DT6) : ∀ c ∈ strftimeYmdHms d, ¬ c = nl := by
  intro c hc hcnl
  subst hcnl
  rcases strftime_mem hc with h | h | h | h
  · exact absurd h (by decide)
  · exact absurd h (by decide)
  · exact absurd h (by decide)
  · exact absurd h (by decide)

theorem strftime_no_star_hash (d : DT6) :
    ∀ c ∈ strftimeYmdHms d, ¬ c = '*' ∧ ¬ c = '#' ∧ ¬ c = '_' := by
  intro c hc
  rcases strftime_mem hc with h | h | h | h
  · subst h; exact ⟨by decide, by decide, by decide⟩
  · subst h; exact ⟨by decide, by decide, by decide⟩
  · subst h; exact ⟨by decide, by decide, by decide⟩
  · refine ⟨?_, ?_, ?_⟩ <;> (intro he; subst he; exact absurd h (by decide))

/-- The `datetime` constructor's field validity (years capped at 9999 as
in CPython). -/
def validDT6 (w : DT6) : Bool :=
  decide (1 ≤ w.year) && decide (w.year ≤ 9999)
    && decide (1 ≤ w.month) && decide (w.month ≤ 12)
    && decide (1 ≤ w.day) && decide (w.day ≤ daysInMonth w.year w.month)
    && decide (w.hour ≤ 23) && decide (w.minute ≤ 59) && decide (w.second ≤ 59)

theorem strftime_split (d : DT6) :
    strftimeYmdHms d
      = (pad4 d.year ++ '-' :: pad2 d.month ++ '-' :: pad2 d.day)
        ++ ' ' :: (pad2 d.hour ++ ':' :: pad2 d.minute ++ ':' :: pad2 d.second) := by
  simp [strftimeYmdHms, List.append_assoc]

theorem clean_ws_strftime (d : DT6) :
    clean_ws (strftimeYmdHms d) = strftimeYmdHms d := by
  rw [strftime_split]
  refine clean_ws_one_space ?_ ?_ ?_ ?_
  · intro c hc
    have hc' : c ∈ pad4 d.year ∨ c = '-' ∨ c ∈ pad2 d.month ∨ c = '-'
        ∨ c ∈ pad2 d.day := by
      simpa [List.mem_append, List.mem_cons, or_assoc] using hc
    rcases hc' with h | h | h | h | h
    · exact digit_not_ws (pad4_digits _ c h)
    · subst h; decide
    · exact digit_not_ws (pad2_digits _ c h)
    · subst h; decide
    · exact digit_not_ws (pad2_digits _ c h)
  · intro c hc
    have hc' : c ∈ pad2 d.hour ∨ c = ':' ∨ c ∈ pad2 d.minute ∨ c = ':'
        ∨ c ∈ pad2 d.second := by
      simpa [List.mem_append, List.mem_cons, or_assoc] using hc
    rcases hc' with h | h | h | h | h
    · exact digit_not_ws (pad2_digits _ c h)
    · subst h; decide
    · exact digit_not_ws (pad2_digits _ c h)
    · subst h; decide
    · exact digit_not_ws (pad2_digits _ c h)
  · simp [pad4]
  · simp [pad2]

theorem strftime_head (d : DT6) :
    (strftimeYmdHms d).head? = some (digitChar (d.year / 1000 % 10)) := rfl

theorem strftime_ne_nil (d : DT6) : strftimeYmdHms d ≠ [] := by
  intro h
  have := congrArg List.head? h
  rw [strftime_head] at this
  cases this

/-- `strptime` inverts `strftime` on valid datetimes. -/
theorem strptime_strftime {w : DT6} (h : validDT6 w = true) :
    strptimeYmdHms (strftimeYmdHms w) = some w := by
  simp only [validDT6, Bool.and_eq_true, decide_eq_true_eq] at h
  obtain ⟨⟨⟨⟨⟨⟨⟨⟨h1, h2⟩, h3⟩, h4⟩, h5⟩, h6⟩, h7⟩, h8⟩, h9⟩ := h
  have hlist : strftimeYmdHms w
      = [digitChar (w.year / 1000 % 10), digitChar (w.year / 100 % 10),
         digitChar (w.year / 10 % 10), digitChar (w.year % 10), '-',
         digitChar (w.month / 10 % 10), digitChar (w.month % 10), '-',
         digitChar (w.day / 10 % 10), digitChar (w.day % 10), ' ',
         digitChar (w.hour / 10 % 10), digitChar (w.hour % 10), ':',
         digitChar (w.minute / 10 % 10), digitChar (w.minute % 10), ':',
         digitChar (w.second / 10 % 10), digitChar (w.second % 10)] := by
    simp [strftimeYmdHms, pad4, pad2]
  rw [hlist]
  simp only [strptimeYmdHms]
  rw [digitVal_digitChar (Nat.mod_lt _ (by omega)),
    digitVal_digitChar (Nat.mod_lt _ (by omega)),
    digitVal_digitChar (Nat.mod_lt _ (by omega)),
    digitVal_digitChar (Nat.mod_lt _ (by omega)),
    digitVal_digitChar (Nat.mod_lt _ (by omega)),
    digitVal_digitChar (Nat.mod_lt _ (by omega)),
    digitVal_digitChar (Nat.mod_lt _ (by omega)),
    digitVal_digitChar (Nat.mod_lt _ (by omega)),
    digitVal_digitChar (Nat.mod_lt _ (by omega)),
    digitVal_digitChar (Nat.mod_lt _ (by omega)),
    digitVal_digitChar (Nat.mod_lt _ (by omega)),
    digitVal_digitChar (Nat.mod_lt _ (by omega)),
    digitVal_digitChar (Nat.mod_lt _ (by omega)),
    digitVal_digitChar (Nat.mod_lt _ (by omega))]
  have d1 : w.year / 100 / 10 = w.year / 1000 := by
    rw [Nat.div_div_eq_div_mul]
  have d2 : w.year / 10 / 10 = w.year / 100 := by
    rw [Nat.div_div_eq_div_mul]
  have hy : ((w.year / 1000 % 10 * 10 + w.year / 100 % 10) * 10
      + w.year / 10 % 10) * 10 + w.year % 10 = w.year := by
    rw [← d1, ← d2]
    omega
  have hdm : daysInMonth w.year w.month ≤ 31 := by
    unfold daysInMonth
    split
    · split <;> omega
    · split <;> omega
  have hmo : w.month / 10 % 10 * 10 + w.month % 10 = w.month := by omega
  have hda : w.day / 10 % 10 * 10 + w.day % 10 = w.day := by omega
  have hho : w.hour / 10 % 10 * 10 + w.hour % 10 = w.hour := by omega
  have hmi : w.minute / 10 % 10 * 10 + w.minute % 10 = w.minute := by omega
  have hse : w.second / 10 % 10 * 10 + w.second % 10 = w.second := by omega
  simp only [hy, hmo, hda, hho, hmi, hse]
  rw [if_pos ⟨h1, h3, h4, h5, h6, h7, h8, h9⟩]

/-! ### Clean records -/

def hdr8 : Txt := (r"## Email").data

def dLbl : Txt := (r"**Date**:").data
def fLbl : Txt := (r"**From**:").data
def sLbl : Txt := (r"**Subject**:").data
def nlDashes : Txt := [nl, '-', '-', '-']
def nlHH : Txt := [nl, '#', '#', ' ']
def nlAtt : Txt := nl :: (r"### Attachments").data
def uu6 : Txt := List.replicate 6 '_'

def baseMarkers : List Txt := [dLbl, fLbl, sLbl, ctLabel, hdr8]

def bodyMarkers : List Txt := baseMarkers ++ [nlDashes, nlHH, nlAtt, uu6]

/-- The field value contains no parser marker. -/
def markerFree (v : Txt) : Bool := baseMarkers.all (fun m => !containsSub m v)

def bodyMarkerFree (v : Txt) : Bool := bodyMarkers.all (fun m => !containsSub m v)

/-- A header-field value that survives `_clean_ws` unchanged and carries
no marker. -/
def lineClean (v : Txt) : Bool :=
  !v.isEmpty && decide (clean_ws v = v) && markerFree v

/-- A body that survives `str.strip` unchanged and contains no marker
that the parser's content regex, chunk splitter or underscore truncation
reacts to. -/
def bodyClean (v : Txt) : Bool :=
  !v.isEmpty && decide (pyLStrip v = v) && decide (pyRStrip v = v)
    && bodyMarkerFree v

/-- A date value that is absent or a valid naive datetime. -/
def dateClean : PyVal → Bool
  | .none => true
  | .dt ⟨w, Option.none⟩ => validDT6 w
  | _ => false

/-- A record whose rendering parses back exactly: clean single-line
headers, a marker-free recipient list, a subject bearing no reply/forward
prefix, a stripped marker-free body, newline-free marker-free attachment
names, and an absent-or-valid naive date. -/
def cleanRec (e : MessageRecord) : Bool :=
  dateClean e.date && lineClean e.«from» && markerFree e.«to» && markerFree e.cc
    && lineClean e.subject && decide (strip_subject_prefixes e.subject = e.subject)
    && bodyClean e.body
    && e.attachments.all (fun a => markerFree a.1 && a.1.all (fun c => !(c = nl)))

theorem markerFree_spec {v : Txt} (h : markerFree v = true) :
    ∀ m ∈ baseMarkers, containsSub m v = false := by
  rw [markerFree, List.all_eq_true] at h
  intro m hm
  have := h m hm
  simpa using this

theorem bodyMarkerFree_spec {v : Txt} (h : bodyMarkerFree v = true) :
    ∀ m ∈ bodyMarkers, containsSub m v = false := by
  rw [bodyMarkerFree, List.all_eq_true] at h
  intro m hm
  have := h m hm
  simpa using this

theorem dateClean_cases {v : PyVal} (h : dateClean v = true) :
    v = .none ∨ ∃ w, v = .dt ⟨w, Option.none⟩ ∧ validDT6 w = true := by
  match v with
  | .none => exact Or.inl rfl
  | .str s => simp [dateClean] at h
  | .dt ⟨w, Option.none⟩ => exact Or.inr ⟨w, rfl, h⟩
  | .dt ⟨w, some o⟩ => simp [dateClean] at h

theorem lineClean_parts {v : Txt} (h : lineClean v = true) :
    v ≠ [] ∧ clean_ws v = v ∧ markerFree v = true := by
  simp only [lineClean, Bool.and_eq_true, decide_eq_true_eq] at h
  exact ⟨by simpa using h.1.1, h.1.2, h.2⟩

theorem bodyClean_parts {v : Txt} (h : bodyClean v = true) :
    v ≠ [] ∧ pyLStrip v = v ∧ pyRStrip v = v ∧ bodyMarkerFree v = true := by
  simp only [bodyClean, Bool.and_eq_true, decide_eq_true_eq] at h
  exact ⟨by simpa using h.1.1.1, h.1.1.2, h.1.2, h.2⟩

theorem cleanRec_parts {e : MessageRecord} (h : cleanRec e = true) :
    dateClean e.date = true ∧ lineClean e.«from» = true
      ∧ markerFree e.«to» = true ∧ markerFree e.cc = true
      ∧ lineClean e.subject = true
      ∧ strip_subject_prefixes e.subject = e.subject
      ∧ bodyClean e.body = true
      ∧ ∀ a ∈ e.attachments, markerFree a.1 = true ∧ ∀ c ∈ a.1, ¬ c = nl := by
  simp only [cleanRec, Bool.and_eq_true, decide_eq_true_eq,
    List.all_eq_true] at h
  refine ⟨h.1.1.1.1.1.1.1, h.1.1.1.1.1.1.2, h.1.1.1.1.1.2, h.1.1.1.1.2,
    h.1.1.1.2, h.1.1.2, h.1.2, ?_⟩
  intro a ha
  have := h.2 a ha
  refine ⟨this.1, fun c hc => ?_⟩
  have h2 := this.2 c hc
  simpa using h2

/-! ### Section segments -/

def seg1 (idx : Nat) : Txt := (r"## Email ").data ++ natDigits idx ++ [nl, nl]

def segD (e : MessageRecord) : Txt :=
  if pyValTruthy e.date then
    match e.date with
    | .dt d => (r"**Date**: ").data ++ strftimeYmdHms d.wall ++ [nl, nl]
    | .str s => (r"**Date**: ").data ++ s ++ [nl, nl]
    | .none => []
  else []

def segF (e : MessageRecord) : Txt := (r"**From**: ").data ++ e.«from» ++ [nl, nl]

def segT (e : MessageRecord) : Txt := (r"**To**: ").data ++ e.«to» ++ [nl, nl]

def segC (e : MessageRecord) : Txt :=
  if !e.cc.isEmpty then (r"**CC**: ").data ++ e.cc ++ [nl, nl] else []

def segS (e : MessageRecord) : Txt :=
  (r"**Subject**: ").data ++ e.subject ++ [nl, nl]

def segCt : Txt := (r"### Content").data ++ [nl, nl]

def segB (e : MessageRecord) : Txt := pyStrip e.body ++ [nl, nl]

def segA (e : MessageRecord) : Txt :=
  if !e.attachments.isEmpty then
    (r"### Attachments").data ++ [nl, nl]
    ++ e.attachments.flatMap
        (fun a => ('-' :: ' ' :: '[' :: a.1) ++ (']' :: '(' :: a.1) ++ [')', nl])
    ++ [nl]
  else []

def segE : Txt := (r"---").data ++ [nl, nl]

theorem noSpan_right_nil (p A : Txt) : NoSpan p A [] := by
  rintro k hk0 hkl ⟨_, h2⟩
  have := h2.length_le
  simp only [List.length_drop, List.length_nil] at this
  omega

theorem digit_ne_of {c x : Char} (h : (('0' ≤ c) && (c ≤ '9')) = true)
    (hx : (('0' ≤ x) && (x ≤ '9')) = false) : ¬ c = x := by
  intro he
  subst he
  rw [h] at hx
  cases hx

theorem containsSub_natDigits {p : Txt} {c0 : Char} {q : Txt} (hp : p = c0 :: q)
    (hc0 : (('0' ≤ c0) && (c0 ≤ '9')) = false) (idx : Nat) :
    containsSub p (natDigits idx) = false :=
  (clear_of_head_notin ⟨q, hp⟩
    (fun c hc => digit_ne_of (natDigits_digits idx c hc) hc0)).1

theorem containsSub_strftime {p : Txt} {c0 : Char} {q : Txt} (hp : p = c0 :: q)
    (hc0 : (decide (c0 = '-') || decide (c0 = ':') || decide (c0 = ' ')
      || (('0' ≤ c0) && (c0 ≤ '9'))) = false) (w : DT6) :
    containsSub p (strftimeYmdHms w) = false := by
  refine (clear_of_head_notin ⟨q, hp⟩ (fun c hc he => ?_)).1
  subst he
  rcases strftime_mem hc with h | h | h | h
  · rw [h] at hc0; simp at hc0
  · rw [h] at hc0; simp at hc0
  · rw [h] at hc0; simp at hc0
  · rw [h] at hc0; simp at hc0

/-- A field line `lit ++ value ++ "\n\n"` is free of the pattern when
both halves are and no span survives the concrete label or the final
newlines. -/
theorem containsSub_line {p lit V : Txt} (hlit : containsSub p lit = false)
    (hV : containsSub p V = false) (hnl2 : containsSub p [nl, nl] = false)
    (hsafe : spanSafeNl p = true) (hsuf : noTakeSuffixDeep p lit = true) :
    containsSub p (lit ++ (V ++ [nl, nl])) = false := by
  refine containsSub_append_false p lit (V ++ [nl, nl]) hlit ?_ ?_
  · exact containsSub_append_false p V [nl, nl] hV hnl2
      (noSpan_of_nl_right V hsafe ⟨[nl], rfl⟩)
  · exact @noSpan_of_concrete_left p lit [] (V ++ [nl, nl]) hsuf

theorem containsSub_seg1 {p : Txt} {c0 : Char} {q : Txt} (hp : p = c0 :: q)
    (hc0 : (('0' ≤ c0) && (c0 ≤ '9')) = false)
    (hlit : containsSub p ((r"## Email ").data) = false)
    (hnl2 : containsSub p [nl, nl] = false)
    (hsafe : spanSafeNl p = true) (hdigR : noSpanRDigit p = true) (idx : Nat) :
    containsSub p (seg1 idx) = false := by
  show containsSub p ((r"## Email ").data ++ (natDigits idx ++ [nl, nl])) = false
  refine containsSub_append_false p ((r"## Email ").data)
    (natDigits idx ++ [nl, nl]) hlit ?_ ?_
  · exact containsSub_append_false p _ _ (containsSub_natDigits hp hc0 idx) hnl2
      (noSpan_of_nl_right _ hsafe ⟨[nl], rfl⟩)
  · exact noSpan_of_digit_right _ _ hdigR (natDigits_digits idx)
      (natDigits_ne_nil idx)

theorem containsSub_segD {p : Txt} {c0 : Char} {q : Txt} (hp : p = c0 :: q)
    (hc0 : (decide (c0 = '-') || decide (c0 = ':') || decide (c0 = ' ')
      || (('0' ≤ c0) && (c0 ≤ '9'))) = false)
    (hlit : containsSub p ((r"**Date**: ").data) = false)
    (hnl2 : containsSub p [nl, nl] = false)
    (hsafe : spanSafeNl p = true)
    (hsuf : noTakeSuffixDeep p ((r"**Date**: ").data) = true)
    {e : MessageRecord} (hdc : dateClean e.date = true) :
    containsSub p (segD e) = false := by
  rcases dateClean_cases hdc with hd | ⟨w, hd, _⟩
  · rw [show segD e = [] from by simp [segD, hd, pyValTruthy]]
    exact containsSub_nil_false (by rw [hp]; simp)
  · rw [show segD e = (r"**Date**: ").data ++ strftimeYmdHms w ++ [nl, nl]
      from by simp [segD, hd, pyValTruthy]]
    exact containsSub_line hlit (containsSub_strftime hp hc0 w) hnl2 hsafe hsuf

theorem containsSub_segC {p : Txt} (hp : p ≠ [])
    (hlit : containsSub p ((r"**CC**: ").data) = false)
    (hnl2 : containsSub p [nl, nl] = false)
    (hsafe : spanSafeNl p = true)
    (hsuf : noTakeSuffixDeep p ((r"**CC**: ").data) = true)
    {e : MessageRecord} (hcc : containsSub p e.cc = false) :
    containsSub p (segC e) = false := by
  unfold segC
  by_cases hc : (!e.cc.isEmpty) = true
  · rw [if_pos hc]
    exact containsSub_line hlit hcc hnl2 hsafe hsuf
  · rw [if_neg hc]
    exact containsSub_nil_false hp

theorem containsSub_segB {p : Txt} {e : MessageRecord}
    (hb : containsSub p e.body = false) (hstrip : pyStrip e.body = e.body)
    (hnl2 : containsSub p [nl, nl] = false) (hsafe : spanSafeNl p = true) :
    containsSub p (segB e) = false := by
  unfold segB
  rw [hstrip]
  exact containsSub_append_false p _ _ hb hnl2
    (noSpan_of_nl_right _ hsafe ⟨[nl], rfl⟩)

theorem containsSub_attachLine {p a : Txt} (ha : containsSub p a = false)
    (h1 : containsSub p (['-', ' ', '[']) = false)
    (h2 : containsSub p ([']', '(']) = false)
    (h3 : containsSub p ([')', nl]) = false)
    (hs1 : noTakeSuffixDeep p (['-', ' ', '[']) = true)
    (hs2 : noTakeSuffixDeep p ([']', '(']) = true)
    (hr1 : noSpanRConcrete p ([')', nl]) = true)
    (hr2 : noSpanRConcrete p ([']', '(']) = true) :
    containsSub p (('-' :: ' ' :: '[' :: a) ++ ((']' :: '(' :: a) ++ [')', nl]))
      = false := by
  have c3 : containsSub p (a ++ [')', nl]) = false :=
    containsSub_append_false p a [')', nl] ha h3
      (@noSpan_of_concrete_right p ([')', nl]) a [] hr1)
  have c2 : containsSub p (([']', '(']) ++ (a ++ [')', nl])) = false :=
    containsSub_append_false p ([']', '(']) _ h2 c3
      (@noSpan_of_concrete_left p ([']', '(']) [] _ hs2)
  have c1 : containsSub p (a ++ (([']', '(']) ++ (a ++ [')', nl]))) = false :=
    containsSub_append_false p a _ ha c2
      (@noSpan_of_concrete_right p ([']', '(']) a _ hr2)
  have c0 : containsSub p ((['-', ' ', '['])
      ++ (a ++ (([']', '(']) ++ (a ++ [')', nl])))) = false :=
    containsSub_append_false p (['-', ' ', '[']) _ h1 c1
      (@noSpan_of_concrete_left p (['-', ' ', '[']) [] _ hs1)
  exact c0

theorem containsSub_attachList {p : Txt} (hp : p ≠ [])
    (h1 : containsSub p (['-', ' ', '[']) = false)
    (h2 : containsSub p ([']', '(']) = false)
    (h3 : containsSub p ([')', nl]) = false)
    (hs1 : noTakeSuffixDeep p (['-', ' ', '[']) = true)
    (hs2 : noTakeSuffixDeep p ([']', '(']) = true)
    (hr1 : noSpanRConcrete p ([')', nl]) = true)
    (hr2 : noSpanRConcrete p ([']', '(']) = true)
    (hr3 : noSpanRConcrete p (['-', ' ', '[']) = true) :
    ∀ (atts : List (Txt × List Byte × Txt)),
      (∀ a ∈ atts, containsSub p a.1 = false) →
      containsSub p (atts.flatMap
        (fun a => ('-' :: ' ' :: '[' :: a.1) ++ ((']' :: '(' :: a.1) ++ [')', nl])))
        = false := by
  intro atts
  induction atts with
  | nil =>
    intro _
    exact containsSub_nil_false hp
  | cons a rest ih =>
    intro hnames
    rw [List.flatMap_cons]
    refine containsSub_append_false p _ _
      (containsSub_attachLine (hnames a (by simp)) h1 h2 h3 hs1 hs2 hr1 hr2)
      (ih (fun b hb => hnames b (by simp [hb]))) ?_
    cases rest with
    | nil => exact noSpan_right_nil p _
    | cons b rest' =>
      rw [List.flatMap_cons]
      exact @noSpan_of_concrete_right p (['-', ' ', '[']) _ _ hr3

theorem containsSub_segA {p : Txt} (hp : p ≠ [])
    (hattlit : containsSub p ((r"### Attachments").data) = false)
    (hnl2 : containsSub p [nl, nl] = false)
    (hnl1 : containsSub p [nl] = false)
    (hsafe : spanSafeNl p = true)
    (hsufatt : noTakeSuffixDeep p ((r"### Attachments").data) = true)
    (h1 : containsSub p (['-', ' ', '[']) = false)
    (h2 : containsSub p ([']', '(']) = false)
    (h3 : containsSub p ([')', nl]) = false)
    (hs1 : noTakeSuffixDeep p (['-', ' ', '[']) = true)
    (hs2 : noTakeSuffixDeep p ([']', '(']) = true)
    (hr1 : noSpanRConcrete p ([')', nl]) = true)
    (hr2 : noSpanRConcrete p ([']', '(']) = true)
    (hr3 : noSpanRConcrete p (['-', ' ', '[']) = true)
    {e : MessageRecord} (hnames : ∀ a ∈ e.attachments, containsSub p a.1 = false) :
    containsSub p (segA e) = false := by
  unfold segA
  by_cases hatt : (!e.attachments.isEmpty) = true
  · rw [if_pos hatt]
    simp only [List.append_assoc]
    have hflat : containsSub p ((e.attachments.flatMap
        (fun a => ('-' :: ' ' :: '[' :: a.1) ++ ((']' :: '(' :: a.1) ++ [')', nl])))
        ++ [nl]) = false := by
      refine containsSub_append_false p _ _
        (containsSub_attachList hp h1 h2 h3 hs1 hs2 hr1 hr2 hr3 _ hnames)
        hnl1 (noSpan_of_nl_right _ hsafe ⟨[], rfl⟩)
    refine containsSub_append_false p ((r"### Attachments").data) _ hattlit ?_
      (@noSpan_of_concrete_left p ((r"### Attachments").data) [] _ hsufatt)
    refine containsSub_append_false p [nl, nl] _ hnl2 hflat ?_
    cases hae : e.attachments with
    | nil => rw [hae] at hatt; simp at hatt
    | cons a rest =>
      rw [List.flatMap_cons]
      exact @noSpan_of_concrete_right p (['-', ' ', '[']) _ _ hr3
  · rw [if_neg hatt]
    exact containsSub_nil_false hp

theorem noSpan_before_date {p : Txt} {e : MessageRecord} (A X : Txt)
    (hdc : dateClean e.date = true)
    (h1 : noSpanRConcrete p ((r"**Date**: ").data) = true)
    (h2 : noSpanRConcrete p ((r"**From**: ").data) = true) :
    NoSpan p A (segD e ++ ((r"**From**: ").data ++ X)) := by
  rcases dateClean_cases hdc with hd | ⟨w, hd, _⟩
  · rw [show segD e = [] from by simp [segD, hd, pyValTruthy], List.nil_append]
    exact @noSpan_of_concrete_right p ((r"**From**: ").data) A X h2
  · rw [show segD e = (r"**Date**: ").data ++ strftimeYmdHms w ++ [nl, nl]
      from by simp [segD, hd, pyValTruthy]]
    exact @noSpan_of_concrete_right p ((r"**Date**: ").data) A _ h1

theorem noSpan_before_cc {p : Txt} {e : MessageRecord} (A X : Txt)
    (h1 : noSpanRConcrete p ((r"**CC**: ").data) = true)
    (h2 : noSpanRConcrete p ((r"**Subject**: ").data) = true) :
    NoSpan p A (segC e ++ ((r"**Subject**: ").data ++ X)) := by
  unfold segC
  by_cases hc : (!e.cc.isEmpty) = true
  · rw [if_pos hc]
    exact @noSpan_of_concrete_right p ((r"**CC**: ").data) A _ h1
  · rw [if_neg hc]
    rw [List.nil_append]
    exact @noSpan_of_concrete_right p ((r"**Subject**: ").data) A X h2

theorem noSpan_before_attach {p : Txt} {e : MessageRecord} (A : Txt)
    (h1 : noSpanRConcrete p ((r"### Attachments").data) = true)
    (h2 : noSpanRConcrete p ((r"---").data) = true) :
    NoSpan p A (segA e ++ segE) := by
  unfold segA
  by_cases hatt : (!e.attachments.isEmpty) = true
  · rw [if_pos hatt]
    exact @noSpan_of_concrete_right p ((r"### Attachments").data) A _ h1
  · rw [if_neg hatt]
    rw [List.nil_append]
    exact @noSpan_of_concrete_right p ((r"---").data) A _ h2

theorem renderSection_seg (idx : Nat) (e : MessageRecord) :
    renderSection idx e
      = seg1 idx ++ (segD e ++ (segF e ++ (segT e ++ (segC e ++ (segS e
        ++ (segCt ++ (segB e ++ (segA e ++ segE)))))))) := by
  simp only [renderSection, seg1, segD, segF, segT, segC, segS, segCt, segB,
    segA, segE, List.append_assoc]

theorem lineClean_no_nl {v : Txt} (h : lineClean v = true) : ∀ c ∈ v, ¬ c = nl :=
  clean_ws_fixed_no_nl (lineClean_parts h).2.1

theorem lineClean_head {v : Txt} {c : Char} (h : lineClean v = true)
    (hc : v.head? = some c) : isPyWs c = false :=
  clean_ws_fixed_head (lineClean_parts h).2.1 hc

theorem strftime_head_ws {w : DT6} {c : Char}
    (hc : (strftimeYmdHms w).head? = some c) : isPyWs c = false := by
  rw [strftime_head] at hc
  injection hc with h1
  subst h1
  exact digit_not_ws (digitChar_digit (Nat.mod_lt _ (by omega)))

/-- The Date scan of a rendered section with a datetime date returns the
formatted date. -/
theorem scan_date_some (idx : Nat) {e : MessageRecord} (h : cleanRec e = true)
    {w : DT6} (hd : e.date = .dt ⟨w, Option.none⟩) :
    findFieldGroup dLbl (renderSection idx e) = some (strftimeYmdHms w) := by
  obtain ⟨hdc, hfr, hto, hcc, hsu, hsp, hbo, hat⟩ := cleanRec_parts h
  rw [renderSection_seg]
  rw [show segD e = (r"**Date**: ").data ++ strftimeYmdHms w ++ [nl, nl]
    from by simp [segD, hd, pyValTruthy]]
  simp only [List.append_assoc]
  rw [findFieldGroup_append dLbl (seg1 idx) _
    (containsSub_seg1 rfl (by decide) (by decide) (by decide) (by decide)
      (by decide) idx)
    (@noSpan_of_concrete_right dLbl ((r"**Date**: ").data) _ _ (by decide))]
  have hsh : (r"**Date**: ").data ++ (strftimeYmdHms w ++ ([nl, nl]
      ++ (segF e ++ (segT e ++ (segC e ++ (segS e ++ (segCt
        ++ (segB e ++ (segA e ++ segE)))))))))
      = dLbl ++ (' ' :: (strftimeYmdHms w ++ nl :: (nl :: (segF e ++ (segT e
        ++ (segC e ++ (segS e ++ (segCt ++ (segB e ++ (segA e ++ segE)))))))))) :=
    rfl
  rw [hsh]
  exact findFieldGroup_head (by decide)
    (fieldGroupAfter_eval (strftime_ne_nil w) (fun c hc => strftime_head_ws hc)
      (strftime_no_nl w))

/-- The Date scan of a rendered section with an absent date fails. -/
theorem scan_date_none (idx : Nat) {e : MessageRecord} (h : cleanRec e = true)
    (hd : e.date = .none) :
    findFieldGroup dLbl (renderSection idx e) = Option.none := by
  obtain ⟨hdc, hfr, hto, hcc, hsu, hsp, hbo, hat⟩ := cleanRec_parts h
  obtain ⟨hbne, hbl, hbr, hbmf⟩ := bodyClean_parts hbo
  have hbstrip : pyStrip e.body = e.body := pyStrip_eq_self hbl hbr
  apply findFieldGroup_none_of_clear
  rw [renderSection_seg]
  rw [show segD e = [] from by simp [segD, hd, pyValTruthy], List.nil_append]
  refine containsSub_append_false dLbl _ _
    (containsSub_seg1 rfl (by decide) (by decide) (by decide) (by decide)
      (by decide) idx) ?_
    (@noSpan_of_concrete_right dLbl ((r"**From**: ").data) _ _ (by decide))
  refine containsSub_append_false dLbl _ _
    (show containsSub dLbl (segF e) = false from
      @containsSub_line dLbl ((r"**From**: ").data) e.«from» (by decide)
        (markerFree_spec (lineClean_parts hfr).2.2 dLbl (by simp [baseMarkers]))
        (by decide) (by decide) (by decide)) ?_
    (@noSpan_of_concrete_right dLbl ((r"**To**: ").data) _ _ (by decide))
  refine containsSub_append_false dLbl _ _
    (show containsSub dLbl (segT e) = false from
      @containsSub_line dLbl ((r"**To**: ").data) e.«to» (by decide)
        (markerFree_spec hto dLbl (by simp [baseMarkers]))
        (by decide) (by decide) (by decide)) ?_
    (noSpan_before_cc _ _ (by decide) (by decide))
  refine containsSub_append_false dLbl _ _
    (containsSub_segC (by decide) (by decide) (by decide) (by decide) (by decide)
      (markerFree_spec hcc dLbl (by simp [baseMarkers]))) ?_
    (@noSpan_of_concrete_right dLbl ((r"**Subject**: ").data) _ _ (by decide))
  refine containsSub_append_false dLbl _ _
    (show containsSub dLbl (segS e) = false from
      @containsSub_line dLbl ((r"**Subject**: ").data) e.subject (by decide)
        (markerFree_spec (lineClean_parts hsu).2.2 dLbl (by simp [baseMarkers]))
        (by decide) (by decide) (by decide)) ?_
    (@noSpan_of_concrete_right dLbl ((r"### Content").data) _ _ (by decide))
  refine containsSub_append_false dLbl _ _
    (show containsSub dLbl segCt = false from by decide) ?_
    (@noSpan_of_concrete_left dLbl [nl, nl] ((r"### Content").data) _ (by decide))
  refine containsSub_append_false dLbl _ _
    (containsSub_segB
      (bodyMarkerFree_spec hbmf dLbl (by simp [bodyMarkers, baseMarkers]))
      hbstrip (by decide) (by decide)) ?_
    (noSpan_before_attach _ (by decide) (by decide))
  refine containsSub_append_false dLbl _ _
    (containsSub_segA (by decide) (by decide) (by decide) (by decide) (by decide)
      (by decide) (by decide) (by decide) (by decide) (by decide) (by decide)
      (by decide) (by decide) (by decide)
      (fun a ha => markerFree_spec (hat a ha).1 dLbl (by simp [baseMarkers])))
    (show containsSub dLbl segE = false from by decide)
    (@noSpan_of_concrete_right dLbl ((r"---").data) _ _ (by decide))

/-- The From scan of a rendered section returns the From value. -/
theorem scan_from (idx : Nat) {e : MessageRecord} (h : cleanRec e = true) :
    findFieldGroup fLbl (renderSection idx e) = some e.«from» := by
  obtain ⟨hdc, hfr, hto, hcc, hsu, hsp, hbo, hat⟩ := cleanRec_parts h
  rw [renderSection_seg]
  have htail : findFieldGroup fLbl (segF e ++ (segT e ++ (segC e ++ (segS e
      ++ (segCt ++ (segB e ++ (segA e ++ segE))))))) = some e.«from» := by
    have hsh : segF e ++ (segT e ++ (segC e ++ (segS e
        ++ (segCt ++ (segB e ++ (segA e ++ segE))))))
        = fLbl ++ (' ' :: (e.«from» ++ nl :: (nl :: (segT e ++ (segC e
          ++ (segS e ++ (segCt ++ (segB e ++ (segA e ++ segE))))))))) := by
      show ((r"**From**: ").data ++ e.«from» ++ [nl, nl]) ++ _ = _
      simp only [List.append_assoc]
      rfl
    rw [hsh]
    exact findFieldGroup_head (by decide)
      (fieldGroupAfter_eval (lineClean_parts hfr).1
        (fun c hc => lineClean_head hfr hc) (lineClean_no_nl hfr))
  rcases dateClean_cases hdc with hd | ⟨w, hd, _⟩
  · rw [show segD e = [] from by simp [segD, hd, pyValTruthy], List.nil_append]
    rw [findFieldGroup_append fLbl (seg1 idx) (segF e ++ (segT e ++ (segC e ++ (segS e ++ (segCt ++ (segB e ++ (segA e ++ segE)))))))
      (containsSub_seg1 rfl (by decide) (by decide) (by decide) (by decide)
        (by decide) idx)
      (@noSpan_of_concrete_right fLbl ((r"**From**: ").data) _ _ (by decide))]
    exact htail
  · rw [show segD e = (r"**Date**: ").data ++ strftimeYmdHms w ++ [nl, nl]
      from by simp [segD, hd, pyValTruthy]]
    simp only [List.append_assoc]
    rw [findFieldGroup_append fLbl (seg1 idx) _
      (containsSub_seg1 rfl (by decide) (by decide) (by decide) (by decide)
        (by decide) idx)
      (@noSpan_of_concrete_right fLbl ((r"**Date**: ").data) _ _ (by decide))]
    have hgrp : (r"**Date**: ").data ++ (strftimeYmdHms w ++ ([nl, nl]
        ++ (segF e ++ (segT e ++ (segC e ++ (segS e ++ (segCt
          ++ (segB e ++ (segA e ++ segE)))))))))
        = ((r"**Date**: ").data ++ (strftimeYmdHms w ++ [nl, nl]))
          ++ (segF e ++ (segT e ++ (segC e ++ (segS e ++ (segCt
            ++ (segB e ++ (segA e ++ segE))))))) := by
      simp only [List.append_assoc]
    rw [hgrp]
    rw [findFieldGroup_append fLbl ((r"**Date**: ").data
        ++ (strftimeYmdHms w ++ [nl, nl])) (segF e ++ (segT e ++ (segC e ++ (segS e ++ (segCt ++ (segB e ++ (segA e ++ segE)))))))
      (@containsSub_line fLbl ((r"**Date**: ").data) (strftimeYmdHms w)
        (by decide) (containsSub_strftime rfl (by decide) w) (by decide)
        (by decide) (by decide))
      (@noSpan_of_concrete_right fLbl ((r"**From**: ").data) _ _ (by decide))]
    exact htail

/-- The Subject scan of a rendered section returns the Subject value. -/
theorem scan_subject (idx : Nat) {e : MessageRecord} (h : cleanRec e = true) :
    findFieldGroup sLbl (renderSection idx e) = some e.subject := by
  obtain ⟨hdc, hfr, hto, hcc, hsu, hsp, hbo, hat⟩ := cleanRec_parts h
  rw [renderSection_seg]
  have htail : findFieldGroup sLbl (segS e
      ++ (segCt ++ (segB e ++ (segA e ++ segE)))) = some e.subject := by
    have hsh : segS e ++ (segCt ++ (segB e ++ (segA e ++ segE)))
        = sLbl ++ (' ' :: (e.subject ++ nl :: (nl :: (segCt
          ++ (segB e ++ (segA e ++ segE)))))) := by
      show ((r"**Subject**: ").data ++ e.subject ++ [nl, nl]) ++ _ = _
      simp only [List.append_assoc]
      rfl
    rw [hsh]
    exact findFieldGroup_head (by decide)
      (fieldGroupAfter_eval (lineClean_parts hsu).1
        (fun c hc => lineClean_head hsu hc) (lineClean_no_nl hsu))
  have hmid : findFieldGroup sLbl (segF e ++ (segT e ++ (segC e ++ (segS e
      ++ (segCt ++ (segB e ++ (segA e ++ segE))))))) = some e.subject := by
    rw [findFieldGroup_append sLbl (segF e) (segT e ++ (segC e ++ (segS e ++ (segCt ++ (segB e ++ (segA e ++ segE))))))
      (show containsSub sLbl (segF e) = false from
        @containsSub_line sLbl ((r"**From**: ").data) e.«from» (by decide)
          (markerFree_spec (lineClean_parts hfr).2.2 sLbl (by simp [baseMarkers]))
          (by decide) (by decide) (by decide))
      (@noSpan_of_concrete_right sLbl ((r"**To**: ").data) _ _ (by decide))]
    rw [findFieldGroup_append sLbl (segT e) (segC e ++ (segS e ++ (segCt ++ (segB e ++ (segA e ++ segE)))))
      (show containsSub sLbl (segT e) = false from
        @containsSub_line sLbl ((r"**To**: ").data) e.«to» (by decide)
          (markerFree_spec hto sLbl (by simp [baseMarkers]))
          (by decide) (by decide) (by decide))
      (noSpan_before_cc _ _ (by decide) (by decide))]
    rw [findFieldGroup_append sLbl (segC e) (segS e ++ (segCt ++ (segB e ++ (segA e ++ segE))))
      (containsSub_segC (by decide) (by decide) (by decide) (by decide)
        (by decide) (markerFree_spec hcc sLbl (by simp [baseMarkers])))
      (@noSpan_of_concrete_right sLbl ((r"**Subject**: ").data) _ _ (by decide))]
    exact htail
  rcases dateClean_cases hdc with hd | ⟨w, hd, _⟩
  · rw [show segD e = [] from by simp [segD, hd, pyValTruthy], List.nil_append]
    rw [findFieldGroup_append sLbl (seg1 idx) (segF e ++ (segT e ++ (segC e ++ (segS e ++ (segCt ++ (segB e ++ (segA e ++ segE)))))))
      (containsSub_seg1 rfl (by decide) (by decide) (by decide) (by decide)
        (by decide) idx)
      (@noSpan_of_concrete_right sLbl ((r"**From**: ").data) _ _ (by decide))]
    exact hmid
  · rw [show segD e = (r"**Date**: ").data ++ strftimeYmdHms w ++ [nl, nl]
      from by simp [segD, hd, pyValTruthy]]
    simp only [List.append_assoc]
    rw [findFieldGroup_append sLbl (seg1 idx) _
      (containsSub_seg1 rfl (by decide) (by decide) (by decide) (by decide)
        (by decide) idx)
      (@noSpan_of_concrete_right sLbl ((r"**Date**: ").data) _ _ (by decide))]
    have hgrp : (r"**Date**: ").data ++ (strftimeYmdHms w ++ ([nl, nl]
        ++ (segF e ++ (segT e ++ (segC e ++ (segS e ++ (segCt
          ++ (segB e ++ (segA e ++ segE)))))))))
        = ((r"**Date**: ").data ++ (strftimeYmdHms w ++ [nl, nl]))
          ++ (segF e ++ (segT e ++ (segC e ++ (segS e ++ (segCt
            ++ (segB e ++ (segA e ++ segE))))))) := by
      simp only [List.append_assoc]
    rw [hgrp]
    rw [findFieldGroup_append sLbl ((r"**Date**: ").data
        ++ (strftimeYmdHms w ++ [nl, nl])) (segF e ++ (segT e ++ (segC e ++ (segS e ++ (segCt ++ (segB e ++ (segA e ++ segE)))))))
      (@containsSub_line sLbl ((r"**Date**: ").data) (strftimeYmdHms w)
        (by decide) (containsSub_strftime rfl (by decide) w) (by decide)
        (by decide) (by decide))
      (@noSpan_of_concrete_right sLbl ((r"**From**: ").data) _ _ (by decide))]
    exact hmid

/-- The Content scan of a rendered section returns the stripped body
followed by one newline. -/
theorem scan_content (idx : Nat) {e : MessageRecord} (h : cleanRec e = true) :
    findContentGroup (renderSection idx e) = some (e.body ++ [nl]) := by
  obtain ⟨hdc, hfr, hto, hcc, hsu, hsp, hbo, hat⟩ := cleanRec_parts h
  obtain ⟨hbne, hbl, hbr, hbmf⟩ := bodyClean_parts hbo
  have hbstrip : pyStrip e.body = e.body := pyStrip_eq_self hbl hbr
  have hsb : segB e = e.body ++ [nl, nl] := by
    unfold segB
    rw [hbstrip]
  rw [renderSection_seg]
  have hR : (r"---").data <+: (segA e ++ segE)
      ∨ (r"### Attachments").data <+: (segA e ++ segE) := by
    unfold segA
    by_cases hatt : (!e.attachments.isEmpty) = true
    · right
      rw [if_pos hatt]
      simp only [List.append_assoc]
      exact List.prefix_append _ _
    · left
      rw [if_neg hatt, List.nil_append]
      show (r"---").data <+: (r"---").data ++ [nl, nl]
      exact List.prefix_append _ _
  have htail : findContentGroup (segCt ++ (segB e ++ (segA e ++ segE)))
      = some (e.body ++ [nl]) := by
    rw [hsb]
    have hsh : segCt ++ ((e.body ++ [nl, nl]) ++ (segA e ++ segE))
        = ctLabel ++ (nl :: nl :: (e.body ++ nl :: nl :: (segA e ++ segE))) := by
      show ((r"### Content").data ++ [nl, nl]) ++ _ = _
      simp only [List.append_assoc]
      rfl
    rw [hsh]
    exact findContentGroup_head (contentGroupAfter_eval hbne
      (fun c hc => pyLStrip_fix_head hbl hc)
      (bodyMarkerFree_spec hbmf nlDashes (by simp [bodyMarkers, baseMarkers]))
      (bodyMarkerFree_spec hbmf nlHH (by simp [bodyMarkers, baseMarkers]))
      (bodyMarkerFree_spec hbmf nlAtt (by simp [bodyMarkers, baseMarkers]))
      hR)
  have hmid : findContentGroup (segF e ++ (segT e ++ (segC e ++ (segS e
      ++ (segCt ++ (segB e ++ (segA e ++ segE))))))) = some (e.body ++ [nl]) := by
    rw [findContentGroup_append (segF e) (segT e ++ (segC e ++ (segS e ++ (segCt ++ (segB e ++ (segA e ++ segE))))))
      (show containsSub ctLabel (segF e) = false from
        @containsSub_line ctLabel ((r"**From**: ").data) e.«from» (by decide)
          (markerFree_spec (lineClean_parts hfr).2.2 ctLabel
            (by simp [baseMarkers]))
          (by decide) (by decide) (by decide))
      (@noSpan_of_concrete_right ctLabel ((r"**To**: ").data) _ _ (by decide))]
    rw [findContentGroup_append (segT e) (segC e ++ (segS e ++ (segCt ++ (segB e ++ (segA e ++ segE)))))
      (show containsSub ctLabel (segT e) = false from
        @containsSub_line ctLabel ((r"**To**: ").data) e.«to» (by decide)
          (markerFree_spec hto ctLabel (by simp [baseMarkers]))
          (by decide) (by decide) (by decide))
      (noSpan_before_cc _ _ (by decide) (by decide))]
    rw [findContentGroup_append (segC e) (segS e ++ (segCt ++ (segB e ++ (segA e ++ segE))))
      (containsSub_segC (by decide) (by decide) (by decide) (by decide)
        (by decide) (markerFree_spec hcc ctLabel (by simp [baseMarkers])))
      (@noSpan_of_concrete_right ctLabel ((r"**Subject**: ").data) _ _
        (by decide))]
    rw [findContentGroup_append (segS e) (segCt ++ (segB e ++ (segA e ++ segE)))
      (show containsSub ctLabel (segS e) = false from
        @containsSub_line ctLabel ((r"**Subject**: ").data) e.subject (by decide)
          (markerFree_spec (lineClean_parts hsu).2.2 ctLabel
            (by simp [baseMarkers]))
          (by decide) (by decide) (by decide))
      (@noSpan_of_concrete_right ctLabel ((r"### Content").data) _ _ (by decide))]
    exact htail
  rcases dateClean_cases hdc with hd | ⟨w, hd, _⟩
  · rw [show segD e = [] from by simp [segD, hd, pyValTruthy], List.nil_append]
    rw [findContentGroup_append (seg1 idx) (segF e ++ (segT e ++ (segC e ++ (segS e ++ (segCt ++ (segB e ++ (segA e ++ segE)))))))
      (containsSub_seg1 rfl (by decide) (by decide) (by decide) (by decide)
        (by decide) idx)
      (@noSpan_of_concrete_right ctLabel ((r"**From**: ").data) _ _ (by decide))]
    exact hmid
  · rw [show segD e = (r"**Date**: ").data ++ strftimeYmdHms w ++ [nl, nl]
      from by simp [segD, hd, pyValTruthy]]
    simp only [List.append_assoc]
    rw [findContentGroup_append (seg1 idx) _
      (containsSub_seg1 rfl (by decide) (by decide) (by decide) (by decide)
        (by decide) idx)
      (@noSpan_of_concrete_right ctLabel ((r"**Date**: ").data) _ _ (by decide))]
    have hgrp : (r"**Date**: ").data ++ (strftimeYmdHms w ++ ([nl, nl]
        ++ (segF e ++ (segT e ++ (segC e ++ (segS e ++ (segCt
          ++ (segB e ++ (segA e ++ segE)))))))))
        = ((r"**Date**: ").data ++ (strftimeYmdHms w ++ [nl, nl]))
          ++ (segF e ++ (segT e ++ (segC e ++ (segS e ++ (segCt
            ++ (segB e ++ (segA e ++ segE))))))) := by
      simp only [List.append_assoc]
    rw [hgrp]
    rw [findContentGroup_append ((r"**Date**: ").data
        ++ (strftimeYmdHms w ++ [nl, nl])) (segF e ++ (segT e ++ (segC e ++ (segS e ++ (segCt ++ (segB e ++ (segA e ++ segE)))))))
      (@containsSub_line ctLabel ((r"**Date**: ").data) (strftimeYmdHms w)
        (by decide) (containsSub_strftime rfl (by decide) w) (by decide)
        (by decide) (by decide))
      (@noSpan_of_concrete_right ctLabel ((r"**From**: ").data) _ _ (by decide))]
    exact hmid

/-- Without six consecutive underscores there is no truncation. -/
theorem truncate_id_of_no_uu {B : Txt} (h : containsSub uu6 B = false) :
    truncateQuotedHistory B = B := by
  have h1 : findULine true B = Option.none := by
    cases hf : findULine true B with
    | none => rfl
    | some i =>
      exact absurd (findULine_some B true i hf).1.2
        (no_occurrence_of_not_contains h i)
  have h2 : findSub? underscoreToken B = Option.none := by
    cases hf : findSub? underscoreToken B with
    | none => rfl
    | some i =>
      exact absurd ((show uu6 <+: underscoreToken from by decide).trans
        (findSub?_some underscoreToken B i hf).1)
        (no_occurrence_of_not_contains h i)
  show (match (match findULine true B with
      | some i => some i
      | Option.none => findSub? underscoreToken B) with
    | some p => pyRStrip (B.take p)
    | Option.none => B) = B
  rw [h1]
  show (match findSub? underscoreToken B with
    | some p => pyRStrip (B.take p)
    | Option.none => B) = B
  rw [h2]

def dateInOf (e : MessageRecord) : Txt :=
  match e.date with
  | .dt d => strftimeYmdHms d.wall
  | _ => []

def dateObjOf (e : MessageRecord) : Option DT6 :=
  match e.date with
  | .dt d => some d.wall
  | _ => Option.none

/-- Parsing one rendered section recovers the record's fields. -/
theorem parseChunk_renderSection (idx : Nat) {e : MessageRecord}
    (h : cleanRec e = true) :
    parseChunk (renderSection idx e) = some
      { email_number := findEmailNumber true (renderSection idx e)
        date_in := dateInOf e
        date := dateObjOf e
        «from» := e.«from»
        subject := e.subject
        content := e.body } := by
  obtain ⟨hdc, hfr, hto, hcc, hsu, hsp, hbo, hat⟩ := cleanRec_parts h
  obtain ⟨hbne, hbl, hbr, hbmf⟩ := bodyClean_parts hbo
  have hbstrip : pyStrip e.body = e.body := pyStrip_eq_self hbl hbr
  have hc1 : pyStrip (e.body ++ [nl]) = e.body := pyStrip_append_nl hbl hbr hbne
  have htrunc : truncateQuotedHistory e.body = e.body :=
    truncate_id_of_no_uu
      (bodyMarkerFree_spec hbmf uu6 (by simp [bodyMarkers, baseMarkers]))
  have hfromfix : clean_ws e.«from» = e.«from» := (lineClean_parts hfr).2.1
  have hsubjfix : clean_ws e.subject = e.subject := (lineClean_parts hsu).2.1
  simp only [parseChunk]
  rw [show (['*', '*', 'D', 'a', 't', 'e', '*', '*', ':'] : Txt) = dLbl from rfl,
    show (['*', '*', 'F', 'r', 'o', 'm', '*', '*', ':'] : Txt) = fLbl from rfl,
    show (['*', '*', 'S', 'u', 'b', 'j', 'e', 'c', 't', '*', '*', ':'] : Txt)
      = sLbl from rfl]
  rw [scan_from idx h, scan_subject idx h, scan_content idx h]
  rcases dateClean_cases hdc with hd | ⟨w, hd, hval⟩
  · rw [scan_date_none idx h hd]
    rw [if_neg (by
      rintro ⟨_, h2, _, _⟩
      simp at h2)]
    simp only [Option.getD_some]
    rw [show Option.getD (Option.none : Option Txt) [] = [] from rfl]
    rw [show clean_ws [] = [] from rfl]
    rw [if_neg (by simp)]
    rw [hfromfix, hsubjfix, hsp, hc1, hbstrip, htrunc]
    rw [show dateInOf e = [] from by simp [dateInOf, hd],
      show dateObjOf e = Option.none from by simp [dateObjOf, hd]]
  · rw [scan_date_some idx h hd]
    rw [if_neg (by
      rintro ⟨h1, _, _, _⟩
      simp at h1)]
    simp only [Option.getD_some]
    rw [clean_ws_strftime w]
    have hsfne : (strftimeYmdHms w).isEmpty = false := by
      cases hsf : strftimeYmdHms w with
      | nil => exact absurd hsf (strftime_ne_nil w)
      | cons a t => rfl
    rw [if_pos (by simp [hsfne])]
    rw [strptime_strftime hval]
    rw [hfromfix, hsubjfix, hsp, hc1, hbstrip, htrunc]
    rw [show dateInOf e = strftimeYmdHms w from by simp [dateInOf, hd],
      show dateObjOf e = some w from by simp [dateObjOf, hd]]

/-! ### Chunk splitting -/

theorem headerAt_hdr8_front {t : Txt} (h : emailHeaderAt t = true) : hdr8 <+: t := by
  unfold emailHeaderAt emailHeaderNum at h
  by_cases hp : (r"## Email").data.isPrefixOf t = true
  · exact List.isPrefixOf_iff_prefix.mp hp
  · rw [if_neg hp] at h
    simp at h

theorem headerAt_false_of_not_prefix {t : Txt} (h : ¬ hdr8 <+: t) :
    emailHeaderAt t = false := by
  rcases hh : emailHeaderAt t with _ | _
  · rfl
  · exact absurd (headerAt_hdr8_front hh) h

theorem headerAt_nl_cons (t : Txt) : emailHeaderAt (nl :: t) = false := by
  refine headerAt_false_of_not_prefix ?_
  intro hc
  rw [show hdr8 = '#' :: (r"# Email").data from rfl, List.cons_prefix_cons] at hc
  exact absurd hc.1 (by decide)

/-- No position inside `X`, followed by the remaining text `R`, triggers a
chunk cut of `splitChunksGo`. -/
def NoCutIn (X R : Txt) : Prop :=
  ∀ u v, X = u ++ nl :: v → emailHeaderAt (v ++ R) = false

theorem noCutIn_nil (R : Txt) : NoCutIn [] R := by
  intro u v he
  have := congrArg List.length he
  simp only [List.length_nil, List.length_append, List.length_cons] at this
  omega

theorem noCutIn_of_no_nl {X : Txt} (R : Txt) (h : ∀ c ∈ X, ¬ c = nl) :
    NoCutIn X R := by
  intro u v he
  exact absurd rfl (h nl (by rw [he]; simp))

theorem noCutIn_append {X Y R : Txt} (hX : NoCutIn X (Y ++ R))
    (hY : NoCutIn Y R) : NoCutIn (X ++ Y) R := by
  intro u v he
  rw [List.append_eq_append_iff] at he
  rcases he with ⟨a', ha1, ha2⟩ | ⟨c', hc1, hc2⟩
  · exact hY a' v ha2
  · cases c' with
    | nil =>
      rw [List.nil_append] at hc2
      exact hY [] v (by rw [← hc2]; rfl)
    | cons d c'' =>
      have hd : d = nl := by
        have := congrArg (fun l => l.head?) hc2
        simpa using this.symm
      subst hd
      have hv : v = c'' ++ Y := by
        have := congrArg List.tail hc2
        simpa using this
      subst hv
      rw [List.append_assoc]
      exact hX u c'' hc1

theorem noCutIn_single_nl {R : Txt} (h : emailHeaderAt R = false) :
    NoCutIn [nl] R := by
  intro u v he
  cases u with
  | nil =>
    rw [List.nil_append] at he
    injection he with _ h2
    rw [← h2, List.nil_append]
    exact h
  | cons c u' =>
    have := congrArg List.length he
    simp only [List.length_cons, List.length_append, List.length_nil] at this
    omega

theorem noCutIn_of_marker_free {X R : Txt} (hX : containsSub hdr8 X = false)
    (hR : ∃ r, R = nl :: r) : NoCutIn X R := by
  intro u v he
  refine headerAt_false_of_not_prefix ?_
  have hv : v = X.drop (u.length + 1) := by
    rw [he, show u.length + 1 = u.length + 1 from rfl]
    rw [show (u ++ nl :: v) = u ++ ([nl] ++ v) from rfl, ← List.append_assoc]
    rw [show u.length + 1 = (u ++ [nl]).length from by simp]
    rw [List.drop_left]
  rw [hv]
  refine no_prefix_drop_append hX
    (tail_not_prefix_of_nl (by decide) hR) ?_ (u.length + 1)
  obtain ⟨r, rfl⟩ := hR
  intro hc
  rw [show hdr8 = '#' :: (r"# Email").data from rfl, List.cons_prefix_cons] at hc
  exact absurd hc.1 (by decide)

theorem splitChunksGo_skip :
    ∀ (X R cur : Txt), NoCutIn X R →
      splitChunksGo cur (X ++ R) = splitChunksGo (cur ++ X) R := by
  intro X
  induction X with
  | nil =>
    intro R cur _
    rw [List.nil_append, List.append_nil]
  | cons c X' ih =>
    intro R cur h
    rw [List.cons_append]
    show splitChunksGo cur (c :: (X' ++ R)) = _
    simp only [splitChunksGo]
    rw [if_neg ?hcond]
    case hcond =>
      rintro ⟨hc, hhdr⟩
      rw [h [] X' (by rw [hc]; rfl)] at hhdr
      cases hhdr
    rw [ih R (cur ++ [c]) (fun u v he => h (c :: u) v (by rw [he]; rfl))]
    rw [List.append_assoc]
    rfl

theorem splitChunksGo_cut (cur R : Txt) (h : emailHeaderAt R = true) :
    splitChunksGo cur (nl :: R) = (cur ++ [nl]) :: splitChunksGo [] R := by
  rw [show splitChunksGo cur (nl :: R)
    = if nl = nl ∧ emailHeaderAt R then (cur ++ [nl]) :: splitChunksGo [] R
      else splitChunksGo (cur ++ [nl]) R from rfl]
  rw [if_pos ⟨rfl, h⟩]

theorem splitChunksGo_nil (cur : Txt) : splitChunksGo cur [] = [cur] := rfl

theorem noCutIn_nlnl {R : Txt} (h : emailHeaderAt R = false) :
    NoCutIn [nl, nl] R :=
  @noCutIn_append [nl] [nl] R
    (noCutIn_single_nl (headerAt_nl_cons R))
    (noCutIn_single_nl h)

theorem headerAt_cons_ne {c : Char} (t : Txt) (hc : ¬ c = '#') :
    emailHeaderAt (c :: t) = false := by
  refine headerAt_false_of_not_prefix ?_
  intro h
  rw [show hdr8 = '#' :: (r"# Email").data from rfl, List.cons_prefix_cons] at h
  exact hc h.1.symm

theorem headerAt_concrete_false {C : Txt} (s : Txt)
    (h : notPrefixWithin hdr8 C = true) : emailHeaderAt (C ++ s) = false :=
  headerAt_false_of_not_prefix (not_prefix_of_notPrefixWithin h s)

theorem headerAt_append_false {B X : Txt} (hB : containsSub hdr8 B = false)
    (hX : ∃ x, X = nl :: x) : emailHeaderAt (B ++ X) = false := by
  refine headerAt_false_of_not_prefix ?_
  have h := no_prefix_drop_append hB (tail_not_prefix_of_nl (by decide) hX)
    (by
      obtain ⟨x, rfl⟩ := hX
      intro hc
      rw [show hdr8 = '#' :: (r"# Email").data from rfl,
        List.cons_prefix_cons] at hc
      exact absurd hc.1 (by decide)) 0
  simpa using h

/-- A field line does not trigger a chunk cut when the following text
does not begin a section header. -/
theorem noCutIn_fieldLine {lit V R : Txt} (hlitnl : ∀ c ∈ lit, ¬ c = nl)
    (hV : containsSub hdr8 V = false) (hR : emailHeaderAt R = false) :
    NoCutIn (lit ++ (V ++ [nl, nl])) R :=
  @noCutIn_append lit (V ++ [nl, nl]) R
    (noCutIn_of_no_nl _ hlitnl)
    (@noCutIn_append V [nl, nl] R
      (noCutIn_of_marker_free hV ⟨[nl] ++ R, rfl⟩)
      (noCutIn_nlnl hR))

def segEcore : Txt := (r"---").data ++ [nl]

/-- The section minus its final newline: the chunk splitter cuts right
before that newline when another section follows. -/
def sectionCore (idx : Nat) (e : MessageRecord) : Txt :=
  seg1 idx ++ (segD e ++ (segF e ++ (segT e ++ (segC e ++ (segS e
    ++ (segCt ++ (segB e ++ (segA e ++ segEcore))))))))

theorem renderSection_core (idx : Nat) (e : MessageRecord) :
    renderSection idx e = sectionCore idx e ++ [nl] := by
  rw [renderSection_seg]
  unfold sectionCore segEcore segE
  simp [List.append_assoc]

theorem noCutIn_attachList :
    ∀ (atts : List (Txt × List Byte × Txt)),
      (∀ a ∈ atts, ∀ c ∈ a.1, ¬ c = nl) →
      ∀ (R : Txt), (∃ x, R = nl :: x) →
      NoCutIn (atts.flatMap
        (fun a => ('-' :: ' ' :: '[' :: a.1) ++ ((']' :: '(' :: a.1) ++ [')', nl])))
        R := by
  intro atts
  induction atts with
  | nil =>
    intro _ R _
    exact noCutIn_nil R
  | cons a rest ih =>
    intro hnl R hR
    rw [List.flatMap_cons]
    refine @noCutIn_append _ _ R ?_ (ih (fun b hb => hnl b (by simp [hb])) R hR)
    have hline : ('-' :: ' ' :: '[' :: a.1) ++ ((']' :: '(' :: a.1) ++ [')', nl])
        = (('-' :: ' ' :: '[' :: a.1) ++ ((']' :: '(' :: a.1) ++ [')'])) ++ [nl] := by
      simp [List.append_assoc]
    rw [hline]
    refine @noCutIn_append _ [nl] _ (noCutIn_of_no_nl _ ?_) (noCutIn_single_nl ?_)
    · intro c hc
      have hc' : c = '-' ∨ c = ' ' ∨ c = '[' ∨ c ∈ a.1 ∨ c = ']' ∨ c = '('
          ∨ c ∈ a.1 ∨ c = ')' := by
        simpa [List.mem_append, List.mem_cons, or_assoc] using hc
      rcases hc' with rfl | rfl | rfl | h | rfl | rfl | h | rfl
      · decide
      · decide
      · decide
      · exact hnl a (by simp) c h
      · decide
      · decide
      · exact hnl a (by simp) c h
      · decide
    · cases rest with
      | nil =>
        obtain ⟨x, rfl⟩ := hR
        rw [List.flatMap_nil, List.nil_append]
        exact headerAt_nl_cons x
      | cons b rest' =>
        rw [List.flatMap_cons]
        exact @headerAt_cons_ne '-' _ (by decide)

/-- No interior position of a section (minus its final newline) triggers
a chunk cut, whatever newline-led text follows. -/
theorem noCutIn_sectionCore (idx : Nat) {e : MessageRecord}
    (h : cleanRec e = true) (r : Txt) :
    NoCutIn (sectionCore idx e) (nl :: r) := by
  obtain ⟨hdc, hfr, hto, hcc, hsu, hsp, hbo, hat⟩ := cleanRec_parts h
  obtain ⟨hbne, hbl, hbr, hbmf⟩ := bodyClean_parts hbo
  have hbstrip : pyStrip e.body = e.body := pyStrip_eq_self hbl hbr
  unfold sectionCore
  refine @noCutIn_append (seg1 idx) _ _ ?_ ?_
  · refine @noCutIn_fieldLine ((r"## Email ").data) (natDigits idx) _ (by decide)
      (containsSub_natDigits rfl (by decide) idx) ?_
    rcases dateClean_cases hdc with hd | ⟨w, hd, _⟩
    · rw [show segD e = [] from by simp [segD, hd, pyValTruthy], List.nil_append]
      exact @headerAt_cons_ne '*' _ (by decide)
    · rw [show segD e = (r"**Date**: ").data ++ strftimeYmdHms w ++ [nl, nl]
        from by simp [segD, hd, pyValTruthy]]
      exact @headerAt_cons_ne '*' _ (by decide)
  refine @noCutIn_append (segD e) _ _ ?_ ?_
  · rcases dateClean_cases hdc with hd | ⟨w, hd, _⟩
    · rw [show segD e = [] from by simp [segD, hd, pyValTruthy]]
      exact noCutIn_nil _
    · rw [show segD e = (r"**Date**: ").data ++ strftimeYmdHms w ++ [nl, nl]
        from by simp [segD, hd, pyValTruthy]]
      refine @noCutIn_fieldLine ((r"**Date**: ").data) (strftimeYmdHms w) _
        (by decide) (containsSub_strftime rfl (by decide) w) ?_
      exact @headerAt_cons_ne '*' _ (by decide)
  refine @noCutIn_append (segF e) _ _ ?_ ?_
  · refine @noCutIn_fieldLine ((r"**From**: ").data) e.«from» _ (by decide)
      (markerFree_spec (lineClean_parts hfr).2.2 hdr8 (by simp [baseMarkers])) ?_
    exact @headerAt_cons_ne '*' _ (by decide)
  refine @noCutIn_append (segT e) _ _ ?_ ?_
  · refine @noCutIn_fieldLine ((r"**To**: ").data) e.«to» _ (by decide)
      (markerFree_spec hto hdr8 (by simp [baseMarkers])) ?_
    by_cases hcce : (!e.cc.isEmpty) = true
    · rw [show segC e = (r"**CC**: ").data ++ e.cc ++ [nl, nl] from by
        unfold segC; rw [if_pos hcce]]
      exact @headerAt_cons_ne '*' _ (by decide)
    · rw [show segC e = [] from by unfold segC; rw [if_neg hcce],
        List.nil_append]
      exact @headerAt_cons_ne '*' _ (by decide)
  refine @noCutIn_append (segC e) _ _ ?_ ?_
  · by_cases hcce : (!e.cc.isEmpty) = true
    · rw [show segC e = (r"**CC**: ").data ++ e.cc ++ [nl, nl] from by
        unfold segC; rw [if_pos hcce]]
      refine @noCutIn_fieldLine ((r"**CC**: ").data) e.cc _ (by decide)
        (markerFree_spec hcc hdr8 (by simp [baseMarkers])) ?_
      exact @headerAt_cons_ne '*' _ (by decide)
    · rw [show segC e = [] from by unfold segC; rw [if_neg hcce]]
      exact noCutIn_nil _
  refine @noCutIn_append (segS e) _ _ ?_ ?_
  · refine @noCutIn_fieldLine ((r"**Subject**: ").data) e.subject _ (by decide)
      (markerFree_spec (lineClean_parts hsu).2.2 hdr8 (by simp [baseMarkers])) ?_
    exact @headerAt_concrete_false ((r"### Content").data) _ (by decide)
  refine @noCutIn_append segCt _ _ ?_ ?_
  · refine @noCutIn_fieldLine ((r"### Content").data) [] _ (by decide)
      (containsSub_nil_false (by decide)) ?_
    have hassoc : (segB e ++ (segA e ++ segEcore)) ++ (nl :: r)
        = e.body ++ ([nl, nl] ++ (segA e ++ (segEcore ++ (nl :: r)))) := by
      unfold segB
      rw [hbstrip]
      simp [List.append_assoc]
    rw [hassoc]
    exact headerAt_append_false
      (bodyMarkerFree_spec hbmf hdr8 (by simp [bodyMarkers, baseMarkers]))
      ⟨_, rfl⟩
  refine @noCutIn_append (segB e) _ _ ?_ ?_
  · rw [show segB e = e.body ++ [nl, nl] from by unfold segB; rw [hbstrip]]
    refine @noCutIn_append e.body [nl, nl] _
      (noCutIn_of_marker_free
        (bodyMarkerFree_spec hbmf hdr8 (by simp [bodyMarkers, baseMarkers]))
        ⟨_, rfl⟩)
      (noCutIn_nlnl ?_)
    by_cases hatt : (!e.attachments.isEmpty) = true
    · rw [show segA e = (r"### Attachments").data ++ [nl, nl]
        ++ e.attachments.flatMap
          (fun a => ('-' :: ' ' :: '[' :: a.1) ++ (']' :: '(' :: a.1) ++ [')', nl])
        ++ [nl] from by unfold segA; rw [if_pos hatt]]
      exact @headerAt_concrete_false ((r"### Attachments").data) _ (by decide)
    · rw [show segA e = [] from by unfold segA; rw [if_neg hatt],
        List.nil_append]
      exact @headerAt_cons_ne '-' _ (by decide)
  refine @noCutIn_append (segA e) segEcore _ ?_ ?_
  · by_cases hatt : (!e.attachments.isEmpty) = true
    · rw [show segA e = (r"### Attachments").data ++ [nl, nl]
        ++ e.attachments.flatMap
          (fun a => ('-' :: ' ' :: '[' :: a.1) ++ (']' :: '(' :: a.1) ++ [')', nl])
        ++ [nl] from by unfold segA; rw [if_pos hatt]]
      simp only [List.append_assoc]
      refine @noCutIn_append ((r"### Attachments").data) _ _
        (noCutIn_of_no_nl _ (by decide)) ?_
      refine @noCutIn_append [nl, nl] _ _ (noCutIn_nlnl ?_) ?_
      · cases hae : e.attachments with
        | nil => rw [hae] at hatt; simp at hatt
        | cons a rest =>
          rw [List.flatMap_cons]
          exact @headerAt_cons_ne '-' _ (by decide)
      · refine @noCutIn_append _ [nl] _ ?_ (noCutIn_single_nl ?_)
        · exact noCutIn_attachList _ (fun a ha => (hat a ha).2) _ ⟨_, rfl⟩
        · exact @headerAt_cons_ne '-' _ (by decide)
    · rw [show segA e = [] from by unfold segA; rw [if_neg hatt]]
      exact noCutIn_nil _
  · exact @noCutIn_append ((r"---").data) [nl] _
      (noCutIn_of_no_nl _ (by decide))
      (noCutIn_single_nl (headerAt_nl_cons r))

/-- The header line of a section starts a chunk-header match. -/
theorem headerAt_section (D rest : Txt)
    (hD : ∀ c ∈ D, (('0' ≤ c) && (c ≤ '9')) = true) (hne : D ≠ []) :
    emailHeaderAt ((r"## Email ").data ++ (D ++ nl :: rest)) = true := by
  cases D with
  | nil => exact absurd rfl hne
  | cons d D' =>
    have hd : isPyWs d = false := digit_not_ws (hD d (by simp))
    simp only [emailHeaderAt, emailHeaderNum]
    rw [if_pos (List.isPrefixOf_iff_prefix.mpr
      (show (r"## Email").data <+: (r"## Email ").data ++ (d :: D' ++ nl :: rest) from
        ⟨' ' :: (d :: D' ++ nl :: rest), rfl⟩))]
    have hdrop : ((r"## Email ").data ++ (d :: D' ++ nl :: rest)).drop 8
        = ' ' :: (d :: D' ++ nl :: rest) := rfl
    rw [hdrop]
    have hws : (' ' :: (d :: D' ++ nl :: rest)).takeWhile isPyWs = [' '] := by
      rw [List.takeWhile_cons, if_pos (by decide), List.cons_append,
        List.takeWhile_cons, if_neg (by simp [hd])]
    rw [hws]
    rw [if_neg (by simp)]
    have hds : ((' ' :: (d :: D' ++ nl :: rest)).drop ([' '] : Txt).length).takeWhile
        isDigitChar = d :: D' := by
      rw [show ((' ' :: (d :: D' ++ nl :: rest)).drop ([' '] : Txt).length)
        = d :: D' ++ nl :: rest from rfl]
      rw [@takeWhile_all_append isDigitChar (d :: D') (nl :: rest)
        (fun c hc => hD c (by simp [hc]))]
      rw [takeWhile_cons_neg _ (by decide), List.append_nil]
    rw [hds]
    rw [if_neg (by simp)]
    have hdrop2 : ((' ' :: (d :: D' ++ nl :: rest)).drop
        ([' '] : Txt).length).drop (d :: D').length = nl :: rest := by
      rw [show ((' ' :: (d :: D' ++ nl :: rest)).drop ([' '] : Txt).length)
        = (d :: D') ++ nl :: rest from rfl]
      rw [List.drop_left]
    rw [hdrop2]
    rw [show wsThenEol (nl :: rest) = true from rfl]
    rfl

def sectionsList : Nat → List MessageRecord → List Txt
  | _, [] => []
  | idx, e :: rest => renderSection idx e :: sectionsList (idx + 1) rest

theorem splitChunksGo_single_nl (cur : Txt) :
    splitChunksGo cur [nl] = [cur ++ [nl]] := rfl

theorem headerAt_joinSections (idx : Nat) (e : MessageRecord)
    (rest : List MessageRecord) :
    emailHeaderAt (joinSections idx (e :: rest)) = true := by
  show emailHeaderAt (renderSection idx e ++ joinSections (idx + 1) rest) = true
  rw [renderSection_seg]
  simp only [seg1, List.append_assoc]
  exact headerAt_section (natDigits idx) _ (natDigits_digits idx)
    (natDigits_ne_nil idx)

theorem splitGo_join (e : MessageRecord) :
    ∀ (rest : List MessageRecord), cleanRec e = true →
      (∀ x ∈ rest, cleanRec x = true) →
      ∀ idx cur, splitChunksGo cur (joinSections idx (e :: rest))
        = (cur ++ renderSection idx e) :: sectionsList (idx + 1) rest := by
  intro rest
  induction rest generalizing e with
  | nil =>
    intro he _ idx cur
    show splitChunksGo cur (renderSection idx e ++ joinSections (idx + 1) [])
      = _
    rw [show joinSections (idx + 1) [] = [] from rfl, List.append_nil]
    rw [renderSection_core]
    rw [splitChunksGo_skip (sectionCore idx e) [nl] cur
      (noCutIn_sectionCore idx he [])]
    rw [splitChunksGo_single_nl]
    rw [List.append_assoc]
    rfl
  | cons e' rest' ih =>
    intro he hrest idx cur
    show splitChunksGo cur
      (renderSection idx e ++ joinSections (idx + 1) (e' :: rest')) = _
    rw [renderSection_core, List.append_assoc]
    rw [show ([nl] : Txt) ++ joinSections (idx + 1) (e' :: rest')
      = nl :: joinSections (idx + 1) (e' :: rest') from rfl]
    rw [splitChunksGo_skip (sectionCore idx e)
      (nl :: joinSections (idx + 1) (e' :: rest')) cur
      (noCutIn_sectionCore idx he _)]
    rw [splitChunksGo_cut _ _ (headerAt_joinSections (idx + 1) e' rest')]
    rw [ih e' (hrest e' (by simp)) (fun x hx => hrest x (by simp [hx])) (idx + 1) []]
    rw [List.append_assoc]
    rw [show sectionCore idx e ++ [nl] = renderSection idx e
      from (renderSection_core idx e).symm]
    rw [List.nil_append]
    rfl

/-- Splitting the rendered document yields the header chunk followed by
one chunk per section. -/
theorem split_render (e : MessageRecord) (rest : List MessageRecord)
    (he : cleanRec e = true) (hrest : ∀ x ∈ rest, cleanRec x = true) :
    splitEmailChunks ((r"# Email Thread").data ++ [nl, nl]
        ++ joinSections 1 (e :: rest))
      = ((r"# Email Thread").data ++ [nl, nl]) :: sectionsList 1 (e :: rest) := by
  unfold splitEmailChunks
  rw [if_neg (by
    rw [List.append_assoc]
    rw [show emailHeaderAt ((r"# Email Thread").data
      ++ ([nl, nl] ++ joinSections 1 (e :: rest)))
      = false from @headerAt_concrete_false ((r"# Email Thread").data) _
        (by decide)]
    simp)]
  have hdoc : (r"# Email Thread").data ++ [nl, nl] ++ joinSections 1 (e :: rest)
      = ((r"# Email Thread").data ++ [nl]) ++ (nl :: joinSections 1 (e :: rest)) := by
    simp only [List.append_assoc]
    rfl
  rw [hdoc]
  rw [splitChunksGo_skip ((r"# Email Thread").data ++ [nl])
    (nl :: joinSections 1 (e :: rest)) []
    (@noCutIn_append ((r"# Email Thread").data) [nl] _
      (noCutIn_of_no_nl _ (by decide))
      (noCutIn_single_nl (headerAt_nl_cons _)))]
  rw [splitChunksGo_cut _ _ (headerAt_joinSections 1 e rest)]
  rw [splitGo_join e rest he hrest 1 []]
  rw [List.nil_append, List.nil_append]
  rw [show ((r"# Email Thread").data ++ [nl]) ++ [nl]
    = (r"# Email Thread").data ++ [nl, nl] from by simp]
  rfl

/-! ### Round-trip assembly -/

/-- The fields of a parsed record that the round trip is about. -/
def projP (p : ParsedEmail) : Txt × Txt × Option DT6 × Txt :=
  (p.«from», p.subject, p.date, p.content)

/-- The corresponding fields of an original record. -/
def projR (e : MessageRecord) : Txt × Txt × Option DT6 × Txt :=
  (e.«from», e.subject, dateObjOf e, e.body)

theorem pyStrip_renderSection_ne (idx : Nat) (e : MessageRecord) :
    (pyStrip (renderSection idx e)).isEmpty = false := by
  have hsh : renderSection idx e = '#' :: ((r"# Email ").data ++ natDigits idx
      ++ [nl, nl] ++ (segD e ++ (segF e ++ (segT e ++ (segC e ++ (segS e
        ++ (segCt ++ (segB e ++ (segA e ++ segE))))))))) := by
    rw [renderSection_seg]
    simp [seg1, List.append_assoc]
  rw [hsh]
  have h := pyStrip_ne_nil_of_head ((r"# Email ").data ++ natDigits idx
    ++ [nl, nl] ++ (segD e ++ (segF e ++ (segT e ++ (segC e ++ (segS e
      ++ (segCt ++ (segB e ++ (segA e ++ segE)))))))))
    (show isPyWs '#' = false from by decide)
  cases hps : pyStrip ('#' :: _) with
  | nil => exact absurd hps h
  | cons a t => rfl

theorem filterMap_sections (S : List MessageRecord)
    (hS : ∀ e ∈ S, cleanRec e = true) :
    ∀ idx, ((sectionsList idx S).filterMap (fun chunk =>
        if (pyStrip chunk).isEmpty then Option.none else parseChunk chunk)).map
      projP = S.map projR := by
  induction S with
  | nil => intro idx; rfl
  | cons e rest ih =>
    intro idx
    show ((renderSection idx e :: sectionsList (idx + 1) rest).filterMap _).map
      projP = _
    have hfa : (fun chunk => if (pyStrip chunk).isEmpty then Option.none
        else parseChunk chunk) (renderSection idx e)
        = some { email_number := findEmailNumber true (renderSection idx e)
                 date_in := dateInOf e
                 date := dateObjOf e
                 «from» := e.«from»
                 subject := e.subject
                 content := e.body } := by
      rw [show (fun chunk => if (pyStrip chunk).isEmpty then Option.none
        else parseChunk chunk) (renderSection idx e)
        = if (pyStrip (renderSection idx e)).isEmpty then Option.none
          else parseChunk (renderSection idx e) from rfl]
      rw [if_neg (by rw [pyStrip_renderSection_ne]; simp)]
      exact parseChunk_renderSection idx (hS e (by simp))
    rw [@List.filterMap_cons_some Txt ParsedEmail
      (fun chunk => if (pyStrip chunk).isEmpty then Option.none
        else parseChunk chunk)
      (renderSection idx e) (sectionsList (idx + 1) rest) _ hfa]
    rw [List.map_cons]
    rw [ih (fun x hx => hS x (by simp [hx])) (idx + 1)]
    rfl

/-- C1 (amended): for every list of clean records — whitespace-normalized
single-line marker-free From/Subject, marker-free To/CC, a stripped
marker-free body, newline-free marker-free attachment names, a subject
bearing no reply/forward prefix, and an absent-or-valid naive date —
parsing the document rendered by `create_markdown_content` recovers, up
to order, exactly the (From, Subject, date, content) quadruples of the
original records, with the parsed content equal to the original body. -/
theorem roundtrip_clean_records_amended (es : List MessageRecord)
    (h : ∀ e ∈ es, cleanRec e = true) :
    ((parse_emails (create_markdown_content es false)).map projP).Perm
      (es.map projR) := by
  cases hS : List.insertionSort (renderSortRel false) es with
  | nil =>
    have hes : es = [] := by
      have hp := List.perm_insertionSort (renderSortRel false) es
      rw [hS] at hp
      exact (hp.symm).eq_nil
    subst hes
    rw [show parse_emails (create_markdown_content [] false) = [] from by decide]
    exact List.Perm.refl _
  | cons e rest =>
    have hsort : ∀ x ∈ e :: rest, cleanRec x = true := by
      intro x hx
      refine h x ?_
      have hp := List.perm_insertionSort (renderSortRel false) es
      rw [hS] at hp
      exact hp.mem_iff.mp hx
    have hcreate : create_markdown_content es false
        = (r"# Email Thread").data ++ [nl, nl] ++ joinSections 1 (e :: rest) := by
      simp only [create_markdown_content]
      rw [hS]
    rw [hcreate]
    show ((List.insertionSort parseSortRel
      ((splitEmailChunks _).filterMap _)).map projP).Perm _
    rw [split_render e rest (hsort e (by simp)) (fun x hx => hsort x (by simp [hx]))]
    rw [@List.filterMap_cons_none Txt ParsedEmail
      (fun chunk => if (pyStrip chunk).isEmpty then Option.none
        else parseChunk chunk)
      ((r"# Email Thread").data ++ [nl, nl]) (sectionsList 1 (e :: rest))
      (by decide)]
    refine List.Perm.trans ((List.perm_insertionSort parseSortRel _).map projP) ?_
    rw [filterMap_sections (e :: rest) hsort 1]
    have hmap : ((e :: rest).map projR).Perm (es.map projR) := by
      rw [← hS]
      exact (List.perm_insertionSort (renderSortRel false) es).map projR
    exact hmap

/-- A clean record with a valid naive date and a CC line. -/
def c1RecA : MessageRecord :=
  { date := .dt ⟨⟨2024, 1, 2, 3, 4, 5⟩, Option.none⟩
    «from» := (r"Alice <alice@example.com>").data
    «to» := (r"Bob <bob@example.com>").data
    cc := (r"Carol <carol@example.com>").data
    subject := (r"Quarterly report").data
    body := (r"Hi Bob,").data ++ [nl] ++ (r"see numbers below.").data
    attachments := [] }

/-- A clean record with no date and one attachment. -/
def c1RecB : MessageRecord :=
  { date := .none
    «from» := (r"Bob <bob@example.com>").data
    «to» := (r"Alice <alice@example.com>").data
    cc := []
    subject := (r"Status").data
    body := (r"All good.").data
    attachments := [((r"notes.txt").data, [104, 105], (r"text/plain").data)] }

theorem roundtrip_clean_records_amended_witness :
    (∀ e ∈ [c1RecA, c1RecB], cleanRec e = true) ∧
    ((parse_emails (create_markdown_content [c1RecA, c1RecB] false)).map
        projP).Perm ([c1RecA, c1RecB].map projR) :=
  ⟨by decide, roundtrip_clean_records_amended [c1RecA, c1RecB] (by decide)⟩

end Eml2Md
